import Mathlib

/-!
Armadillo evaluation core: dot products, elementwise maps, replace, and the
positive-definiteness guess.

A shallow embedding of `armadillo_bits/op_dot_meat.hpp`, of `op_real`, `op_imag`,
`op_abs` and `op_replace` from `armadillo_bits/op_misc_meat.hpp`, and of
`guess_sympd` and `is_approx_sym`, with their real and complex workers, from
`armadillo_bits/sym_helper.hpp`.

* A pointer `const eT*` is a function `Nat → eT` (the element read by `A[i]`).
* `uword` counters are natural numbers; where the source computes `N - 1` or
  `N + 1` on `uword`, the wrap-around is explicit (`uword_sub`, `uword_add`).
* Element arithmetic is kept abstract: each definition asks only for the
  operations the C++ body uses (`0`, `+`, `*`, `-`), so it runs on `Int` or `Rat`
  and can be specialised to any exact ring.
* Compile-time switches (`__FAST_MATH__`, `ARMA_USE_ATLAS`, `ARMA_USE_BLAS`) are
  fields of `Config`; external kernels are fields of `Backend`.
* A loop that can `return false` from inside runs over an optional state, `none`
  standing for the early return.
* An operand of an elementwise map reads through the current content of the
  destination buffer, so that aliasing of operand and destination can be stated.
* `double` is a model of IEEE 754 binary64: finite values `m * 2^e`, the
  infinities and NaN, every operation rounded to nearest with ties to even. The
  kernels, generic in the element arithmetic, run on it as they stand;
  `sym_helper.templ` is the real worker for any element type with its own
  comparisons, and on an ordered ring it is the worker of the exact embedding.
-/

set_option autoImplicit false

/-! ## Data model -/

/-- Build configuration: the preprocessor switches the kernels branch on. -/
structure Config where
  /-- The source's `defined(__FAST_MATH__)` -/
  fast_math : Bool
  /-- The source's `defined(ARMA_USE_ATLAS)` -/
  use_atlas : Bool
  /-- The source's `defined(ARMA_USE_BLAS)` -/
  use_blas : Bool
  /-- width in bits of `blas_int` -/
  blas_int_bits : Nat
deriving DecidableEq, Repr

namespace std

/-- The source's `std::complex<T>`: a pair of a real and an imaginary part. -/
structure complex (T : Type) where
  real : T
  imag : T
deriving DecidableEq, Repr

/-- The source's `std::conj`: negate the imaginary part. -/
def conj {T : Type} [Neg T] (z : complex T) : complex T :=
  ⟨z.real, -z.imag⟩

end std

/-- State after running `for(uword i=0; i<n; ++i) body` from state `s`:
iteration `k` applies `body k`. -/
def for_uword {σ : Type} (n : Nat) (body : Nat → σ → σ) (s : σ) : σ :=
  match n with
  | 0 => s
  | k + 1 => body k (for_uword k body s)

/-! ## op_dot: manual kernels -/

namespace op_dot

/-- The loop `for(i=0, j=1; j<n_elem; i+=2, j+=2)` of the non-complex
`direct_dot_arma`, started in state `(i, j, val1, val2)`; returns the final
`(i, val1, val2)`. -/
def direct_dot_arma_loop {eT : Type} [Add eT] [Mul eT] (n_elem : Nat) (A B : Nat → eT)
    (i j : Nat) (val1 val2 : eT) : Nat × eT × eT :=
  if j < n_elem then
    direct_dot_arma_loop n_elem A B (i + 2) (j + 2) (val1 + A i * B i) (val2 + A j * B j)
  else
    (i, val1, val2)
termination_by n_elem - j

/-- The source's `op_dot::direct_dot_arma`, generic version for non-complex values. -/
def direct_dot_arma {eT : Type} [Zero eT] [Add eT] [Mul eT] (cfg : Config) (n_elem : Nat)
    (A B : Nat → eT) : eT :=
  if cfg.fast_math then
    for_uword n_elem (fun i val => val + A i * B i) 0
  else
    match direct_dot_arma_loop n_elem A B 0 1 0 0 with
    | (i, val1, val2) =>
      let val1 := if i < n_elem then val1 + A i * B i else val1
      val1 + val2

/-- The source's `op_dot::direct_dot_arma`, generic version for complex values. -/
def direct_dot_arma_cx {T : Type} [Zero T] [Add T] [Sub T] [Mul T] (n_elem : Nat)
    (A B : Nat → std.complex T) : std.complex T :=
  let r := for_uword n_elem (fun i (acc : T × T) =>
    let X := A i
    let Y := B i
    let a := X.real
    let b := X.imag
    let c := Y.real
    let d := Y.imag
    (acc.1 + ((a * c) - (b * d)), acc.2 + ((a * d) + (b * c)))) (0, 0)
  ⟨r.1, r.2⟩

end op_dot

/-! ## op_cdot: manual kernel -/

namespace op_cdot

/-- The source's `op_cdot::direct_cdot_arma`. -/
def direct_cdot_arma {T : Type} [Zero T] [Add T] [Sub T] [Mul T] (n_elem : Nat)
    (A B : Nat → std.complex T) : std.complex T :=
  let r := for_uword n_elem (fun i (acc : T × T) =>
    let X := A i
    let Y := B i
    let a := X.real
    let b := X.imag
    let c := Y.real
    let d := Y.imag
    (acc.1 + ((a * c) + (b * d)), acc.2 + ((a * d) - (b * c)))) (0, 0)
  ⟨r.1, r.2⟩

end op_cdot

/-! ## Containers and operands -/

/-- Dense matrix `Mat<eT>`: extents and the column-major buffer behind `memptr()`.
Only indices below `n_elem` are part of the matrix. -/
structure Mat (eT : Type) where
  n_rows : Nat
  n_cols : Nat
  mem : Nat → eT

namespace Mat

/-- The source's `n_elem`: number of elements, `n_rows * n_cols`. -/
def n_elem {eT : Type} (M : Mat eT) : Nat := M.n_rows * M.n_cols

/-- The source's `memptr()`: pointer to the first element. -/
def memptr {eT : Type} (M : Mat eT) : Nat → eT := M.mem

/-- The source's `colptr(c)`: pointer to the first element of column `c`. -/
def colptr {eT : Type} (M : Mat eT) (c : Nat) : Nat → eT := fun i => M.mem (c * M.n_rows + i)

end Mat

/-- Dense cube `Cube<eT>`: extents and the buffer behind `memptr()`. -/
structure Cube (eT : Type) where
  n_rows : Nat
  n_cols : Nat
  n_slices : Nat
  mem : Nat → eT

namespace Cube

/-- The source's `n_elem`: number of elements of a cube. -/
def n_elem {eT : Type} (Q : Cube eT) : Nat := Q.n_rows * Q.n_cols * Q.n_slices

end Cube

/-- An operand of a reduction (`T1`, `T2` in the templates): the compile-time
traits the dispatch tests, and what the unwrapping layers expose at run time. -/
structure Operand (eT : Type) where
  /-- The source's `is_subview_row<T>::value` -/
  is_subview_row : Bool
  /-- The source's `is_subview<T>::value` -/
  is_subview : Bool
  /-- The source's `is_Mat<T>::value` -/
  is_Mat : Bool
  /-- The source's `resolves_to_vector<T>::value` -/
  resolves_to_vector : Bool
  /-- The source's `partial_unwrap<T>::is_fast` -/
  partial_unwrap_is_fast : Bool
  /-- The source's `is_Mat<typename Proxy<T>::stored_type>::value` -/
  proxy_stored_is_Mat : Bool
  /-- The source's `Proxy<T>::use_at` -/
  proxy_use_at : Bool
  /-- The source's `quasi_unwrap<T>::has_orig_mem` -/
  has_orig_mem : Bool
  /-- parent matrix `m` of a `subview_row` -/
  m : Mat eT
  /-- first column `aux_col1` of a `subview_row` within its parent -/
  aux_col1 : Nat
  /-- the operand as a dense matrix: its extents and its elements in column-major order -/
  M : Mat eT
  /-- buffer of the matrix left after `partial_unwrap` strips transposes and a scalar factor -/
  pu_mem : Nat → eT
  /-- The source's `partial_unwrap<T>::do_times` -/
  do_times : Bool
  /-- The source's `partial_unwrap<T>::get_val()` -/
  val : eT

namespace Operand

/-- Element count of an operand. -/
def n_elem {eT : Type} (X : Operand eT) : Nat := X.M.n_elem

end Operand

/-- Modelled from the spec: `sv_keep_unwrap<T>` is not among the sources; it keeps a
subview as it is and unwraps anything else into a matrix, exposing `n_rows`,
`n_cols` and `colptr(c)` of the operand without changing its elements. -/
def sv_keep_unwrap {eT : Type} (X : Operand eT) : Mat eT := X.M

/-- Modelled from the spec: `quasi_unwrap<T>` / `unwrap<T>` are not among the
sources; they expose the operand as a dense matrix `M` with direct memory. -/
def quasi_unwrap {eT : Type} (X : Operand eT) : Mat eT := X.M

/-- Modelled from the spec: `partial_unwrap<T>` is not among the sources; it strips
transposes and a scalar factor, leaving a matrix `M` with the operand's element
count. -/
def partial_unwrap {eT : Type} (X : Operand eT) : Mat eT :=
  { n_rows := X.M.n_rows, n_cols := X.M.n_cols, mem := X.pu_mem }

namespace Proxy

/-- Modelled from the spec: `Proxy<T>::get_n_elem()` is not among the sources; it is
the operand's element count. -/
def get_n_elem {eT : Type} (X : Operand eT) : Nat := X.M.n_elem

/-- Modelled from the spec: `Proxy<T>::get_ea()` is not among the sources; it is the
linear element accessor over the operand's elements. -/
def get_ea {eT : Type} (X : Operand eT) : Nat → eT := X.M.mem

end Proxy

/-- Modelled from the spec: the macro `arma_conform_check(state, msg)` is not among
the sources; when `state` holds it raises a conformance error carrying the message
it was given, synchronously, and otherwise does nothing. -/
def arma_conform_check (state : Bool) (msg : String) : Except String Unit :=
  if state then Except.error msg else Except.ok ()

/-- External numeric kernels, consumed through a narrow interface. -/
structure Backend (eT : Type) where
  /-- The source's `atlas::cblas_dot(n_elem, A, B)` -/
  atlas_cblas_dot : Nat → (Nat → eT) → (Nat → eT) → eT
  /-- The source's `atlas::cblas_cx_dot(n_elem, A, B)` -/
  atlas_cblas_cx_dot : Nat → (Nat → eT) → (Nat → eT) → eT
  /-- The source's `blas::dot(n_elem, A, B)` -/
  blas_dot : Nat → (Nat → eT) → (Nat → eT) → eT
  /-- The source's `blas::gemv(trans, m, n, alpha, A, ldA, x, incx, beta, y, incy)`: the vector
  `y` after the call -/
  blas_gemv : Char → Int → Int → eT → (Nat → eT) → Int → (Nat → eT) → Int → eT →
    (Nat → eT) → Int → (Nat → eT)

/-- Conversion `blas_int(n)` of a `uword` to a signed integer of `bits` bits. -/
def blas_int (bits : Nat) (n : Nat) : Int :=
  ((n : Int) + 2 ^ (bits - 1)) % 2 ^ bits - 2 ^ (bits - 1)

/-! ## op_dot: dispatch -/

namespace op_dot

/-- The source's `op_dot::direct_dot`, float and double version. -/
def direct_dot {eT : Type} [Zero eT] [Add eT] [Mul eT] (cfg : Config) (be : Backend eT)
    (n_elem : Nat) (A B : Nat → eT) : eT :=
  if n_elem ≤ 32 then direct_dot_arma cfg n_elem A B
  else if cfg.use_atlas then be.atlas_cblas_dot n_elem A B
  else if cfg.use_blas then be.blas_dot n_elem A B
  else direct_dot_arma cfg n_elem A B

/-- The source's `op_dot::direct_dot`, complex version. -/
def direct_dot_cx {T : Type} [Zero T] [Add T] [Sub T] [Mul T] (cfg : Config)
    (be : Backend (std.complex T)) (n_elem : Nat) (A B : Nat → std.complex T) :
    std.complex T :=
  if n_elem ≤ 16 then direct_dot_arma_cx n_elem A B
  else if cfg.use_atlas then be.atlas_cblas_cx_dot n_elem A B
  else if cfg.use_blas then be.blas_dot n_elem A B
  else direct_dot_arma_cx n_elem A B

/-- The source's `op_dot::direct_dot`, integral version. -/
def direct_dot_integral {eT : Type} [Zero eT] [Add eT] [Mul eT] (cfg : Config)
    (n_elem : Nat) (A B : Nat → eT) : eT :=
  direct_dot_arma cfg n_elem A B

/-- The source's `op_dot::apply_proxy_linear`, non-complex version; `A`, `B` are the element
accessors `PA.get_ea()`, `PB.get_ea()`. -/
def apply_proxy_linear {eT : Type} [Zero eT] [Add eT] [Mul eT] (PA PB : Operand eT) : eT :=
  let N := Proxy.get_n_elem PA
  let A := Proxy.get_ea PA
  let B := Proxy.get_ea PB
  match direct_dot_arma_loop N A B 0 1 0 0 with
  | (i, val1, val2) =>
    let val1 := if i < N then val1 + A i * B i else val1
    val1 + val2

end op_dot

/-- The overloads that the element type `eT` selects at compile time. -/
structure ElemType (eT : Type) where
  /-- The source's `is_cx<eT>::yes` -/
  is_cx : Bool
  /-- the `op_dot::direct_dot` overload enabled for `eT` -/
  direct_dot : Nat → (Nat → eT) → (Nat → eT) → eT
  /-- the `op_dot::apply_proxy_linear` overload enabled for `eT` -/
  apply_proxy_linear : Operand eT → Operand eT → eT

namespace ElemType

/-- Overloads selected by `float` and `double`. -/
def real {eT : Type} [Zero eT] [Add eT] [Mul eT] (cfg : Config) (be : Backend eT) :
    ElemType eT :=
  { is_cx := false, direct_dot := op_dot.direct_dot cfg be,
    apply_proxy_linear := op_dot.apply_proxy_linear }

/-- Overloads selected by the integral element types. -/
def integral {eT : Type} [Zero eT] [Add eT] [Mul eT] (cfg : Config) : ElemType eT :=
  { is_cx := false, direct_dot := op_dot.direct_dot_integral cfg,
    apply_proxy_linear := op_dot.apply_proxy_linear }

end ElemType

namespace op_dot

/-- The message every conformance check of `op_dot::apply` passes on. -/
def conform_msg : String := "dot(): objects must have the same number of elements"

/-- The source's `op_dot::apply(X, Y)`. The branches are, in order: subview_row optimisation,
subview optimisation, vector optimisation, direct_mem optimisation, and the
linear proxy. -/
def apply {eT : Type} [Zero eT] [Add eT] [Mul eT] (et : ElemType eT) (X Y : Operand eT) :
    Except String eT :=
  if (X.is_subview_row && Y.is_subview_row) && ((X.m.n_rows == 1) && (Y.m.n_rows == 1)) then do
    arma_conform_check (X.n_elem != Y.n_elem) conform_msg
    let A_mem := X.m.memptr
    let B_mem := Y.m.memptr
    pure (et.direct_dot X.n_elem (fun i => A_mem (X.aux_col1 + i)) (fun i => B_mem (Y.aux_col1 + i)))
  else if X.is_subview || Y.is_subview then
    let A := sv_keep_unwrap X
    let B := sv_keep_unwrap Y
    let A_n_rows := A.n_rows
    let A_n_cols := A.n_cols
    if (A_n_rows == B.n_rows) && (A_n_cols == B.n_cols) then
      pure (for_uword A_n_cols
        (fun c acc => acc + et.direct_dot A_n_rows (A.colptr c) (B.colptr c)) 0)
    else do
      let UUA := quasi_unwrap X
      let UUB := quasi_unwrap Y
      arma_conform_check (UUA.n_elem != UUB.n_elem) conform_msg
      pure (et.direct_dot UUA.n_elem UUA.memptr UUB.memptr)
  else if (!et.is_cx) && X.resolves_to_vector && Y.resolves_to_vector
      && X.partial_unwrap_is_fast && Y.partial_unwrap_is_fast then do
    let A := partial_unwrap X
    let B := partial_unwrap Y
    arma_conform_check (A.n_elem != B.n_elem) conform_msg
    let val := et.direct_dot A.n_elem A.memptr B.memptr
    pure (if X.do_times || Y.do_times then val * X.val * Y.val else val)
  else
    let proxy_is_mat := X.proxy_stored_is_Mat && Y.proxy_stored_is_Mat
    let use_at := X.proxy_use_at || Y.proxy_use_at
    let have_direct_mem := X.has_orig_mem && Y.has_orig_mem
    if proxy_is_mat || use_at || have_direct_mem then do
      let A := quasi_unwrap X
      let B := quasi_unwrap Y
      arma_conform_check (A.n_elem != B.n_elem) conform_msg
      pure (et.direct_dot A.n_elem A.memptr B.memptr)
    else do
      arma_conform_check (Proxy.get_n_elem X != Proxy.get_n_elem Y) conform_msg
      pure (et.apply_proxy_linear X Y)

end op_dot

/-! ## op_norm_dot -/

/-- The constructor `Col<eT>(ptr, n_elem, false)`: a column vector over borrowed
memory. -/
def Col {eT : Type} (ptr : Nat → eT) (n_elem : Nat) : Mat eT :=
  { n_rows := n_elem, n_cols := 1, mem := ptr }

namespace Operand

/-- Modelled from the spec: the traits of `Col<eT>` are not among the sources; a
column vector is a matrix with direct memory, resolves to a vector, and
`partial_unwrap` leaves it as it is with `do_times = false` and `get_val() = 1`. -/
def of_Col {eT : Type} [One eT] (A : Mat eT) : Operand eT :=
  { is_subview_row := false, is_subview := false, is_Mat := true,
    resolves_to_vector := true, partial_unwrap_is_fast := true,
    proxy_stored_is_Mat := true, proxy_use_at := false, has_orig_mem := true,
    m := A, aux_col1 := 0, M := A, pu_mem := A.mem, do_times := false, val := 1 }

end Operand

namespace op_norm_dot

/-- The message the conformance check of `op_norm_dot::apply` passes on. -/
def conform_msg : String := "norm_dot(): objects must have the same number of elements"

/-- The source's `op_norm_dot::apply(X, Y)`; `norm A` stands for `norm(A,2)`, which is not among
the sources, and `/` divides an element by a value of the companion real type. -/
def apply {eT T : Type} [Zero eT] [One eT] [Add eT] [Mul eT] [Zero T] [Mul T]
    [DecidableEq T] [HDiv eT T eT] (et : ElemType eT) (norm : Mat eT → T)
    (X Y : Operand eT) : Except String eT := do
  let tmp1 := quasi_unwrap X
  let tmp2 := quasi_unwrap Y
  let A := Col tmp1.memptr tmp1.n_elem
  let B := Col tmp2.memptr tmp2.n_elem
  arma_conform_check (A.n_elem != B.n_elem) conform_msg
  let denom := norm A * norm B
  if denom ≠ 0 then do
    let d ← op_dot.apply et (Operand.of_Col A) (Operand.of_Col B)
    pure (d / denom)
  else
    pure 0

end op_norm_dot

/-! ## op_cdot: dispatch -/

namespace op_cdot

/-- The message every conformance check of `op_cdot` passes on. -/
def conform_msg : String := "cdot(): objects must have the same number of elements"

/-- The source's `op_cdot::direct_cdot`; `result` is the initial content of the local array
`eT result[2]` handed to `gemv` as `y`. -/
def direct_cdot {T : Type} [Zero T] [One T] [Add T] [Sub T] [Mul T] (cfg : Config)
    (be : Backend (std.complex T)) (result : Nat → std.complex T) (n_elem : Nat)
    (A B : Nat → std.complex T) : std.complex T :=
  if n_elem ≤ 32 then direct_cdot_arma n_elem A B
  else if cfg.use_blas then
    let trans := 'C'
    let m := blas_int cfg.blas_int_bits n_elem
    let n : Int := 1
    let inc : Int := 1
    let alpha : std.complex T := ⟨1, 0⟩
    let beta : std.complex T := ⟨0, 0⟩
    (be.blas_gemv trans m n alpha A m B inc beta result inc) 0
  else direct_cdot_arma n_elem A B

/-- The source's `op_cdot::apply_unwrap(X, Y)`. -/
def apply_unwrap {T : Type} [Zero T] [One T] [Add T] [Sub T] [Mul T] (cfg : Config)
    (be : Backend (std.complex T)) (result : Nat → std.complex T)
    (X Y : Operand (std.complex T)) : Except String (std.complex T) := do
  let A := quasi_unwrap X
  let B := quasi_unwrap Y
  arma_conform_check (A.n_elem != B.n_elem) conform_msg
  pure (direct_cdot cfg be result A.n_elem A.mem B.mem)

/-- The source's `op_cdot::apply_proxy(X, Y)`. -/
def apply_proxy {T : Type} [Zero T] [One T] [Add T] [Sub T] [Mul T] (cfg : Config)
    (be : Backend (std.complex T)) (result : Nat → std.complex T)
    (X Y : Operand (std.complex T)) : Except String (std.complex T) :=
  let use_at := X.proxy_use_at || Y.proxy_use_at
  if use_at == false then do
    let N := Proxy.get_n_elem X
    arma_conform_check (N != Proxy.get_n_elem Y) conform_msg
    let A := Proxy.get_ea X
    let B := Proxy.get_ea Y
    let r := for_uword N (fun i (acc : T × T) =>
      let AA := A i
      let BB := B i
      let a := AA.real
      let b := AA.imag
      let c := BB.real
      let d := BB.imag
      (acc.1 + ((a * c) + (b * d)), acc.2 + ((a * d) - (b * c)))) (0, 0)
    pure ⟨r.1, r.2⟩
  else
    apply_unwrap cfg be result X Y

/-- The source's `op_cdot::apply(X, Y)`. -/
def apply {T : Type} [Zero T] [One T] [Add T] [Sub T] [Mul T] (cfg : Config)
    (be : Backend (std.complex T)) (result : Nat → std.complex T)
    (X Y : Operand (std.complex T)) : Except String (std.complex T) :=
  if X.is_Mat && Y.is_Mat then apply_unwrap cfg be result X Y
  else apply_proxy cfg be result X Y

end op_cdot

/-! ## op_dot_mixed -/

namespace op_dot_mixed

/-- The message the conformance check of `op_dot_mixed::apply` passes on. -/
def conform_msg : String := "dot(): objects must have the same number of elements"

/-- The source's `op_dot_mixed::apply(A, B)`; `up1` and `up2` are
`upgrade_val<in_eT1,in_eT2>::apply` on an element of the first and of the second
operand. -/
def apply {in_eT1 in_eT2 out_eT : Type} [Zero out_eT] [Add out_eT] [Mul out_eT]
    (up1 : in_eT1 → out_eT) (up2 : in_eT2 → out_eT) (A : Operand in_eT1)
    (B : Operand in_eT2) : Except String out_eT := do
  let N := Proxy.get_n_elem A
  arma_conform_check (N != Proxy.get_n_elem B) conform_msg
  pure (for_uword N (fun i acc => acc + up1 (Proxy.get_ea A i) * up2 (Proxy.get_ea B i)) 0)

end op_dot_mixed

/-! ## op_replace -/

/-- Expression node `mtOp<out_eT, T1, op_type>`: the operand and its auxiliary
data. -/
structure mtOp (out_eT in_eT T1 : Type) where
  m : T1
  aux : in_eT
  aux_out_eT : out_eT
  aux_uword_a : Nat
  aux_uword_b : Nat

/-- Modelled from the spec: `Mat::operator=` is not among the sources; the
destination takes the shape and the elements of the evaluated operand. -/
def Mat.assign {eT : Type} (_out X : Mat eT) : Mat eT :=
  { n_rows := X.n_rows, n_cols := X.n_cols, mem := X.mem }

/-- Modelled from the spec: `Mat::replace(old_val, new_val)` is not among the
sources; it is an in-place scan of the buffer that substitutes every element equal
to `old_val`. -/
def Mat.replace {eT : Type} [DecidableEq eT] (M : Mat eT) (old_val new_val : eT) : Mat eT :=
  { n_rows := M.n_rows, n_cols := M.n_cols,
    mem := for_uword M.n_elem
      (fun i mem => if mem i = old_val then Function.update mem i new_val else mem) M.mem }

/-- Modelled from the spec: `Cube::operator=` is not among the sources; the
destination takes the shape and the elements of the evaluated operand. -/
def Cube.assign {eT : Type} (_out X : Cube eT) : Cube eT :=
  { n_rows := X.n_rows, n_cols := X.n_cols, n_slices := X.n_slices, mem := X.mem }

/-- Modelled from the spec: `Cube::replace(old_val, new_val)` is not among the
sources; it is an in-place scan of the buffer that substitutes every element equal
to `old_val`. -/
def Cube.replace {eT : Type} [DecidableEq eT] (Q : Cube eT) (old_val new_val : eT) :
    Cube eT :=
  { n_rows := Q.n_rows, n_cols := Q.n_cols, n_slices := Q.n_slices,
    mem := for_uword Q.n_elem
      (fun i mem => if mem i = old_val then Function.update mem i new_val else mem) Q.mem }

namespace op_replace

/-- The source's `op_replace::apply(Mat<eT>& out, const mtOp<eT,T1,op_replace>& in)`; returns the
destination after the call. -/
def apply {eT : Type} [DecidableEq eT] (out : Mat eT) (expr : mtOp eT eT (Mat eT)) : Mat eT :=
  let old_val := expr.aux
  let new_val := expr.aux_out_eT
  let out := Mat.assign out expr.m
  out.replace old_val new_val

/-- The source's `op_replace::apply(Cube<eT>& out, const mtOpCube<eT,T1,op_replace>& in)`;
returns the destination after the call. -/
def apply_cube {eT : Type} [DecidableEq eT] (out : Cube eT) (expr : mtOp eT eT (Cube eT)) :
    Cube eT :=
  let old_val := expr.aux
  let new_val := expr.aux_out_eT
  let out := Cube.assign out expr.m
  out.replace old_val new_val

end op_replace

/-! ## Reading an error message, and concrete inputs -/

/-- A message mentions a text when the text occurs in it as a contiguous run of
characters. -/
def mentions (msg text : String) : Prop := text.toList <:+: msg.toList

instance (msg text : String) : Decidable (mentions msg text) := by
  unfold mentions
  infer_instance

/-- A build with BLAS enabled, no ATLAS, and a 32-bit `blas_int`. -/
def blas_config : Config :=
  { fast_math := false, use_atlas := false, use_blas := true, blas_int_bits := 32 }

/-- A backend whose every kernel returns the same value `v`. -/
def const_backend {eT : Type} (v : eT) : Backend eT :=
  { atlas_cblas_dot := fun _ _ _ => v, atlas_cblas_cx_dot := fun _ _ _ => v,
    blas_dot := fun _ _ _ => v,
    blas_gemv := fun _ _ _ _ _ _ _ _ _ _ _ => fun _ => v }

/-- The pointer to a buffer holding the listed integers. -/
def int_ptr (l : List Int) : Nat → Int := fun i => l.getD i 0

/-- The column vector holding the listed integers, as an operand. -/
def int_col (l : List Int) : Operand Int := Operand.of_Col (Col (int_ptr l) l.length)

/-- The matrix of the given extents holding the listed integers column by column. -/
def int_mat (n_rows n_cols : Nat) (l : List Int) : Mat Int :=
  { n_rows := n_rows, n_cols := n_cols, mem := int_ptr l }

/-- The column vector holding the listed complex integers, as an operand. -/
def cx_col (l : List (std.complex Int)) : Operand (std.complex Int) :=
  { is_subview_row := false, is_subview := false, is_Mat := true,
    resolves_to_vector := true, partial_unwrap_is_fast := true,
    proxy_stored_is_Mat := true, proxy_use_at := false, has_orig_mem := true,
    m := Col (fun i => l.getD i ⟨0, 0⟩) l.length, aux_col1 := 0,
    M := Col (fun i => l.getD i ⟨0, 0⟩) l.length, pu_mem := fun i => l.getD i ⟨0, 0⟩,
    do_times := false, val := ⟨1, 0⟩ }

/-- Sum of the squares of the elements of an integer matrix: a stand-in for a norm
that runs on integers, zero exactly on the all-zero matrix. -/
def sq_norm (A : Mat Int) : Int :=
  for_uword A.n_elem (fun i acc => acc + A.mem i * A.mem i) 0

/-! ## Complex arithmetic, and the dot products as the spec words them -/

namespace std

/-- Sum of two `std::complex<T>` values, part by part. -/
def complex.add {T : Type} [Add T] (x y : complex T) : complex T :=
  ⟨x.real + y.real, x.imag + y.imag⟩

/-- Product of two `std::complex<T>` values:
`(a + b i) (c + d i) = (a c - b d) + (a d + b c) i`. -/
def complex.mul {T : Type} [Add T] [Sub T] [Mul T] (x y : complex T) : complex T :=
  ⟨x.real * y.real - x.imag * y.imag, x.real * y.imag + x.imag * y.real⟩

instance {T : Type} [Zero T] : Zero (complex T) := ⟨⟨0, 0⟩⟩

instance {T : Type} [Add T] : Add (complex T) := ⟨complex.add⟩

instance {T : Type} [Add T] [Sub T] [Mul T] : Mul (complex T) := ⟨complex.mul⟩

end std

/-- The unconjugated complex dot product in the spec's words: the sum over `i` in
`[0, n)` of the complex product `A[i] * B[i]`. -/
def cx_sum_of_products {T : Type} [Zero T] [Add T] [Sub T] [Mul T] (n : Nat)
    (A B : Nat → std.complex T) : std.complex T :=
  for_uword n (fun i acc => acc + A i * B i) 0

/-! ## Elementwise maps: op_real, op_imag, op_abs -/

namespace Mat

/-- The source's `at(row, col)`: the element at a row and a column of a
column-major matrix. -/
def at_ {eT : Type} (M : Mat eT) (row col : Nat) : eT := M.mem (row + col * M.n_rows)

/-- Modelled from the spec: `Mat::set_size(n_rows, n_cols)` is not among the
sources; it resizes, and the contents are unspecified after the call unless the
extents are unchanged. `fresh` is the unspecified content of a resized buffer. -/
def set_size {eT : Type} (out : Mat eT) (fresh : Nat → eT) (n_rows n_cols : Nat) : Mat eT :=
  if out.n_rows = n_rows ∧ out.n_cols = n_cols then out
  else { n_rows := n_rows, n_cols := n_cols, mem := fresh }

/-- Modelled from the spec: `Mat::zeros(n_rows, n_cols)` is not among the sources;
it resizes and sets every element to zero. -/
def zeros {eT : Type} [Zero eT] (out : Mat eT) (fresh : Nat → eT) (n_rows n_cols : Nat) :
    Mat eT :=
  { n_rows := n_rows, n_cols := n_cols,
    mem := for_uword (n_rows * n_cols) (fun i mem => Function.update mem i 0)
      (out.set_size fresh n_rows n_cols).mem }

end Mat

namespace Cube

/-- Modelled from the spec: `Cube::set_size(n_rows, n_cols, n_slices)` is not among
the sources; it resizes, and the contents are unspecified after the call unless the
extents are unchanged. `fresh` is the unspecified content of a resized buffer. -/
def set_size {eT : Type} (out : Cube eT) (fresh : Nat → eT) (n_rows n_cols n_slices : Nat) :
    Cube eT :=
  if out.n_rows = n_rows ∧ out.n_cols = n_cols ∧ out.n_slices = n_slices then out
  else { n_rows := n_rows, n_cols := n_cols, n_slices := n_slices, mem := fresh }

/-- Modelled from the spec: `Cube::zeros(n_rows, n_cols, n_slices)` is not among the
sources; it resizes and sets every element to zero. -/
def zeros {eT : Type} [Zero eT] (out : Cube eT) (fresh : Nat → eT)
    (n_rows n_cols n_slices : Nat) : Cube eT :=
  { n_rows := n_rows, n_cols := n_cols, n_slices := n_slices,
    mem := for_uword (n_rows * n_cols * n_slices) (fun i mem => Function.update mem i 0)
      (out.set_size fresh n_rows n_cols n_slices).mem }

end Cube

/-- Modelled from the spec: `Proxy<T1>` is not among the sources. This is what it
exposes of the operand of an elementwise map whose destination holds elements of
type `T`: the trait `use_at`, the extents, the linear element accessor `ea` and the
random access `at_`. Each read takes the current content of the destination buffer,
so that an operand that is the destination itself reads what has been written. -/
structure UnaryArg (eT T : Type) where
  /-- Trait `Proxy<T1>::use_at` -/
  use_at : Bool
  /-- Value of `get_n_rows()` -/
  n_rows : Nat
  /-- Value of `get_n_cols()` -/
  n_cols : Nat
  /-- Element `get_ea()[i]` while the destination buffer holds `cur` -/
  ea : (cur : Nat → T) → (i : Nat) → eT
  /-- Element `at(row, col)` while the destination buffer holds `cur` -/
  at_ : (cur : Nat → T) → (row col : Nat) → eT

namespace UnaryArg

/-- Value of `get_n_elem()`. -/
def n_elem {eT T : Type} (P : UnaryArg eT T) : Nat := P.n_rows * P.n_cols

/-- An operand kept apart from the destination: the matrix `X`, read in
column-major order by `ea` and by row and column by `at_`. -/
def of_Mat {eT T : Type} (use_at : Bool) (X : Mat eT) : UnaryArg eT T :=
  { use_at := use_at, n_rows := X.n_rows, n_cols := X.n_cols,
    ea := fun _ i => X.mem i, at_ := fun _ row col => X.at_ row col }

/-- The operand that is the destination `A` itself: same buffer, same element
type, direct memory (`use_at = false`). -/
def of_dest {T : Type} (A : Mat T) : UnaryArg T T :=
  { use_at := false, n_rows := A.n_rows, n_cols := A.n_cols,
    ea := fun cur i => cur i, at_ := fun cur row col => cur (row + col * A.n_rows) }

/-- The operand does not alias the destination: no content of the destination
buffer changes what a read of the operand returns. -/
def apart {eT T : Type} (P : UnaryArg eT T) : Prop :=
  (∀ cur cur1 i, P.ea cur i = P.ea cur1 i) ∧
  (∀ cur cur1 row col, P.at_ cur row col = P.at_ cur1 row col)

end UnaryArg

/-- Modelled from the spec: `ProxyCube<T1>` is not among the sources. The cube
counterpart of `UnaryArg`. -/
structure UnaryArgCube (eT T : Type) where
  /-- Trait `ProxyCube<T1>::use_at` -/
  use_at : Bool
  /-- Value of `get_n_rows()` -/
  n_rows : Nat
  /-- Value of `get_n_cols()` -/
  n_cols : Nat
  /-- Value of `get_n_slices()` -/
  n_slices : Nat
  /-- Element `get_ea()[i]` while the destination buffer holds `cur` -/
  ea : (cur : Nat → T) → (i : Nat) → eT
  /-- Element `at(row, col, slice)` while the destination buffer holds `cur` -/
  at_ : (cur : Nat → T) → (row col slice : Nat) → eT

namespace UnaryArgCube

/-- Value of `get_n_elem()`. -/
def n_elem {eT T : Type} (P : UnaryArgCube eT T) : Nat := P.n_rows * P.n_cols * P.n_slices

/-- An operand kept apart from the destination: the cube `Q`. -/
def of_Cube {eT T : Type} (use_at : Bool) (Q : Cube eT) : UnaryArgCube eT T :=
  { use_at := use_at, n_rows := Q.n_rows, n_cols := Q.n_cols, n_slices := Q.n_slices,
    ea := fun _ i => Q.mem i,
    at_ := fun _ row col slice => Q.mem (row + col * Q.n_rows + slice * (Q.n_rows * Q.n_cols)) }

end UnaryArgCube

/-- The loop nest `for col, for row: *out_mem = f(P.at(row,col)); out_mem++` of the
`use_at` branch of a matrix map. The state is the buffer and the offset of the
running pointer `out_mem` from the start of the buffer. -/
def fill_at {eT T : Type} (f : eT → T) (P : UnaryArg eT T) (n_rows n_cols : Nat)
    (out_mem : Nat → T) : (Nat → T) × Nat :=
  for_uword n_cols (fun col st =>
    for_uword n_rows (fun row st =>
      (Function.update st.1 st.2 (f (P.at_ st.1 row col)), st.2 + 1)) st) (out_mem, 0)

/-- The loop nest `for slice, for col, for row: *out_mem = f(P.at(row,col,slice));
out_mem++` of the `use_at` branch of a cube map. -/
def fill_at_cube {eT T : Type} (f : eT → T) (P : UnaryArgCube eT T)
    (n_rows n_cols n_slices : Nat) (out_mem : Nat → T) : (Nat → T) × Nat :=
  for_uword n_slices (fun slice st =>
    for_uword n_cols (fun col st =>
      for_uword n_rows (fun row st =>
        (Function.update st.1 st.2 (f (P.at_ st.1 row col slice)), st.2 + 1)) st) st)
    (out_mem, 0)

namespace op_real

/-- The source's `op_real::apply` on a matrix; `real` is `std::real`. Returns the
destination after the call. -/
def apply {eT T : Type} (real : eT → T) (fresh : Nat → T) (out : Mat T)
    (X : mtOp T eT (UnaryArg eT T)) : Mat T :=
  let P := X.m
  let n_rows := P.n_rows
  let n_cols := P.n_cols
  let out := out.set_size fresh n_rows n_cols
  let out_mem := out.memptr
  if P.use_at == false then
    let n_elem := P.n_elem
    { n_rows := out.n_rows, n_cols := out.n_cols,
      mem := for_uword n_elem (fun i mem => Function.update mem i (real (P.ea mem i))) out_mem }
  else
    { n_rows := out.n_rows, n_cols := out.n_cols,
      mem := (fill_at real P n_rows n_cols out_mem).1 }

end op_real

namespace op_imag

/-- The source's `op_imag::apply` on a matrix; `is_cx` is `is_cx<eT>::yes` and
`tmp_imag` is `access::tmp_imag`. Returns the destination after the call. -/
def apply {eT T : Type} [Zero T] (is_cx : Bool) (tmp_imag : eT → T) (fresh : Nat → T)
    (out : Mat T) (X : mtOp T eT (UnaryArg eT T)) : Mat T :=
  let P := X.m
  if !is_cx then out.zeros fresh P.n_rows P.n_cols
  else
    let n_rows := P.n_rows
    let n_cols := P.n_cols
    let out := out.set_size fresh n_rows n_cols
    let out_mem := out.memptr
    if P.use_at == false then
      let n_elem := P.n_elem
      { n_rows := out.n_rows, n_cols := out.n_cols,
        mem := for_uword n_elem (fun i mem => Function.update mem i (tmp_imag (P.ea mem i)))
          out_mem }
    else
      { n_rows := out.n_rows, n_cols := out.n_cols,
        mem := (fill_at tmp_imag P n_rows n_cols out_mem).1 }

/-- The source's `op_imag::apply` on a cube. Returns the destination after the
call. -/
def apply_cube {eT T : Type} [Zero T] (is_cx : Bool) (tmp_imag : eT → T) (fresh : Nat → T)
    (out : Cube T) (X : mtOp T eT (UnaryArgCube eT T)) : Cube T :=
  let P := X.m
  if !is_cx then out.zeros fresh P.n_rows P.n_cols P.n_slices
  else
    let n_rows := P.n_rows
    let n_cols := P.n_cols
    let n_slices := P.n_slices
    let out := out.set_size fresh n_rows n_cols n_slices
    let out_mem := out.mem
    if P.use_at == false then
      let n_elem := P.n_elem
      { n_rows := out.n_rows, n_cols := out.n_cols, n_slices := out.n_slices,
        mem := for_uword n_elem (fun i mem => Function.update mem i (tmp_imag (P.ea mem i)))
          out_mem }
    else
      { n_rows := out.n_rows, n_cols := out.n_cols, n_slices := out.n_slices,
        mem := (fill_at_cube tmp_imag P n_rows n_cols n_slices out_mem).1 }

end op_imag

namespace op_abs

/-- The source's `op_abs::apply` on a matrix; `abs` is `std::abs`. The OpenMP build
runs the same loop body over the same index range, each iteration writing its own
position, so both builds are this loop. Returns the destination after the call. -/
def apply {eT T : Type} (abs : eT → T) (fresh : Nat → T) (out : Mat T)
    (X : mtOp T eT (UnaryArg eT T)) : Mat T :=
  let P := X.m
  let n_rows := P.n_rows
  let n_cols := P.n_cols
  let out := out.set_size fresh n_rows n_cols
  let out_mem := out.memptr
  if P.use_at == false then
    let n_elem := P.n_elem
    { n_rows := out.n_rows, n_cols := out.n_cols,
      mem := for_uword n_elem (fun i mem => Function.update mem i (abs (P.ea mem i))) out_mem }
  else
    { n_rows := out.n_rows, n_cols := out.n_cols,
      mem := (fill_at abs P n_rows n_cols out_mem).1 }

end op_abs

/-- Two matrix states are the same: equal extents and equal elements at every
position of the matrix. -/
def Mat.same {T : Type} (A B : Mat T) : Prop :=
  A.n_rows = B.n_rows ∧ A.n_cols = B.n_cols ∧ ∀ p, p < A.n_elem → A.mem p = B.mem p

/-! ## sym_helper -/

/-- State after running `for(uword i=start; i<n; ++i) body` from state `s`. -/
def for_uword_from {σ : Type} (start n : Nat) (body : Nat → σ → σ) (s : σ) : σ :=
  for_uword (n - start) (fun k => body (start + k)) s

/-- What the element type and the target fix for `sym_helper`: the constant
`std::numeric_limits<eT>::epsilon()`, the test `arma_isnonfinite`, and the width of
`uword`. None of them is among the sources. -/
structure Numeric (eT : Type) where
  /-- Constant `std::numeric_limits<eT>::epsilon()` -/
  epsilon : eT
  /-- Test `arma_isnonfinite(x)` -/
  arma_isnonfinite : eT → Bool
  /-- Width of `uword` in bits -/
  uword_bits : Nat

/-- Unsigned subtraction `a - b` on `uword`, wrapping around. -/
def uword_sub (bits a b : Nat) : Nat := (a + 2 ^ bits - b % 2 ^ bits) % 2 ^ bits

/-- Unsigned addition `a + b` on `uword`, wrapping around. -/
def uword_add (bits a b : Nat) : Nat := (a + b) % 2 ^ bits

namespace sym_helper

/-- The first loop of the real `guess_sympd_worker`, over the diagonal. The state is
`(A_col, diag_below_tol, max_diag)`, with the pointer `A_col` kept as an offset
into `A_mem`; `none` stands for `return false`. -/
def guess_sympd_worker_diag {eT : Type} [LinearOrderedRing eT] (lim : Numeric eT) (tol : eT)
    (N : Nat) (A_mem : Nat → eT) : Option (Nat × Bool × eT) :=
  for_uword N (fun j st =>
    match st with
    | none => none
    | some (A_col, diag_below_tol, max_diag) =>
      let A_jj := A_mem (A_col + j)
      if A_jj ≤ 0 then none
      else if lim.arma_isnonfinite A_jj then none
      else
        let diag_below_tol := if A_jj ≥ tol then false else diag_below_tol
        let max_diag := if A_jj > max_diag then A_jj else max_diag
        some (A_col + N, diag_below_tol, max_diag)) (some (0, true, 0))

/-- The inner loop `for(uword i=jp1; i < N; ++i)` of the real `guess_sympd_worker`
for one column `j`. The state is `(A_ji_ptr, A_ii_ptr)`, both offsets into `A_mem`;
`none` stands for `return false`. -/
def guess_sympd_worker_inner {eT : Type} [LinearOrderedRing eT] (tol max_diag : eT)
    (N Np1 : Nat) (A_mem : Nat → eT) (A_col j : Nat) : Option (Nat × Nat) :=
  let A_jj := A_mem (A_col + j)
  let jp1 := j + 1
  for_uword_from jp1 N (fun i st =>
    match st with
    | none => none
    | some (A_ji_ptr, A_ii_ptr) =>
      let A_ij := A_mem (A_col + i)
      let A_ji := A_mem A_ji_ptr
      let A_ij_abs := |A_ij|
      let A_ji_abs := |A_ji|
      if A_ij_abs ≥ max_diag then none
      else
        let A_delta := |A_ij - A_ji|
        let A_abs_max := max A_ij_abs A_ji_abs
        if (A_delta > tol) ∧ (A_delta > (A_abs_max * tol)) then none
        else
          let A_ii := A_mem A_ii_ptr
          if (A_ij_abs + A_ij_abs) ≥ (A_ii + A_jj) then none
          else some (A_ji_ptr + N, A_ii_ptr + Np1))
    (some (j + jp1 * N, jp1 + jp1 * N))

/-- The second loop `for(uword j=0; j < Nm1; ++j)` of the real
`guess_sympd_worker`. The state is the offset of `A_col`; `none` stands for
`return false`. -/
def guess_sympd_worker_pairs {eT : Type} [LinearOrderedRing eT] (tol max_diag : eT)
    (N Nm1 Np1 : Nat) (A_mem : Nat → eT) : Option Nat :=
  for_uword Nm1 (fun j st =>
    match st with
    | none => none
    | some A_col =>
      match guess_sympd_worker_inner tol max_diag N Np1 A_mem A_col j with
      | none => none
      | some _ => some (A_col + N)) (some 0)

/-- The source's `sym_helper::guess_sympd_worker` for a non-complex element type. -/
def guess_sympd_worker {eT : Type} [LinearOrderedRing eT] (lim : Numeric eT) (A : Mat eT) :
    Bool :=
  let tol := 100 * lim.epsilon
  let N := A.n_rows
  let A_mem := A.memptr
  match guess_sympd_worker_diag lim tol N A_mem with
  | none => false
  | some (_, diag_below_tol, max_diag) =>
    if diag_below_tol then false
    else
      let Nm1 := uword_sub lim.uword_bits N 1
      let Np1 := uword_add lim.uword_bits N 1
      match guess_sympd_worker_pairs tol max_diag N Nm1 Np1 A_mem with
      | none => false
      | some _ => true

/-- The source's `sym_helper::guess_sympd(A)`; `worker` is the `guess_sympd_worker`
overload that the element type selects. -/
def guess_sympd {eT : Type} (worker : Mat eT → Bool) (A : Mat eT) : Bool :=
  if (A.n_rows != A.n_cols) || (A.n_rows < 4) then false
  else worker A

/-- The source's `sym_helper::guess_sympd(A, min_n_rows)`. -/
def guess_sympd_min {eT : Type} (worker : Mat eT → Bool) (A : Mat eT) (min_n_rows : Nat) :
    Bool :=
  if (A.n_rows != A.n_cols) || (A.n_rows < min_n_rows) then false
  else worker A

end sym_helper

namespace sym_helper

/-- Value of `max_diag` after the first `k` iterations of the diagonal loop of an
`N x N` matrix, when none of them returns. -/
def max_diag_upto {eT : Type} [LinearOrderedRing eT] (N : Nat) (A_mem : Nat → eT) (k : Nat) :
    eT :=
  for_uword k (fun j m => if A_mem (j * N + j) > m then A_mem (j * N + j) else m) 0

/-- Value of `diag_below_tol` after the first `k` iterations of the diagonal loop
of an `N x N` matrix, when none of them returns. -/
def diag_below_tol_upto {eT : Type} [LinearOrderedRing eT] (tol : eT) (N : Nat)
    (A_mem : Nat → eT) (k : Nat) : Bool :=
  for_uword k (fun j d => if A_mem (j * N + j) ≥ tol then false else d) true

/-- The three tests of the pair loop all pass at the pair `j < i` of an `N x N`
matrix: `A_ij = A(i,j)` is below `max_diag` in absolute value, the pair is symmetric
within the tolerance, and `2 |A_ij| < A_ii + A_jj`. -/
def pair_ok {eT : Type} [LinearOrderedRing eT] (tol max_diag : eT) (N : Nat)
    (A_mem : Nat → eT) (j i : Nat) : Prop :=
  |A_mem (i + j * N)| < max_diag ∧
  ¬ (|A_mem (i + j * N) - A_mem (j + i * N)| > tol ∧
     |A_mem (i + j * N) - A_mem (j + i * N)|
       > max |A_mem (i + j * N)| |A_mem (j + i * N)| * tol) ∧
  |A_mem (i + j * N)| + |A_mem (i + j * N)| < A_mem (i + i * N) + A_mem (j + j * N)

end sym_helper

/-- The square matrix `A` is `M * transpose(M) + k * Identity` for a square matrix
`M` of the same size, entry by entry. -/
def is_gram_plus_scaled_identity {eT : Type} [LinearOrderedRing eT] (A M : Mat eT) (k : eT) :
    Prop :=
  A.n_rows = A.n_cols ∧ M.n_rows = A.n_rows ∧ M.n_cols = A.n_rows ∧
  ∀ i j, i < A.n_rows → j < A.n_rows →
    A.at_ i j = (∑ l in Finset.range A.n_rows, M.at_ i l * M.at_ j l) + (if i = j then k else 0)

/-- Target values of a build with 64-bit `uword` and the `epsilon` of `double`,
`2^-52`, in exact rational arithmetic, where every value is finite. -/
def rat_numeric : Numeric Rat :=
  { epsilon := 1 / 4503599627370496, arma_isnonfinite := fun _ => false, uword_bits := 64 }

/-- The matrix of the given extents holding the listed rationals column by column. -/
def rat_mat (n_rows n_cols : Nat) (l : List Rat) : Mat Rat :=
  { n_rows := n_rows, n_cols := n_cols, mem := fun i => l.getD i 0 }

/-- The `n x n` matrix `k * Identity` over the rationals. -/
def rat_scaled_identity (n : Nat) (k : Rat) : Mat Rat :=
  { n_rows := n, n_cols := n, mem := fun p => if p % n = p / n then k else 0 }

/-- A subview of an integer matrix, holding the elements of `M`, as an operand. -/
def int_subview (M : Mat Int) : Operand Int :=
  { is_subview_row := false, is_subview := true, is_Mat := false,
    resolves_to_vector := false, partial_unwrap_is_fast := false,
    proxy_stored_is_Mat := false, proxy_use_at := false, has_orig_mem := false,
    m := M, aux_col1 := 0, M := M, pu_mem := M.mem, do_times := false, val := 1 }

/-- The source's `at(row, col, slice)`: the element at a row, a column and a slice
of a cube, slices stored one after the other, each column by column. -/
def Cube.at_ {eT : Type} (Q : Cube eT) (row col slice : Nat) : eT :=
  Q.mem (row + col * Q.n_rows + slice * (Q.n_rows * Q.n_cols))

/-- The source's `op_abs::apply` on a cube; `abs` is `std::abs`. The OpenMP build
runs the same loop body over the same index range, each iteration writing its own
position, so both builds are this loop. Returns the destination after the call. -/
def op_abs.apply_cube {eT T : Type} (abs : eT → T) (fresh : Nat → T) (out : Cube T)
    (X : mtOp T eT (UnaryArgCube eT T)) : Cube T :=
  let P := X.m
  let n_rows := P.n_rows
  let n_cols := P.n_cols
  let n_slices := P.n_slices
  let out := out.set_size fresh n_rows n_cols n_slices
  let out_mem := out.mem
  if P.use_at == false then
    let n_elem := P.n_elem
    { n_rows := out.n_rows, n_cols := out.n_cols, n_slices := out.n_slices,
      mem := for_uword n_elem (fun i mem => Function.update mem i (abs (P.ea mem i))) out_mem }
  else
    { n_rows := out.n_rows, n_cols := out.n_cols, n_slices := out.n_slices,
      mem := (fill_at_cube abs P n_rows n_cols n_slices out_mem).1 }

/-! ## sym_helper: the approximate-symmetry test and the complex workers -/

namespace sym_helper

/-- The body of the inner loop of the real `guess_sympd_worker`, as it stands in
`guess_sympd_worker_inner`: iteration `i` from the pointer state
`(A_ji_ptr, A_ii_ptr)`. -/
def guess_sympd_worker_inner_body {eT : Type} [LinearOrderedRing eT] (tol max_diag : eT)
    (N Np1 : Nat) (A_mem : Nat → eT) (A_col j : Nat) (i : Nat) (st : Option (Nat × Nat)) :
    Option (Nat × Nat) :=
  match st with
  | none => none
  | some (A_ji_ptr, A_ii_ptr) =>
    let A_jj := A_mem (A_col + j)
    let A_ij := A_mem (A_col + i)
    let A_ji := A_mem A_ji_ptr
    let A_ij_abs := |A_ij|
    let A_ji_abs := |A_ji|
    if A_ij_abs ≥ max_diag then none
    else
      let A_delta := |A_ij - A_ji|
      let A_abs_max := max A_ij_abs A_ji_abs
      if (A_delta > tol) ∧ (A_delta > (A_abs_max * tol)) then none
      else
        let A_ii := A_mem A_ii_ptr
        if (A_ij_abs + A_ij_abs) ≥ (A_ii + A_jj) then none
        else some (A_ji_ptr + N, A_ii_ptr + Np1)

/-- The first loop of the real `is_approx_sym_worker`, over the diagonal. The state
is `(A_col, diag_below_tol)`; `none` stands for `return false`. -/
def is_approx_sym_worker_diag {eT : Type} [LinearOrderedRing eT] (lim : Numeric eT) (tol : eT)
    (N : Nat) (A_mem : Nat → eT) : Option (Nat × Bool) :=
  for_uword N (fun j st =>
    match st with
    | none => none
    | some (A_col, diag_below_tol) =>
      let A_jj := A_mem (A_col + j)
      if lim.arma_isnonfinite A_jj then none
      else
        let diag_below_tol := if |A_jj| ≥ tol then false else diag_below_tol
        some (A_col + N, diag_below_tol)) (some (0, true))

/-- The inner loop `for(uword i=jp1; i < N; ++i)` of the real
`is_approx_sym_worker` for one column `j`. The state is the offset of `A_ji_ptr`;
`none` stands for `return false`. -/
def is_approx_sym_worker_inner {eT : Type} [LinearOrderedRing eT] (tol : eT) (N : Nat)
    (A_mem : Nat → eT) (A_col j : Nat) : Option Nat :=
  let jp1 := j + 1
  for_uword_from jp1 N (fun i st =>
    match st with
    | none => none
    | some A_ji_ptr =>
      let A_ij := A_mem (A_col + i)
      let A_ji := A_mem A_ji_ptr
      let A_ij_abs := |A_ij|
      let A_ji_abs := |A_ji|
      let A_delta := |A_ij - A_ji|
      let A_abs_max := max A_ij_abs A_ji_abs
      if (A_delta > tol) ∧ (A_delta > (A_abs_max * tol)) then none
      else some (A_ji_ptr + N))
    (some (j + jp1 * N))

/-- The second loop `for(uword j=0; j < Nm1; ++j)` of the real
`is_approx_sym_worker`. The state is the offset of `A_col`. -/
def is_approx_sym_worker_pairs {eT : Type} [LinearOrderedRing eT] (tol : eT) (N Nm1 : Nat)
    (A_mem : Nat → eT) : Option Nat :=
  for_uword Nm1 (fun j st =>
    match st with
    | none => none
    | some A_col =>
      match is_approx_sym_worker_inner tol N A_mem A_col j with
      | none => none
      | some _ => some (A_col + N)) (some 0)

/-- The source's `sym_helper::is_approx_sym_worker` for a non-complex element
type. -/
def is_approx_sym_worker {eT : Type} [LinearOrderedRing eT] (lim : Numeric eT) (A : Mat eT) :
    Bool :=
  let tol := 100 * lim.epsilon
  let N := A.n_rows
  let A_mem := A.memptr
  match is_approx_sym_worker_diag lim tol N A_mem with
  | none => false
  | some (_, diag_below_tol) =>
    if diag_below_tol then false
    else
      let Nm1 := uword_sub lim.uword_bits N 1
      match is_approx_sym_worker_pairs tol N Nm1 A_mem with
      | none => false
      | some _ => true

/-- The source's `sym_helper::is_approx_sym(A)`; `worker` is the
`is_approx_sym_worker` overload that the element type selects. -/
def is_approx_sym {eT : Type} (worker : Mat eT → Bool) (A : Mat eT) : Bool :=
  if (A.n_rows != A.n_cols) || (A.n_rows < 4) then false
  else worker A

/-- The source's `sym_helper::is_approx_sym(A, min_n_rows)`. -/
def is_approx_sym_min {eT : Type} (worker : Mat eT → Bool) (A : Mat eT) (min_n_rows : Nat) :
    Bool :=
  if (A.n_rows != A.n_cols) || (A.n_rows < min_n_rows) then false
  else worker A

/-- The first loop of the complex `guess_sympd_worker`, over the diagonal. The
state is `(A_col, diag_below_tol, max_diag)`; `none` stands for `return false`. -/
def guess_sympd_worker_cx_diag {T : Type} [LinearOrderedRing T] (lim : Numeric T) (tol : T)
    (N : Nat) (A_mem : Nat → std.complex T) : Option (Nat × Bool × T) :=
  for_uword N (fun j st =>
    match st with
    | none => none
    | some (A_col, diag_below_tol, max_diag) =>
      let A_jj := A_mem (A_col + j)
      let A_jj_r := A_jj.real
      let A_jj_i := A_jj.imag
      let A_jj_rabs := |A_jj_r|
      let A_jj_iabs := |A_jj_i|
      if A_jj_r ≤ 0 then none
      else if lim.arma_isnonfinite A_jj_r then none
      else if A_jj_iabs > tol then none
      else if A_jj_iabs > A_jj_rabs then none
      else
        let diag_below_tol := if A_jj_r ≥ tol then false else diag_below_tol
        let max_diag := if A_jj_r > max_diag then A_jj_r else max_diag
        some (A_col + N, diag_below_tol, max_diag)) (some (0, true, 0))

/-- The inner loop `for(uword i=jp1; i < N; ++i)` of the complex
`guess_sympd_worker` for one column `j`. The state is `(A_ji_ptr, A_ii_ptr)`. -/
def guess_sympd_worker_cx_inner {T : Type} [LinearOrderedRing T] (lim : Numeric T)
    (tol square_max_diag : T) (N Np1 : Nat) (A_mem : Nat → std.complex T) (A_col j : Nat) :
    Option (Nat × Nat) :=
  let jp1 := j + 1
  let A_jj_real := (A_mem (A_col + j)).real
  for_uword_from jp1 N (fun i st =>
    match st with
    | none => none
    | some (A_ji_ptr, A_ii_ptr) =>
      let A_ij := A_mem (A_col + i)
      let A_ij_real := A_ij.real
      let A_ij_imag := A_ij.imag
      let square_A_ij_abs := (A_ij_real * A_ij_real) + (A_ij_imag * A_ij_imag)
      if lim.arma_isnonfinite square_A_ij_abs then none
      else if square_A_ij_abs ≥ square_max_diag then none
      else
        let A_ij_real_abs := |A_ij_real|
        let A_ij_imag_abs := |A_ij_imag|
        let A_ji := A_mem A_ji_ptr
        let A_ji_real := A_ji.real
        let A_ji_imag := A_ji.imag
        let A_ji_real_abs := |A_ji_real|
        let A_ji_imag_abs := |A_ji_imag|
        let A_real_delta := |A_ij_real - A_ji_real|
        let A_real_abs_max := max A_ij_real_abs A_ji_real_abs
        if (A_real_delta > tol) ∧ (A_real_delta > (A_real_abs_max * tol)) then none
        else
          let A_imag_delta := |A_ij_imag + A_ji_imag|
          let A_imag_abs_max := max A_ij_imag_abs A_ji_imag_abs
          if (A_imag_delta > tol) ∧ (A_imag_delta > (A_imag_abs_max * tol)) then none
          else
            let A_ii_real := (A_mem A_ii_ptr).real
            if (A_ij_real_abs + A_ij_real_abs) ≥ (A_ii_real + A_jj_real) then none
            else some (A_ji_ptr + N, A_ii_ptr + Np1))
    (some (j + jp1 * N, jp1 + jp1 * N))

/-- The second loop `for(uword j=0; j < Nm1; ++j)` of the complex
`guess_sympd_worker`. The state is the offset of `A_col`. -/
def guess_sympd_worker_cx_pairs {T : Type} [LinearOrderedRing T] (lim : Numeric T)
    (tol square_max_diag : T) (N Nm1 Np1 : Nat) (A_mem : Nat → std.complex T) : Option Nat :=
  for_uword Nm1 (fun j st =>
    match st with
    | none => none
    | some A_col =>
      match guess_sympd_worker_cx_inner lim tol square_max_diag N Np1 A_mem A_col j with
      | none => none
      | some _ => some (A_col + N)) (some 0)

/-- The source's `sym_helper::guess_sympd_worker` for a complex element type; it
processes complex hermitian matrices. -/
def guess_sympd_worker_cx {T : Type} [LinearOrderedRing T] (lim : Numeric T)
    (A : Mat (std.complex T)) : Bool :=
  let tol := 100 * lim.epsilon
  let N := A.n_rows
  let A_mem := A.memptr
  match guess_sympd_worker_cx_diag lim tol N A_mem with
  | none => false
  | some (_, diag_below_tol, max_diag) =>
    if diag_below_tol then false
    else
      let square_max_diag := max_diag * max_diag
      if lim.arma_isnonfinite square_max_diag then false
      else
        let Nm1 := uword_sub lim.uword_bits N 1
        let Np1 := uword_add lim.uword_bits N 1
        match guess_sympd_worker_cx_pairs lim tol square_max_diag N Nm1 Np1 A_mem with
        | none => false
        | some _ => true

/-- The first loop of the complex `is_approx_sym_worker`, over the diagonal. The
state is `(A_col, diag_below_tol)`; `none` stands for `return false`. -/
def is_approx_sym_worker_cx_diag {T : Type} [LinearOrderedRing T] (lim : Numeric T) (tol : T)
    (N : Nat) (A_mem : Nat → std.complex T) : Option (Nat × Bool) :=
  for_uword N (fun j st =>
    match st with
    | none => none
    | some (A_col, diag_below_tol) =>
      let A_jj := A_mem (A_col + j)
      let A_jj_r := A_jj.real
      let A_jj_i := A_jj.imag
      let A_jj_rabs := |A_jj_r|
      let A_jj_iabs := |A_jj_i|
      if A_jj_iabs > tol then none
      else if A_jj_iabs > A_jj_rabs then none
      else if lim.arma_isnonfinite A_jj_r then none
      else
        let diag_below_tol := if A_jj_rabs ≥ tol then false else diag_below_tol
        some (A_col + N, diag_below_tol)) (some (0, true))

/-- The inner loop `for(uword i=jp1; i < N; ++i)` of the complex
`is_approx_sym_worker` for one column `j`. The state is the offset of `A_ji_ptr`. -/
def is_approx_sym_worker_cx_inner {T : Type} [LinearOrderedRing T] (tol : T) (N : Nat)
    (A_mem : Nat → std.complex T) (A_col j : Nat) : Option Nat :=
  let jp1 := j + 1
  for_uword_from jp1 N (fun i st =>
    match st with
    | none => none
    | some A_ji_ptr =>
      let A_ij := A_mem (A_col + i)
      let A_ij_real := A_ij.real
      let A_ij_imag := A_ij.imag
      let A_ij_real_abs := |A_ij_real|
      let A_ij_imag_abs := |A_ij_imag|
      let A_ji := A_mem A_ji_ptr
      let A_ji_real := A_ji.real
      let A_ji_imag := A_ji.imag
      let A_ji_real_abs := |A_ji_real|
      let A_ji_imag_abs := |A_ji_imag|
      let A_real_delta := |A_ij_real - A_ji_real|
      let A_real_abs_max := max A_ij_real_abs A_ji_real_abs
      if (A_real_delta > tol) ∧ (A_real_delta > (A_real_abs_max * tol)) then none
      else
        let A_imag_delta := |A_ij_imag + A_ji_imag|
        let A_imag_abs_max := max A_ij_imag_abs A_ji_imag_abs
        if (A_imag_delta > tol) ∧ (A_imag_delta > (A_imag_abs_max * tol)) then none
        else some (A_ji_ptr + N))
    (some (j + jp1 * N))

/-- The second loop `for(uword j=0; j < Nm1; ++j)` of the complex
`is_approx_sym_worker`. The state is the offset of `A_col`. -/
def is_approx_sym_worker_cx_pairs {T : Type} [LinearOrderedRing T] (tol : T) (N Nm1 : Nat)
    (A_mem : Nat → std.complex T) : Option Nat :=
  for_uword Nm1 (fun j st =>
    match st with
    | none => none
    | some A_col =>
      match is_approx_sym_worker_cx_inner tol N A_mem A_col j with
      | none => none
      | some _ => some (A_col + N)) (some 0)

/-- The source's `sym_helper::is_approx_sym_worker` for a complex element type; it
processes complex hermitian matrices. -/
def is_approx_sym_worker_cx {T : Type} [LinearOrderedRing T] (lim : Numeric T)
    (A : Mat (std.complex T)) : Bool :=
  let tol := 100 * lim.epsilon
  let N := A.n_rows
  let A_mem := A.memptr
  match is_approx_sym_worker_cx_diag lim tol N A_mem with
  | none => false
  | some (_, diag_below_tol) =>
    if diag_below_tol then false
    else
      let Nm1 := uword_sub lim.uword_bits N 1
      match is_approx_sym_worker_cx_pairs tol N Nm1 A_mem with
      | none => false
      | some _ => true

/-- The symmetry test passes at the pair `j < i` of an `N x N` real matrix. -/
def sym_ok {eT : Type} [LinearOrderedRing eT] (tol : eT) (N : Nat) (A_mem : Nat → eT)
    (j i : Nat) : Prop :=
  ¬ (|A_mem (i + j * N) - A_mem (j + i * N)| > tol ∧
     |A_mem (i + j * N) - A_mem (j + i * N)|
       > max |A_mem (i + j * N)| |A_mem (j + i * N)| * tol)

/-- The two hermitian-symmetry tests pass at the pair `j < i` of an `N x N` complex
matrix: real parts agree and imaginary parts are opposite, within the tolerance. -/
def cx_sym_ok {T : Type} [LinearOrderedRing T] (tol : T) (N : Nat)
    (A_mem : Nat → std.complex T) (j i : Nat) : Prop :=
  ¬ (|(A_mem (i + j * N)).real - (A_mem (j + i * N)).real| > tol ∧
     |(A_mem (i + j * N)).real - (A_mem (j + i * N)).real|
       > max |(A_mem (i + j * N)).real| |(A_mem (j + i * N)).real| * tol) ∧
  ¬ (|(A_mem (i + j * N)).imag + (A_mem (j + i * N)).imag| > tol ∧
     |(A_mem (i + j * N)).imag + (A_mem (j + i * N)).imag|
       > max |(A_mem (i + j * N)).imag| |(A_mem (j + i * N)).imag| * tol)

/-- The four diagonal tests of the complex `guess_sympd_worker` pass on `z`. -/
def cx_diag_ok {T : Type} [LinearOrderedRing T] (lim : Numeric T) (tol : T)
    (z : std.complex T) : Prop :=
  0 < z.real ∧ lim.arma_isnonfinite z.real = false ∧ ¬ (|z.imag| > tol) ∧
  ¬ (|z.imag| > |z.real|)

/-- The three diagonal tests of the complex `is_approx_sym_worker` pass on `z`. -/
def cx_approx_diag_ok {T : Type} [LinearOrderedRing T] (lim : Numeric T) (tol : T)
    (z : std.complex T) : Prop :=
  ¬ (|z.imag| > tol) ∧ ¬ (|z.imag| > |z.real|) ∧ lim.arma_isnonfinite z.real = false

/-- All the tests of the pair loop of the complex `guess_sympd_worker` pass at the
pair `j < i` of an `N x N` matrix. -/
def cx_pair_ok {T : Type} [LinearOrderedRing T] (lim : Numeric T) (tol square_max_diag : T)
    (N : Nat) (A_mem : Nat → std.complex T) (j i : Nat) : Prop :=
  lim.arma_isnonfinite ((A_mem (i + j * N)).real * (A_mem (i + j * N)).real
      + (A_mem (i + j * N)).imag * (A_mem (i + j * N)).imag) = false ∧
  (A_mem (i + j * N)).real * (A_mem (i + j * N)).real
      + (A_mem (i + j * N)).imag * (A_mem (i + j * N)).imag < square_max_diag ∧
  cx_sym_ok tol N A_mem j i ∧
  |(A_mem (i + j * N)).real| + |(A_mem (i + j * N)).real|
    < (A_mem (i + i * N)).real + (A_mem (j + j * N)).real

end sym_helper

/-- The quadratic form `transpose(x) * A * x` of a square matrix. -/
def quad_form {eT : Type} [LinearOrderedRing eT] (A : Mat eT) (x : Nat → eT) : eT :=
  ∑ i in Finset.range A.n_rows, ∑ j in Finset.range A.n_rows, x i * A.at_ i j * x j

/-- The square matrix `A` is exactly symmetric. -/
def is_symmetric {eT : Type} (A : Mat eT) : Prop :=
  A.n_rows = A.n_cols ∧ ∀ i j, i < A.n_rows → j < A.n_rows → A.at_ i j = A.at_ j i

/-- The square matrix `A` is positive definite: `transpose(x) * A * x > 0` for every
vector `x` that is not zero. -/
def is_pos_def {eT : Type} [LinearOrderedRing eT] (A : Mat eT) : Prop :=
  ∀ x : Nat → eT, (∃ i, i < A.n_rows ∧ x i ≠ 0) → 0 < quad_form A x

/-- The symmetric 4 x 4 rational matrix with 5 on the diagonal and -2 everywhere
else; it is not positive definite. -/
def rat_not_pos_def : Mat Rat :=
  rat_mat 4 4 [5, -2, -2, -2, -2, 5, -2, -2, -2, -2, 5, -2, -2, -2, -2, 5]

/-- A 4 x 4 rational matrix with unit diagonal whose entries `A(1,0)` and `A(0,1)`
are `1 - 25 * 2^-52` and `1 + 25 * 2^-52`, a quarter of the tolerance of `double`
below and above 1; every other entry is zero. -/
def rat_upper_exceeds : Mat Rat :=
  rat_mat 4 4 [1, 1 - 25 / 4503599627370496, 0, 0, 1 + 25 / 4503599627370496, 1, 0, 0,
    0, 0, 1, 0, 0, 0, 0, 1]

/-- The symmetric 4 x 4 rational matrix with zero diagonal and 1 everywhere else. -/
def rat_zero_diag : Mat Rat :=
  rat_mat 4 4 [0, 1, 1, 1, 1, 0, 1, 1, 1, 1, 0, 1, 1, 1, 1, 0]

/-- The limits of a 64-bit integer element type: `epsilon()` is zero and every
value is finite. -/
def int_numeric : Numeric Int :=
  { epsilon := 0, arma_isnonfinite := fun _ => false, uword_bits := 64 }

/-- A 4 x 4 hermitian matrix of Gaussian integers with 2 on the diagonal, `A(1,0) = i`
and `A(0,1) = -i`; every other entry is zero. -/
def int_cx_hermitian : Mat (std.complex Int) :=
  { n_rows := 4, n_cols := 4,
    mem := fun p =>
      ([⟨2, 0⟩, ⟨0, 1⟩, ⟨0, 0⟩, ⟨0, 0⟩, ⟨0, -1⟩, ⟨2, 0⟩, ⟨0, 0⟩, ⟨0, 0⟩,
        ⟨0, 0⟩, ⟨0, 0⟩, ⟨2, 0⟩, ⟨0, 0⟩, ⟨0, 0⟩, ⟨0, 0⟩, ⟨0, 0⟩, ⟨2, 0⟩]
        : List (std.complex Int)).getD p ⟨0, 0⟩ }

/-- The 4 x 4 complex rational matrix with a zero diagonal, `i` below the diagonal
and `-i` above it; it is exactly hermitian. -/
def rat_cx_zero_diag : Mat (std.complex Rat) :=
  { n_rows := 4, n_cols := 4,
    mem := fun p =>
      if p % 4 = p / 4 then ⟨0, 0⟩ else if p % 4 > p / 4 then ⟨0, 1⟩ else ⟨0, -1⟩ }

/-- The real matrix `A` viewed as a complex matrix of the same extents with all
imaginary parts zero, as the spec words the comparison of the two workers. -/
def Mat.to_cx {T : Type} [Zero T] (A : Mat T) : Mat (std.complex T) :=
  { n_rows := A.n_rows, n_cols := A.n_cols, mem := fun p => ⟨A.mem p, 0⟩ }

/-- The column vector holding the listed rationals, as an operand. -/
def rat_col (l : List Rat) : Operand Rat :=
  Operand.of_Col (Col (fun i => l.getD i 0) l.length)

/-- Modelled from the spec: `norm(A,2)` is not among the sources. The value `v` is
the Euclidean norm of the elements of `A` when it is not negative and its square is
the sum of the squares of the elements. -/
def is_euclidean_norm {eT : Type} [LinearOrderedField eT] (v : eT) (A : Mat eT) : Prop :=
  0 ≤ v ∧ v * v = ∑ i in Finset.range A.n_elem, A.mem i * A.mem i

/-! ## sym_helper: the real worker as a template -/

namespace sym_helper

namespace templ

/-- The first loop of the real `guess_sympd_worker`, for any element type with the
comparisons the loop uses; the text is that of `sym_helper.guess_sympd_worker_diag`. -/
def guess_sympd_worker_diag {eT : Type} [Zero eT] [LE eT] [LT eT]
    [DecidableRel (LE.le : eT → eT → Prop)] [DecidableRel (LT.lt : eT → eT → Prop)]
    (lim : Numeric eT) (tol : eT) (N : Nat) (A_mem : Nat → eT) : Option (Nat × Bool × eT) :=
  for_uword N (fun j st =>
    match st with
    | none => none
    | some (A_col, diag_below_tol, max_diag) =>
      let A_jj := A_mem (A_col + j)
      if A_jj ≤ 0 then none
      else if lim.arma_isnonfinite A_jj then none
      else
        let diag_below_tol := if A_jj ≥ tol then false else diag_below_tol
        let max_diag := if A_jj > max_diag then A_jj else max_diag
        some (A_col + N, diag_below_tol, max_diag)) (some (0, true, 0))

/-- The inner loop of the real `guess_sympd_worker` for one column `j`, for any
element type with the operations the loop uses; `abs` is `std::abs` and `max` is
`std::max`. The text is that of `sym_helper.guess_sympd_worker_inner`. -/
def guess_sympd_worker_inner {eT : Type} [Add eT] [Sub eT] [Mul eT] [LE eT] [LT eT]
    [DecidableRel (LE.le : eT → eT → Prop)] [DecidableRel (LT.lt : eT → eT → Prop)] [Max eT]
    (abs : eT → eT) (tol max_diag : eT) (N Np1 : Nat) (A_mem : Nat → eT) (A_col j : Nat) :
    Option (Nat × Nat) :=
  let A_jj := A_mem (A_col + j)
  let jp1 := j + 1
  for_uword_from jp1 N (fun i st =>
    match st with
    | none => none
    | some (A_ji_ptr, A_ii_ptr) =>
      let A_ij := A_mem (A_col + i)
      let A_ji := A_mem A_ji_ptr
      let A_ij_abs := abs A_ij
      let A_ji_abs := abs A_ji
      if A_ij_abs ≥ max_diag then none
      else
        let A_delta := abs (A_ij - A_ji)
        let A_abs_max := max A_ij_abs A_ji_abs
        if (A_delta > tol) ∧ (A_delta > (A_abs_max * tol)) then none
        else
          let A_ii := A_mem A_ii_ptr
          if (A_ij_abs + A_ij_abs) ≥ (A_ii + A_jj) then none
          else some (A_ji_ptr + N, A_ii_ptr + Np1))
    (some (j + jp1 * N, jp1 + jp1 * N))

/-- The second loop of the real `guess_sympd_worker`, for any element type; the
text is that of `sym_helper.guess_sympd_worker_pairs`. -/
def guess_sympd_worker_pairs {eT : Type} [Add eT] [Sub eT] [Mul eT] [LE eT] [LT eT]
    [DecidableRel (LE.le : eT → eT → Prop)] [DecidableRel (LT.lt : eT → eT → Prop)] [Max eT]
    (abs : eT → eT) (tol max_diag : eT) (N Nm1 Np1 : Nat) (A_mem : Nat → eT) : Option Nat :=
  for_uword Nm1 (fun j st =>
    match st with
    | none => none
    | some A_col =>
      match guess_sympd_worker_inner abs tol max_diag N Np1 A_mem A_col j with
      | none => none
      | some _ => some (A_col + N)) (some 0)

/-- The source's `sym_helper::guess_sympd_worker` for a non-complex element type,
as the template it is: for any element type with the operations the body uses.
`abs` is `std::abs`, `max` is `std::max`, and the literal `100` is `eT(100)`. On an
ordered ring it is `sym_helper.guess_sympd_worker`. -/
def guess_sympd_worker {eT : Type} [Zero eT] [OfNat eT 100] [Add eT] [Sub eT] [Mul eT]
    [LE eT] [LT eT] [DecidableRel (LE.le : eT → eT → Prop)]
    [DecidableRel (LT.lt : eT → eT → Prop)] [Max eT] (abs : eT → eT) (lim : Numeric eT)
    (A : Mat eT) : Bool :=
  let tol := 100 * lim.epsilon
  let N := A.n_rows
  let A_mem := A.memptr
  match guess_sympd_worker_diag lim tol N A_mem with
  | none => false
  | some (_, diag_below_tol, max_diag) =>
    if diag_below_tol then false
    else
      let Nm1 := uword_sub lim.uword_bits N 1
      let Np1 := uword_add lim.uword_bits N 1
      match guess_sympd_worker_pairs abs tol max_diag N Nm1 Np1 A_mem with
      | none => false
      | some _ => true

end templ

end sym_helper

/-! ## A model of the C++ type double -/

/-- A value of the C++ type `double` (IEEE 754 binary64): a finite value `m * 2^e`,
an infinity with its sign, or NaN. A finite value is kept in lowest terms, that is
`m` odd, or `m = 0` and `e = 0`; the sign of a zero is not modelled. Equality of the
model is the `==` of C++ except between two NaN. -/
inductive double where
  | fin (m : Int) (e : Int)
  | inf (neg : Bool)
  | nan
deriving DecidableEq, Repr

namespace double

/-- Number of binary digits of `n`, by halving at most `fuel` times. -/
def bit_length_loop : Nat → Nat → Nat
  | 0, _ => 0
  | fuel + 1, n => if n = 0 then 0 else bit_length_loop fuel (n / 2) + 1

/-- Number of binary digits of `n`; zero has none. -/
def bit_length (n : Nat) : Nat := bit_length_loop n n

/-- Number of zero digits at the low end of `n > 0`. -/
def trailing_zeros (n : Nat) : Nat := bit_length (Nat.gcd n (2 ^ bit_length n)) - 1

/-- The finite value `n * 2^e`, negated when `neg`, in lowest terms. -/
def normal (neg : Bool) (n : Nat) (e : Int) : double :=
  if n = 0 then fin 0 0
  else
    let t := trailing_zeros n
    let m : Int := Int.ofNat (n / 2 ^ t)
    fin (if neg then -m else m) (e + Int.ofNat t)

/-- The value `n * 2^e`, negated when `neg`, or the infinity of that sign when it
reaches `2^1024`. -/
def finish (neg : Bool) (n : Nat) (e : Int) : double :=
  if Int.ofNat (bit_length n) + e > 1024 then inf neg else normal neg n e

/-- The `double` nearest to the exact value `n * 2^e`, negated when `neg`: 53
significant digits, no digit below `2^-1074`, a tie goes to the even neighbour, and
a result of `2^1024` or more is an infinity. -/
def round (neg : Bool) (n : Nat) (e : Int) : double :=
  if n = 0 then fin 0 0
  else
    let q : Int := max (e + Int.ofNat (bit_length n) - 53) (-1074)
    if q ≤ e then finish neg n e
    else
      let shift := (q - e).toNat
      let keep := n / 2 ^ shift
      let rest := n % 2 ^ shift
      let half := 2 ^ (shift - 1)
      let keep := if rest > half ∨ (rest = half ∧ keep % 2 = 1) then keep + 1 else keep
      finish neg keep q

/-- Sign of an integer: true when it is negative. -/
def is_neg (m : Int) : Bool := decide (m < 0)

/-- Sum `a + b` of two `double`. -/
def add (a b : double) : double :=
  match a, b with
  | nan, _ => nan
  | _, nan => nan
  | inf s, inf t => if s = t then inf s else nan
  | inf s, fin _ _ => inf s
  | fin _ _, inf t => inf t
  | fin ma ea, fin mb eb =>
    let e0 := min ea eb
    let m := ma * Int.ofNat (2 ^ (ea - e0).toNat) + mb * Int.ofNat (2 ^ (eb - e0).toNat)
    round (is_neg m) m.natAbs e0

/-- Negation `-a`. -/
def neg (a : double) : double :=
  match a with
  | nan => nan
  | inf s => inf (!s)
  | fin m e => fin (-m) e

/-- Product `a * b` of two `double`; zero times an infinity is NaN. -/
def mul (a b : double) : double :=
  match a, b with
  | nan, _ => nan
  | _, nan => nan
  | inf s, inf t => inf (xor s t)
  | inf s, fin m _ => if m = 0 then nan else inf (xor s (is_neg m))
  | fin m _, inf t => if m = 0 then nan else inf (xor (is_neg m) t)
  | fin ma ea, fin mb eb =>
    round (xor (is_neg ma) (is_neg mb)) (ma.natAbs * mb.natAbs) (ea + eb)

/-- Quotient `a / b` of two `double`. The quotient of two finite values is computed
to 64 digits beyond the divisor, with one more digit telling whether anything is
left over, and then rounded. -/
def div (a b : double) : double :=
  match a, b with
  | nan, _ => nan
  | _, nan => nan
  | inf _, inf _ => nan
  | inf s, fin m _ => inf (xor s (is_neg m))
  | fin _ _, inf _ => fin 0 0
  | fin ma ea, fin mb eb =>
    if mb = 0 then (if ma = 0 then nan else inf (is_neg ma))
    else
      let k := 64 + bit_length mb.natAbs
      let num := ma.natAbs * 2 ^ k
      let quot := num / mb.natAbs
      let sticky := if num % mb.natAbs = 0 then 0 else 1
      round (xor (is_neg ma) (is_neg mb)) (2 * quot + sticky) (ea - eb - Int.ofNat k - 1)

/-- The function `std::abs` on `double`. -/
def abs (a : double) : double :=
  match a with
  | nan => nan
  | inf _ => inf false
  | fin m e => fin (Int.ofNat m.natAbs) e

/-- The comparison `a < b` of C++; false when either side is NaN. -/
def lt (a b : double) : Bool :=
  match a, b with
  | nan, _ => false
  | _, nan => false
  | inf s, inf t => s && !t
  | inf s, fin _ _ => s
  | fin _ _, inf t => !t
  | fin ma ea, fin mb eb =>
    let e0 := min ea eb
    decide (ma * Int.ofNat (2 ^ (ea - e0).toNat) < mb * Int.ofNat (2 ^ (eb - e0).toNat))

/-- The comparison `a <= b` of C++; false when either side is NaN. -/
def le (a b : double) : Bool :=
  match a, b with
  | nan, _ => false
  | _, nan => false
  | inf s, inf t => s || !t
  | inf s, fin _ _ => s
  | fin _ _, inf t => !t
  | fin ma ea, fin mb eb =>
    let e0 := min ea eb
    decide (ma * Int.ofNat (2 ^ (ea - e0).toNat) ≤ mb * Int.ofNat (2 ^ (eb - e0).toNat))

/-- Largest `r` with `r * r <= n`, for `n < 2^256`, found digit by digit. -/
def isqrt (n : Nat) : Nat :=
  for_uword 128 (fun i r =>
    let k := 127 - i
    if (r + 2 ^ k) * (r + 2 ^ k) ≤ n then r + 2 ^ k else r) 0

/-- The function `std::sqrt` on `double`. The root of a finite value is computed to
64 digits beyond the point, with one more digit telling whether it is exact, and
then rounded. -/
def sqrt (a : double) : double :=
  match a with
  | nan => nan
  | inf s => if s then nan else inf false
  | fin m e =>
    if m < 0 then nan
    else if m = 0 then fin 0 0
    else
      let odd := decide (e % 2 = 1)
      let n := m.natAbs * (if odd then 2 else 1) * 2 ^ 128
      let e2 := if odd then e - 1 else e
      let r := isqrt n
      let sticky := if r * r = n then 0 else 1
      round false (2 * r + sticky) (e2 / 2 - 64 - 1)

/-- The function `arma_isnonfinite` on `double`: true of the infinities and
of NaN. -/
def isnonfinite (a : double) : Bool :=
  match a with
  | fin _ _ => false
  | _ => true

instance : Zero double := ⟨fin 0 0⟩

instance : One double := ⟨fin 1 0⟩

instance : Add double := ⟨add⟩

instance : Neg double := ⟨neg⟩

instance : Sub double := ⟨fun a b => add a (neg b)⟩

instance : Mul double := ⟨mul⟩

instance : Div double := ⟨div⟩

instance : LT double := ⟨fun a b => lt a b = true⟩

instance : LE double := ⟨fun a b => le a b = true⟩

instance : DecidableRel (LT.lt : double → double → Prop) :=
  fun a b => inferInstanceAs (Decidable (lt a b = true))

instance : DecidableRel (LE.le : double → double → Prop) :=
  fun a b => inferInstanceAs (Decidable (le a b = true))

/-- The function `std::max(a, b)`, which is `(a < b) ? b : a`. -/
instance : Max double := ⟨fun a b => if lt a b then b else a⟩

/-- The conversion `double(100)`. -/
instance : OfNat double 100 := ⟨fin 25 2⟩

/-- The exact value of a finite `double`, as a rational number; zero stands in for
the infinities and NaN. -/
def value (a : double) : Rat :=
  match a with
  | fin m e => (m : Rat) * (2 : Rat) ^ e
  | _ => 0

/-- Modelled from the spec: `norm(A,2)` is not among the sources; the Euclidean
norm of the elements, here the square root of the sum of the squares, each
operation rounded. -/
def norm_2 (A : Mat double) : double :=
  sqrt (for_uword A.n_elem (fun i acc => acc + A.mem i * A.mem i) 0)

end double

/-- The limits of `double`: `epsilon()` is `2^-52`, and `uword` has 64 bits. -/
def double_numeric : Numeric double :=
  { epsilon := double.fin 1 (-52), arma_isnonfinite := double.isnonfinite, uword_bits := 64 }

/-- The matrix of the given extents holding the listed `double` column by column. -/
def double_mat (n_rows n_cols : Nat) (l : List double) : Mat double :=
  { n_rows := n_rows, n_cols := n_cols, mem := fun i => l.getD i 0 }

/-- The column vector holding the listed `double`, as an operand. -/
def double_col (l : List double) : Operand double :=
  Operand.of_Col (Col (fun i => l.getD i 0) l.length)

/-- A 4 x 4 matrix of `double` with 2 on the diagonal, `A(1,0)` the `double` nearest
to 1.24, which is `5584463537939415 * 2^-52`, and `A(0,1) = A(1,0) - 124 * 2^-52`;
every other entry is zero. -/
def double_asym_at_rounding : Mat double :=
  double_mat 4 4 [double.fin 1 1, double.fin 5584463537939415 (-52), 0, 0,
    double.fin 5584463537939291 (-52), double.fin 1 1, 0, 0,
    0, 0, double.fin 1 1, 0,
    0, 0, 0, double.fin 1 1]

/-- The same matrix with `A(0,1) = A(1,0) - 126 * 2^-52`. -/
def double_asym_beyond : Mat double :=
  double_mat 4 4 [double.fin 1 1, double.fin 5584463537939415 (-52), 0, 0,
    double.fin 5584463537939289 (-52), double.fin 1 1, 0, 0,
    0, 0, double.fin 1 1, 0,
    0, 0, 0, double.fin 1 1]

/-- The 4 x 4 matrix of `double` with unit diagonal, `A(1,0) = 1 - 25 * 2^-52` and
`A(0,1) = 1 + 25 * 2^-52`; every other entry is zero. It is `rat_upper_exceeds`. -/
def double_upper_exceeds : Mat double :=
  double_mat 4 4 [1, double.fin 4503599627370471 (-52), 0, 0,
    double.fin 4503599627370521 (-52), 1, 0, 0,
    0, 0, 1, 0,
    0, 0, 0, 1]

/-- A 4 x 4 matrix of `double` with 2 on the diagonal and NaN at `A(1,0)`; every
other entry is zero. -/
def double_nan_below : Mat double :=
  double_mat 4 4 [double.fin 1 1, double.nan, 0, 0,
    0, double.fin 1 1, 0, 0,
    0, 0, double.fin 1 1, 0,
    0, 0, 0, double.fin 1 1]

theorem for_uword_succ {σ : Type} (n : Nat) (body : Nat → σ → σ) (s : σ) :
    for_uword (n + 1) body s = body n (for_uword n body s) := rfl

/-- A counted loop that adds `f i` to an accumulator computes a finite sum. -/
theorem for_uword_sum {M : Type} [AddCommMonoid M] (f : Nat → M) (n : Nat) :
    for_uword n (fun i val => val + f i) 0 = ∑ i in Finset.range n, f i := by
  induction n with
  | zero => rfl
  | succ k ih => rw [for_uword_succ, ih, Finset.sum_range_succ]

/-- A counted loop that adds to two accumulators computes two finite sums. -/
theorem for_uword_sum_pair {M : Type} [AddCommMonoid M] (f g : Nat → M) (n : Nat) :
    for_uword n (fun i (acc : M × M) => (acc.1 + f i, acc.2 + g i)) (0, 0)
      = (∑ i in Finset.range n, f i, ∑ i in Finset.range n, g i) := by
  induction n with
  | zero => rfl
  | succ k ih => rw [for_uword_succ, ih, Finset.sum_range_succ, Finset.sum_range_succ]

namespace op_dot

theorem direct_dot_arma_loop_step {eT : Type} [Add eT] [Mul eT] (n_elem : Nat)
    (A B : Nat → eT) (i j : Nat) (val1 val2 : eT) (h : j < n_elem) :
    direct_dot_arma_loop n_elem A B i j val1 val2
      = direct_dot_arma_loop n_elem A B (i + 2) (j + 2) (val1 + A i * B i)
          (val2 + A j * B j) := by
  rw [direct_dot_arma_loop, if_pos h]

theorem direct_dot_arma_loop_exit {eT : Type} [Add eT] [Mul eT] (n_elem : Nat)
    (A B : Nat → eT) (i j : Nat) (val1 val2 : eT) (h : ¬ j < n_elem) :
    direct_dot_arma_loop n_elem A B i j val1 val2 = (i, val1, val2) := by
  rw [direct_dot_arma_loop, if_neg h]

/-- Swapping the operands leaves every state of the two-accumulator loop
unchanged, using nothing but commutativity of the element product. -/
theorem direct_dot_arma_loop_comm {eT : Type} [Add eT] [CommMagma eT] (n_elem : Nat)
    (A B : Nat → eT) : ∀ (d i j : Nat) (val1 val2 : eT), n_elem - j = d →
    direct_dot_arma_loop n_elem A B i j val1 val2
      = direct_dot_arma_loop n_elem B A i j val1 val2 := by
  intro d
  induction d using Nat.strong_induction_on with
  | _ d ih =>
    intro i j val1 val2 hd
    by_cases h : j < n_elem
    · rw [direct_dot_arma_loop_step n_elem A B i j val1 val2 h,
        direct_dot_arma_loop_step n_elem B A i j val1 val2 h,
        mul_comm (A i) (B i), mul_comm (A j) (B j)]
      exact ih (n_elem - (j + 2)) (by omega) _ _ _ _ rfl
    · rw [direct_dot_arma_loop_exit n_elem A B i j val1 val2 h,
        direct_dot_arma_loop_exit n_elem B A i j val1 val2 h]

end op_dot

/-! ## Theorems -/

/-- C1: for every `n` and every pair of sequences over a non-complex element type,
`op_dot::direct_dot_arma(n, A, B)` equals `direct_dot_arma(n, B, A)`. Only
commutativity of the element product is used, in either build of the kernel. -/
theorem direct_dot_arma_comm {eT : Type} [Zero eT] [Add eT] [CommMagma eT] (cfg : Config)
    (n_elem : Nat) (A B : Nat → eT) :
    op_dot.direct_dot_arma cfg n_elem A B = op_dot.direct_dot_arma cfg n_elem B A := by
  unfold op_dot.direct_dot_arma
  rw [op_dot.direct_dot_arma_loop_comm n_elem A B _ 0 1 0 0 rfl]
  have hf : (fun i (val : eT) => val + A i * B i) = (fun i (val : eT) => val + B i * A i) := by
    funext i val
    rw [mul_comm]
  rw [hf]
  cases h : op_dot.direct_dot_arma_loop n_elem B A 0 1 0 0 with
  | mk i p =>
    cases p with
    | mk val1 val2 => simp only [mul_comm (A i) (B i)]

namespace op_cdot

/-- Closed form of the conjugated kernel: the two accumulators are finite sums. -/
theorem direct_cdot_arma_eq_sum {T : Type} [Ring T] (n_elem : Nat)
    (A B : Nat → std.complex T) :
    direct_cdot_arma n_elem A B
      = ⟨∑ i in Finset.range n_elem, ((A i).real * (B i).real + (A i).imag * (B i).imag),
         ∑ i in Finset.range n_elem, ((A i).real * (B i).imag - (A i).imag * (B i).real)⟩ := by
  unfold direct_cdot_arma
  have h := for_uword_sum_pair
    (fun i => (A i).real * (B i).real + (A i).imag * (B i).imag)
    (fun i => (A i).real * (B i).imag - (A i).imag * (B i).real) n_elem
  simp only [] at h ⊢
  rw [h]

end op_cdot

namespace op_dot

/-- Invariant of the two-accumulator loop started at an index pair `(i, i+1)`:
the two partial sums, together with the trailing-element step, add every
product with index in `[i, n_elem)` to the accumulators exactly once. -/
theorem direct_dot_arma_loop_sum {eT : Type} [NonUnitalNonAssocSemiring eT] (n_elem : Nat)
    (A B : Nat → eT) : ∀ (d i : Nat) (val1 val2 : eT), n_elem - i = d → i ≤ n_elem →
    (match direct_dot_arma_loop n_elem A B i (i + 1) val1 val2 with
     | (k, v1, v2) => (if k < n_elem then v1 + A k * B k else v1) + v2)
      = val1 + val2 + ∑ k in Finset.Ico i n_elem, A k * B k := by
  intro d
  induction d using Nat.strong_induction_on with
  | _ d ih =>
    intro i val1 val2 hd hi
    by_cases h : i + 1 < n_elem
    · rw [direct_dot_arma_loop_step n_elem A B i (i + 1) val1 val2 h,
        ih (n_elem - (i + 2)) (by omega) (i + 2) _ _ rfl (by omega),
        Finset.sum_eq_sum_Ico_succ_bot (by omega : i < n_elem),
        Finset.sum_eq_sum_Ico_succ_bot (by omega : i + 1 < n_elem)]
      have h12 : i + 1 + 1 = i + 2 := rfl
      rw [h12]
      ac_rfl
    · rw [direct_dot_arma_loop_exit n_elem A B i (i + 1) val1 val2 h]
      by_cases h2 : i < n_elem
      · have hn : n_elem = i + 1 := by omega
        simp only [if_pos h2]
        rw [hn, Nat.Ico_succ_singleton, Finset.sum_singleton]
        exact add_right_comm _ _ _
      · have hn : n_elem = i := by omega
        simp only [if_neg h2]
        rw [hn, Finset.Ico_self, Finset.sum_empty, add_zero]

end op_dot

/-- C2: for every `n` and every pair of complex sequences `A`, `B` (exact
arithmetic), `op_cdot::direct_cdot_arma(n, A, B)` equals the complex conjugate of
`direct_cdot_arma(n, B, A)`. -/
theorem direct_cdot_arma_conj_swap {T : Type} [CommRing T] (n_elem : Nat)
    (A B : Nat → std.complex T) :
    op_cdot.direct_cdot_arma n_elem A B = std.conj (op_cdot.direct_cdot_arma n_elem B A) := by
  rw [op_cdot.direct_cdot_arma_eq_sum, op_cdot.direct_cdot_arma_eq_sum]
  unfold std.conj
  simp only [std.complex.mk.injEq]
  constructor
  · apply Finset.sum_congr rfl
    intro i _
    ring
  · rw [← Finset.sum_neg_distrib]
    apply Finset.sum_congr rfl
    intro i _
    ring

/-- C3: for every `n` and every pair of sequences over a non-complex element type
in exact arithmetic, `op_dot::direct_dot_arma` returns the sum over all `i` in
`[0, n)` of `A[i] * B[i]`; the even-index and odd-index partial sums and the
trailing-element step cover each index exactly once, for odd and even `n`. -/
theorem direct_dot_arma_eq_sum {eT : Type} [NonUnitalNonAssocSemiring eT] (cfg : Config)
    (n_elem : Nat) (A B : Nat → eT) :
    op_dot.direct_dot_arma cfg n_elem A B = ∑ i in Finset.range n_elem, A i * B i := by
  unfold op_dot.direct_dot_arma
  by_cases hf : cfg.fast_math = true
  · rw [if_pos hf]
    exact for_uword_sum (fun i => A i * B i) n_elem
  · rw [if_neg hf]
    have h := op_dot.direct_dot_arma_loop_sum n_elem A B n_elem 0 0 0 rfl (Nat.zero_le _)
    rw [Finset.range_eq_Ico]
    simpa using h

/-! ### Conformance checks -/

namespace op_dot

/-- With equal element counts every path of `op_dot::apply` returns a value. -/
theorem dot_apply_of_eq {eT : Type} [Zero eT] [Add eT] [Mul eT] (et : ElemType eT)
    (X Y : Operand eT) (h : X.n_elem = Y.n_elem) : ∃ v, apply et X Y = Except.ok v := by
  have h1 : X.M.n_elem = Y.M.n_elem := h
  have h2 : (partial_unwrap X).n_elem = (partial_unwrap Y).n_elem := h
  unfold apply arma_conform_check
  simp only [Operand.n_elem, sv_keep_unwrap, quasi_unwrap, Proxy.get_n_elem, h1, h2, bne_self_eq_false,
    Bool.false_eq_true, if_false]
  split_ifs <;> exact ⟨_, rfl⟩

/-- With unequal element counts every path of `op_dot::apply` raises the
conformance error, with the fixed message. -/
theorem dot_apply_of_ne {eT : Type} [Zero eT] [Add eT] [Mul eT] (et : ElemType eT)
    (X Y : Operand eT) (h : X.n_elem ≠ Y.n_elem) : apply et X Y = Except.error conform_msg := by
  have h1 : X.M.n_elem ≠ Y.M.n_elem := h
  have h2 : (partial_unwrap X).n_elem ≠ (partial_unwrap Y).n_elem := h
  have h3 : ¬ (X.M.n_rows = Y.M.n_rows ∧ X.M.n_cols = Y.M.n_cols) := by
    rintro ⟨hr, hc⟩
    apply h1
    unfold Mat.n_elem
    rw [hr, hc]
  unfold apply arma_conform_check
  simp only [Operand.n_elem, sv_keep_unwrap, quasi_unwrap, Proxy.get_n_elem, bne_iff_ne, ne_eq,
    h1, h2, not_false_eq_true, if_true, Bool.and_eq_true, beq_iff_eq, h3, if_false]
  split_ifs <;> rfl

end op_dot

namespace op_norm_dot

/-- With unequal element counts `op_norm_dot::apply` raises its conformance error. -/
theorem norm_dot_apply_of_ne {eT T : Type} [Zero eT] [One eT] [Add eT] [Mul eT] [Zero T] [Mul T]
    [DecidableEq T] [HDiv eT T eT] (et : ElemType eT) (norm : Mat eT → T)
    (X Y : Operand eT) (h : X.n_elem ≠ Y.n_elem) :
    apply et norm X Y = Except.error conform_msg := by
  have h1 : ¬ X.M.n_rows * X.M.n_cols = Y.M.n_rows * Y.M.n_cols := h
  unfold apply arma_conform_check
  simp only [quasi_unwrap, Col, Mat.n_elem, Nat.mul_one, bne_iff_ne, ne_eq]
  rw [if_pos h1]
  rfl

end op_norm_dot

namespace op_cdot

/-- With unequal element counts `op_cdot::apply_unwrap` raises its conformance
error. -/
theorem cdot_apply_unwrap_of_ne {T : Type} [Zero T] [One T] [Add T] [Sub T] [Mul T] (cfg : Config)
    (be : Backend (std.complex T)) (result : Nat → std.complex T)
    (X Y : Operand (std.complex T)) (h : X.n_elem ≠ Y.n_elem) :
    apply_unwrap cfg be result X Y = Except.error conform_msg := by
  have h1 : X.M.n_elem ≠ Y.M.n_elem := h
  unfold apply_unwrap arma_conform_check
  simp only [quasi_unwrap, bne_iff_ne, ne_eq]
  rw [if_pos h1]
  rfl

/-- With unequal element counts both paths of `op_cdot::apply` raise the
conformance error. -/
theorem cdot_apply_of_ne {T : Type} [Zero T] [One T] [Add T] [Sub T] [Mul T] (cfg : Config)
    (be : Backend (std.complex T)) (result : Nat → std.complex T)
    (X Y : Operand (std.complex T)) (h : X.n_elem ≠ Y.n_elem) :
    apply cfg be result X Y = Except.error conform_msg := by
  have h1 : X.M.n_elem ≠ Y.M.n_elem := h
  have hu := cdot_apply_unwrap_of_ne cfg be result X Y h
  unfold apply apply_proxy
  rw [hu]
  unfold arma_conform_check
  simp only [Proxy.get_n_elem, bne_iff_ne, ne_eq]
  rw [if_pos h1]
  split_ifs <;> rfl

end op_cdot

namespace op_dot_mixed

/-- With unequal element counts `op_dot_mixed::apply` raises its conformance
error. -/
theorem dot_mixed_apply_of_ne {in_eT1 in_eT2 out_eT : Type} [Zero out_eT] [Add out_eT] [Mul out_eT]
    (up1 : in_eT1 → out_eT) (up2 : in_eT2 → out_eT) (A : Operand in_eT1)
    (B : Operand in_eT2) (h : A.n_elem ≠ B.n_elem) :
    apply up1 up2 A B = Except.error conform_msg := by
  have h1 : A.M.n_elem ≠ B.M.n_elem := h
  unfold apply arma_conform_check
  simp only [Proxy.get_n_elem, bne_iff_ne, ne_eq]
  rw [if_pos h1]
  rfl

end op_dot_mixed

/-- C4: `op_dot::apply(X, Y)` raises the conformance error if and only if the
element counts of `X` and `Y` differ, whichever access path the operand traits
select (subview_row, subview, vector, direct-memory, proxy-linear); when the counts
are equal it returns a value and raises nothing. -/
theorem op_dot_apply_conformance {eT : Type} [Zero eT] [Add eT] [Mul eT] (et : ElemType eT)
    (X Y : Operand eT) :
    ((∃ e, op_dot.apply et X Y = Except.error e) ↔ X.n_elem ≠ Y.n_elem) ∧
    (X.n_elem ≠ Y.n_elem → op_dot.apply et X Y = Except.error op_dot.conform_msg) ∧
    (X.n_elem = Y.n_elem → ∃ v, op_dot.apply et X Y = Except.ok v) := by
  refine ⟨⟨?_, ?_⟩, op_dot.dot_apply_of_ne et X Y, op_dot.dot_apply_of_eq et X Y⟩
  · rintro ⟨e, he⟩ heq
    obtain ⟨v, hv⟩ := op_dot.dot_apply_of_eq et X Y heq
    rw [hv] at he
    cases he
  · intro hne
    exact ⟨_, op_dot.dot_apply_of_ne et X Y hne⟩

/-- Witness for C4: a two-element and a three-element column are rejected, two
two-element columns are accepted. -/
theorem op_dot_apply_conformance_witness :
    (int_col [1, 2]).n_elem ≠ (int_col [3, 4, 5]).n_elem ∧
    op_dot.apply (ElemType.integral blas_config) (int_col [1, 2]) (int_col [3, 4, 5])
      = Except.error op_dot.conform_msg ∧
    (int_col [1, 2]).n_elem = (int_col [3, 4]).n_elem ∧
    ∃ v, op_dot.apply (ElemType.integral blas_config) (int_col [1, 2]) (int_col [3, 4])
      = Except.ok v :=
  ⟨by decide,
   (op_dot_apply_conformance (ElemType.integral blas_config) (int_col [1, 2])
      (int_col [3, 4, 5])).2.1 (by decide),
   by decide,
   (op_dot_apply_conformance (ElemType.integral blas_config) (int_col [1, 2])
      (int_col [3, 4])).2.2 (by decide)⟩

/-- C5, as stated, fails: the error `op_dot::apply` raises for a two-element and a
three-element operand mentions the operation but neither count, and it is the very
error raised for a four-element and a five-element operand. -/
theorem conformance_error_omits_counts :
    op_dot.apply (ElemType.integral blas_config) (int_col [1, 2]) (int_col [3, 4, 5])
      = Except.error "dot(): objects must have the same number of elements" ∧
    mentions "dot(): objects must have the same number of elements" "dot()" ∧
    ¬ mentions "dot(): objects must have the same number of elements"
        (toString (int_col [1, 2]).n_elem) ∧
    ¬ mentions "dot(): objects must have the same number of elements"
        (toString (int_col [3, 4, 5]).n_elem) ∧
    op_dot.apply (ElemType.integral blas_config) (int_col [1, 2]) (int_col [3, 4, 5])
      = op_dot.apply (ElemType.integral blas_config) (int_col [1, 2, 3, 4])
          (int_col [1, 2, 3, 4, 5]) :=
  ⟨rfl, by decide, by decide, by decide, rfl⟩

/-- C5, amended: whenever dot, norm_dot, cdot or the mixed-type dot rejects operands
of unequal element counts, the conformance error is a fixed message that names the
operation (`dot()`, `norm_dot()`, `cdot()`, and `dot()` again for the mixed-type
dot) and says that the objects must have the same number of elements; it does not
depend on the counts. -/
theorem conformance_error_message {eT T U in_eT1 in_eT2 out_eT : Type}
    [Zero eT] [One eT] [Add eT] [Mul eT] [Zero T] [Mul T] [DecidableEq T] [HDiv eT T eT]
    [Zero U] [One U] [Add U] [Sub U] [Mul U] [Zero out_eT] [Add out_eT] [Mul out_eT]
    (et : ElemType eT) (norm : Mat eT → T) (X Y : Operand eT)
    (cfg : Config) (be : Backend (std.complex U)) (result : Nat → std.complex U)
    (XC YC : Operand (std.complex U))
    (up1 : in_eT1 → out_eT) (up2 : in_eT2 → out_eT) (A : Operand in_eT1) (B : Operand in_eT2) :
    (X.n_elem ≠ Y.n_elem → op_dot.apply et X Y
      = Except.error "dot(): objects must have the same number of elements") ∧
    (X.n_elem ≠ Y.n_elem → op_norm_dot.apply et norm X Y
      = Except.error "norm_dot(): objects must have the same number of elements") ∧
    (XC.n_elem ≠ YC.n_elem → op_cdot.apply cfg be result XC YC
      = Except.error "cdot(): objects must have the same number of elements") ∧
    (A.n_elem ≠ B.n_elem → op_dot_mixed.apply up1 up2 A B
      = Except.error "dot(): objects must have the same number of elements") :=
  ⟨op_dot.dot_apply_of_ne et X Y, op_norm_dot.norm_dot_apply_of_ne et norm X Y,
   op_cdot.cdot_apply_of_ne cfg be result XC YC, op_dot_mixed.dot_mixed_apply_of_ne up1 up2 A B⟩

/-- Witness for C5 amended: integer columns of two and three elements, complex
columns of one and two elements. -/
theorem conformance_error_message_witness :
    op_dot.apply (ElemType.integral blas_config) (int_col [1, 2]) (int_col [3, 4, 5])
      = Except.error "dot(): objects must have the same number of elements" ∧
    op_norm_dot.apply (ElemType.integral blas_config) sq_norm (int_col [1, 2])
        (int_col [3, 4, 5])
      = Except.error "norm_dot(): objects must have the same number of elements" ∧
    op_cdot.apply blas_config (const_backend ⟨0, 0⟩) (fun _ => ⟨0, 0⟩) (cx_col [⟨1, 2⟩])
        (cx_col [⟨1, 2⟩, ⟨3, 4⟩])
      = Except.error "cdot(): objects must have the same number of elements" ∧
    op_dot_mixed.apply (fun (x : Int) => (x : Rat)) (fun (q : Rat) => q) (int_col [1, 2])
        (Operand.of_Col (Col (fun _ => (1 : Rat)) 3))
      = Except.error "dot(): objects must have the same number of elements" :=
  ⟨(conformance_error_message (ElemType.integral blas_config) sq_norm (int_col [1, 2])
      (int_col [3, 4, 5]) blas_config (const_backend ⟨0, 0⟩) (fun _ => ⟨0, 0⟩)
      (cx_col [⟨1, 2⟩]) (cx_col [⟨1, 2⟩, ⟨3, 4⟩]) (fun (x : Int) => (x : Rat))
      (fun (q : Rat) => q) (int_col [1, 2])
      (Operand.of_Col (Col (fun _ => (1 : Rat)) 3))).1 (by decide),
   (conformance_error_message (ElemType.integral blas_config) sq_norm (int_col [1, 2])
      (int_col [3, 4, 5]) blas_config (const_backend ⟨0, 0⟩) (fun _ => ⟨0, 0⟩)
      (cx_col [⟨1, 2⟩]) (cx_col [⟨1, 2⟩, ⟨3, 4⟩]) (fun (x : Int) => (x : Rat))
      (fun (q : Rat) => q) (int_col [1, 2])
      (Operand.of_Col (Col (fun _ => (1 : Rat)) 3))).2.1 (by decide),
   (conformance_error_message (ElemType.integral blas_config) sq_norm (int_col [1, 2])
      (int_col [3, 4, 5]) blas_config (const_backend ⟨0, 0⟩) (fun _ => ⟨0, 0⟩)
      (cx_col [⟨1, 2⟩]) (cx_col [⟨1, 2⟩, ⟨3, 4⟩]) (fun (x : Int) => (x : Rat))
      (fun (q : Rat) => q) (int_col [1, 2])
      (Operand.of_Col (Col (fun _ => (1 : Rat)) 3))).2.2.1 (by decide),
   (conformance_error_message (ElemType.integral blas_config) sq_norm (int_col [1, 2])
      (int_col [3, 4, 5]) blas_config (const_backend ⟨0, 0⟩) (fun _ => ⟨0, 0⟩)
      (cx_col [⟨1, 2⟩]) (cx_col [⟨1, 2⟩, ⟨3, 4⟩]) (fun (x : Int) => (x : Rat))
      (fun (q : Rat) => q) (int_col [1, 2])
      (Operand.of_Col (Col (fun _ => (1 : Rat)) 3))).2.2.2 (by decide)⟩

/-- In exact arithmetic, where zero times anything is zero: for operands of equal
element count, if `norm(A,2) = 0` or `norm(B,2) = 0` then `op_norm_dot::apply(A, B)`
returns the zero element and raises no error. The division is arbitrary here, so the
result owes nothing to it. -/
theorem norm_dot_zero_of_mul_zero {eT T : Type} [Zero eT] [One eT] [Add eT] [Mul eT]
    [MulZeroClass T] [DecidableEq T] [HDiv eT T eT] (et : ElemType eT) (norm : Mat eT → T)
    (X Y : Operand eT) (hn : X.n_elem = Y.n_elem)
    (h0 : norm (Col (quasi_unwrap X).memptr (quasi_unwrap X).n_elem) = 0
      ∨ norm (Col (quasi_unwrap Y).memptr (quasi_unwrap Y).n_elem) = 0) :
    op_norm_dot.apply et norm X Y = Except.ok 0 := by
  have h1 : X.M.n_rows * X.M.n_cols = Y.M.n_rows * Y.M.n_cols := hn
  have hd : norm (Col (quasi_unwrap X).memptr (quasi_unwrap X).n_elem)
      * norm (Col (quasi_unwrap Y).memptr (quasi_unwrap Y).n_elem) = 0 := by
    rcases h0 with h | h
    · rw [h, zero_mul]
    · rw [h, mul_zero]
  unfold op_norm_dot.apply arma_conform_check
  simp only [quasi_unwrap, Col, Mat.n_elem, Nat.mul_one, bne_iff_ne, ne_eq] at hd ⊢
  rw [if_neg (not_not.mpr h1)]
  simp only [hd, not_true_eq_false, if_false]
  rfl

/-! ### Replace -/

/-- The in-place scan over the first `n` positions substitutes exactly the
positions below `n` that held `old_val` and leaves every other position as it was. -/
theorem replace_scan {eT : Type} [DecidableEq eT] (old_val new_val : eT) (mem0 : Nat → eT)
    (n : Nat) : ∀ p : Nat,
    for_uword n (fun i mem => if mem i = old_val then Function.update mem i new_val else mem)
        mem0 p
      = if p < n ∧ mem0 p = old_val then new_val else mem0 p := by
  induction n with
  | zero =>
    intro p
    simp [for_uword]
  | succ k ih =>
    intro p
    rw [for_uword_succ]
    have hk : for_uword k
        (fun i mem => if mem i = old_val then Function.update mem i new_val else mem) mem0 k
        = mem0 k := by
      rw [ih k]
      simp
    simp only [hk]
    by_cases hold : mem0 k = old_val
    · rw [if_pos hold]
      by_cases hp : p = k
      · subst hp
        simp [hold]
      · rw [Function.update_noteq hp, ih p]
        have hiff : (p < k + 1 ∧ mem0 p = old_val) ↔ (p < k ∧ mem0 p = old_val) := by
          constructor
          · rintro ⟨h1, h2⟩
            exact ⟨by omega, h2⟩
          · rintro ⟨h1, h2⟩
            exact ⟨by omega, h2⟩
        simp only [hiff]
    · rw [if_neg hold, ih p]
      by_cases hp : p = k
      · subst hp
        simp [hold]
      · have hiff : (p < k + 1 ∧ mem0 p = old_val) ↔ (p < k ∧ mem0 p = old_val) := by
          constructor
          · rintro ⟨h1, h2⟩
            exact ⟨by omega, h2⟩
          · rintro ⟨h1, h2⟩
            exact ⟨by omega, h2⟩
        simp only [hiff]

/-- Elements of the destination of `op_replace::apply` on a matrix. -/
theorem op_replace_apply_mem {eT : Type} [DecidableEq eT] (out X : Mat eT)
    (old_val new_val : eT) (a b p : Nat) (hp : p < X.n_elem) :
    (op_replace.apply out ⟨X, old_val, new_val, a, b⟩).mem p
      = if X.mem p = old_val then new_val else X.mem p := by
  unfold op_replace.apply Mat.replace Mat.assign
  simp only [Mat.n_elem]
  rw [replace_scan]
  have hp2 : p < X.n_rows * X.n_cols := hp
  simp only [hp2, true_and]

/-- C7, as stated, fails: in the 1 x 2 matrix `[1, 2]`, replacing 1 by 2 and then
2 by 1 turns the second element, which was 2 from the start, into 1. -/
theorem replace_roundtrip_fails :
    (1 : Int) ≠ 2 ∧ 1 < (int_mat 1 2 [1, 2]).n_elem ∧
    (op_replace.apply (int_mat 0 0 [])
      ⟨op_replace.apply (int_mat 0 0 []) ⟨int_mat 1 2 [1, 2], 1, 2, 0, 0⟩, 2, 1, 0, 0⟩).mem 1
      ≠ (int_mat 1 2 [1, 2]).mem 1 := by
  decide

/-- C7, amended: for every matrix `A` and values `old ≠ new`, `replace(old -> new)`
followed by `replace(new -> old)` keeps the shape of `A`, and reproduces `A` element
for element exactly when no element of `A` equals `new`. -/
theorem replace_roundtrip {eT : Type} [DecidableEq eT] (out1 out2 A : Mat eT)
    (old_val new_val : eT) (a b c d : Nat) (hne : old_val ≠ new_val) :
    (op_replace.apply out2
        ⟨op_replace.apply out1 ⟨A, old_val, new_val, a, b⟩, new_val, old_val, c, d⟩).n_rows
      = A.n_rows ∧
    (op_replace.apply out2
        ⟨op_replace.apply out1 ⟨A, old_val, new_val, a, b⟩, new_val, old_val, c, d⟩).n_cols
      = A.n_cols ∧
    ((∀ p, p < A.n_elem →
        (op_replace.apply out2
          ⟨op_replace.apply out1 ⟨A, old_val, new_val, a, b⟩, new_val, old_val, c, d⟩).mem p
        = A.mem p)
      ↔ ∀ p, p < A.n_elem → A.mem p ≠ new_val) := by
  refine ⟨rfl, rfl, ?_⟩
  have key : ∀ p, p < A.n_elem →
      (op_replace.apply out2
          ⟨op_replace.apply out1 ⟨A, old_val, new_val, a, b⟩, new_val, old_val, c, d⟩).mem p
        = if A.mem p = old_val ∨ A.mem p = new_val then old_val else A.mem p := by
    intro p hp
    rw [op_replace_apply_mem out2 (op_replace.apply out1 ⟨A, old_val, new_val, a, b⟩)
        new_val old_val c d p hp,
      op_replace_apply_mem out1 A old_val new_val a b p hp]
    by_cases h1 : A.mem p = old_val
    · simp [h1]
    · by_cases h2 : A.mem p = new_val
      · simp [h1, h2]
      · simp [h1, h2]
  constructor
  · intro h p hp hnew
    have h1 := h p hp
    rw [key p hp, if_pos (Or.inr hnew), hnew] at h1
    exact hne h1
  · intro h p hp
    rw [key p hp]
    by_cases h1 : A.mem p = old_val
    · rw [if_pos (Or.inl h1), h1]
    · rw [if_neg (not_or.mpr ⟨h1, h p hp⟩)]

/-- Witness for C7 amended: the 1 x 2 matrix `[1, 3]` has no element equal to 2, so
replacing 1 by 2 and then 2 by 1 gives `[1, 3]` back. -/
theorem replace_roundtrip_witness :
    (1 : Int) ≠ 2 ∧ (∀ p, p < (int_mat 1 2 [1, 3]).n_elem → (int_mat 1 2 [1, 3]).mem p ≠ 2) ∧
    ∀ p, p < (int_mat 1 2 [1, 3]).n_elem →
      (op_replace.apply (int_mat 0 0 [])
        ⟨op_replace.apply (int_mat 0 0 []) ⟨int_mat 1 2 [1, 3], 1, 2, 0, 0⟩, 2, 1, 0, 0⟩).mem p
        = (int_mat 1 2 [1, 3]).mem p :=
  ⟨by decide, by decide,
   (replace_roundtrip (int_mat 0 0 []) (int_mat 0 0 []) (int_mat 1 2 [1, 3]) 1 2 0 0 0 0
      (by decide)).2.2.mpr (by decide)⟩

/-- C8: for every operand `X` and values `old`, `new`, `op_replace::apply` leaves
`out` with the shape of `X` and, at every position `p`, `out[p] = new` if `X[p]`
equals `old` and `out[p] = X[p]` otherwise; for matrices and for cubes. -/
theorem op_replace_apply_spec {eT : Type} [DecidableEq eT] (out X : Mat eT)
    (outc Q : Cube eT) (old_val new_val : eT) (a b : Nat) :
    ((op_replace.apply out ⟨X, old_val, new_val, a, b⟩).n_rows = X.n_rows ∧
     (op_replace.apply out ⟨X, old_val, new_val, a, b⟩).n_cols = X.n_cols ∧
     ∀ p, p < X.n_elem → (op_replace.apply out ⟨X, old_val, new_val, a, b⟩).mem p
        = if X.mem p = old_val then new_val else X.mem p) ∧
    ((op_replace.apply_cube outc ⟨Q, old_val, new_val, a, b⟩).n_rows = Q.n_rows ∧
     (op_replace.apply_cube outc ⟨Q, old_val, new_val, a, b⟩).n_cols = Q.n_cols ∧
     (op_replace.apply_cube outc ⟨Q, old_val, new_val, a, b⟩).n_slices = Q.n_slices ∧
     ∀ p, p < Q.n_elem → (op_replace.apply_cube outc ⟨Q, old_val, new_val, a, b⟩).mem p
        = if Q.mem p = old_val then new_val else Q.mem p) := by
  refine ⟨⟨rfl, rfl, fun p hp => op_replace_apply_mem out X old_val new_val a b p hp⟩,
    rfl, rfl, rfl, ?_⟩
  intro p hp
  unfold op_replace.apply_cube Cube.replace Cube.assign
  simp only [Cube.n_elem]
  rw [replace_scan]
  have hp2 : p < Q.n_rows * Q.n_cols * Q.n_slices := hp
  simp only [hp2, true_and]

/-- Witness for C8: replacing 1 by 2 in the 1 x 2 matrix `[1, 3]` and in the
1 x 1 x 2 cube `[1, 3]`. -/
theorem op_replace_apply_spec_witness :
    (0 < (int_mat 1 2 [1, 3]).n_elem ∧
      (op_replace.apply (int_mat 0 0 []) ⟨int_mat 1 2 [1, 3], 1, 2, 0, 0⟩).mem 0 = 2) ∧
    (1 < (Cube.mk 1 1 2 (int_ptr [1, 3])).n_elem ∧
      (op_replace.apply_cube (Cube.mk 0 0 0 (int_ptr []))
        ⟨Cube.mk 1 1 2 (int_ptr [1, 3]), 1, 2, 0, 0⟩).mem 1 = 3) :=
  ⟨⟨by decide,
    ((op_replace_apply_spec (int_mat 0 0 []) (int_mat 1 2 [1, 3])
      (Cube.mk 0 0 0 (int_ptr [])) (Cube.mk 1 1 2 (int_ptr [1, 3])) 1 2 0 0).1.2.2 0
        (by decide))⟩,
   ⟨by decide,
    ((op_replace_apply_spec (int_mat 0 0 []) (int_mat 1 2 [1, 3])
      (Cube.mk 0 0 0 (int_ptr [])) (Cube.mk 1 1 2 (int_ptr [1, 3])) 1 2 0 0).2.2.2.2 1
        (by decide))⟩⟩

/-! ### Kernel dispatch -/

/-- C9: with the external backend a parameter, `op_dot::direct_dot` on a real
element type returns `direct_dot_arma`'s result for every `n <= 32`, and on a
complex element type for every `n <= 16`, whatever the configuration; above the
threshold it returns the backend's result when one is configured (ATLAS, else
BLAS) and `direct_dot_arma`'s result otherwise. -/
theorem direct_dot_dispatch {eT T : Type} [Zero eT] [Add eT] [Mul eT]
    [Zero T] [Add T] [Sub T] [Mul T] (cfg : Config) (be : Backend eT)
    (bec : Backend (std.complex T)) (n_elem : Nat) (A B : Nat → eT)
    (AC BC : Nat → std.complex T) :
    ((n_elem ≤ 32 → op_dot.direct_dot cfg be n_elem A B
        = op_dot.direct_dot_arma cfg n_elem A B) ∧
     (32 < n_elem → cfg.use_atlas = true → op_dot.direct_dot cfg be n_elem A B
        = be.atlas_cblas_dot n_elem A B) ∧
     (32 < n_elem → cfg.use_atlas = false → cfg.use_blas = true →
        op_dot.direct_dot cfg be n_elem A B = be.blas_dot n_elem A B) ∧
     (32 < n_elem → cfg.use_atlas = false → cfg.use_blas = false →
        op_dot.direct_dot cfg be n_elem A B = op_dot.direct_dot_arma cfg n_elem A B)) ∧
    ((n_elem ≤ 16 → op_dot.direct_dot_cx cfg bec n_elem AC BC
        = op_dot.direct_dot_arma_cx n_elem AC BC) ∧
     (16 < n_elem → cfg.use_atlas = true → op_dot.direct_dot_cx cfg bec n_elem AC BC
        = bec.atlas_cblas_cx_dot n_elem AC BC) ∧
     (16 < n_elem → cfg.use_atlas = false → cfg.use_blas = true →
        op_dot.direct_dot_cx cfg bec n_elem AC BC = bec.blas_dot n_elem AC BC) ∧
     (16 < n_elem → cfg.use_atlas = false → cfg.use_blas = false →
        op_dot.direct_dot_cx cfg bec n_elem AC BC
          = op_dot.direct_dot_arma_cx n_elem AC BC)) := by
  unfold op_dot.direct_dot op_dot.direct_dot_cx
  refine ⟨⟨?_, ?_, ?_, ?_⟩, ?_, ?_, ?_, ?_⟩
  · intro h
    rw [if_pos h]
  · intro h ha
    rw [if_neg (by omega), if_pos ha]
  · intro h ha hb
    rw [if_neg (by omega), if_neg (by simp [ha]), if_pos hb]
  · intro h ha hb
    rw [if_neg (by omega), if_neg (by simp [ha]), if_neg (by simp [hb])]
  · intro h
    rw [if_pos h]
  · intro h ha
    rw [if_neg (by omega), if_pos ha]
  · intro h ha hb
    rw [if_neg (by omega), if_neg (by simp [ha]), if_pos hb]
  · intro h ha hb
    rw [if_neg (by omega), if_neg (by simp [ha]), if_neg (by simp [hb])]

/-- Witness for C9: with BLAS configured, 32 real elements and 16 complex elements
go to the manual kernels, 33 real and 17 complex elements go to `blas::dot`. -/
theorem direct_dot_dispatch_witness :
    (op_dot.direct_dot blas_config (const_backend 7) 32 (int_ptr []) (int_ptr [])
        = op_dot.direct_dot_arma blas_config 32 (int_ptr []) (int_ptr []) ∧
     op_dot.direct_dot blas_config (const_backend 7) 33 (int_ptr []) (int_ptr [])
        = (const_backend (7 : Int)).blas_dot 33 (int_ptr []) (int_ptr [])) ∧
    (op_dot.direct_dot_cx blas_config (const_backend ⟨7, 0⟩) 16
          (fun _ => (⟨0, 0⟩ : std.complex Int)) (fun _ => ⟨0, 0⟩)
        = op_dot.direct_dot_arma_cx 16 (fun _ => (⟨0, 0⟩ : std.complex Int)) (fun _ => ⟨0, 0⟩) ∧
     op_dot.direct_dot_cx blas_config (const_backend ⟨7, 0⟩) 17
          (fun _ => (⟨0, 0⟩ : std.complex Int)) (fun _ => ⟨0, 0⟩)
        = (const_backend (⟨7, 0⟩ : std.complex Int)).blas_dot 17 (fun _ => ⟨0, 0⟩)
            (fun _ => ⟨0, 0⟩)) :=
  ⟨⟨(direct_dot_dispatch blas_config (const_backend 7)
        (const_backend (⟨7, 0⟩ : std.complex Int)) 32 (int_ptr []) (int_ptr [])
        (fun _ => ⟨0, 0⟩) (fun _ => ⟨0, 0⟩)).1.1 (by decide),
    (direct_dot_dispatch blas_config (const_backend 7)
        (const_backend (⟨7, 0⟩ : std.complex Int)) 33 (int_ptr []) (int_ptr [])
        (fun _ => ⟨0, 0⟩) (fun _ => ⟨0, 0⟩)).1.2.2.1 (by decide) rfl rfl⟩,
   ⟨(direct_dot_dispatch blas_config (const_backend (7 : Int))
        (const_backend (⟨7, 0⟩ : std.complex Int)) 16 (int_ptr []) (int_ptr [])
        (fun _ => ⟨0, 0⟩) (fun _ => ⟨0, 0⟩)).2.1 (by decide),
    (direct_dot_dispatch blas_config (const_backend (7 : Int))
        (const_backend (⟨7, 0⟩ : std.complex Int)) 17 (int_ptr []) (int_ptr [])
        (fun _ => ⟨0, 0⟩) (fun _ => ⟨0, 0⟩)).2.2.2.1 (by decide) rfl rfl⟩⟩

/-- C10, as stated, fails: at 17 elements with BLAS configured `op_cdot::direct_cdot`
still runs the manual kernel. On all-zero inputs it returns `0`, the manual
kernel's value, where the backend's matrix-vector product would give `7`. -/
theorem direct_cdot_small_size_is_not_16 :
    16 < 17 ∧ blas_config.use_blas = true ∧
    op_cdot.direct_cdot blas_config (const_backend ⟨7, 0⟩) (fun _ => ⟨0, 0⟩) 17
        (fun _ => (⟨0, 0⟩ : std.complex Int)) (fun _ => ⟨0, 0⟩)
      = op_cdot.direct_cdot_arma 17 (fun _ => (⟨0, 0⟩ : std.complex Int)) (fun _ => ⟨0, 0⟩) ∧
    op_cdot.direct_cdot blas_config (const_backend ⟨7, 0⟩) (fun _ => ⟨0, 0⟩) 17
        (fun _ => (⟨0, 0⟩ : std.complex Int)) (fun _ => ⟨0, 0⟩)
      ≠ ((const_backend (⟨7, 0⟩ : std.complex Int)).blas_gemv 'C' (blas_int 32 17) 1 ⟨1, 0⟩
          (fun _ => ⟨0, 0⟩) (blas_int 32 17) (fun _ => ⟨0, 0⟩) 1 ⟨0, 0⟩ (fun _ => ⟨0, 0⟩) 1) 0 := by
  refine ⟨by decide, rfl, rfl, ?_⟩
  decide

/-- C10, amended: `op_cdot::direct_cdot` uses the manual kernel `direct_cdot_arma`
for every element count at or below 32, and for every element count above 32 with a
BLAS backend configured it returns the first element of the backend's
matrix-vector product `gemv` with `trans = 'C'`; without BLAS it uses the manual
kernel at every count. -/
theorem direct_cdot_dispatch {T : Type} [Zero T] [One T] [Add T] [Sub T] [Mul T]
    (cfg : Config) (be : Backend (std.complex T)) (result : Nat → std.complex T)
    (n_elem : Nat) (A B : Nat → std.complex T) :
    (n_elem ≤ 32 → op_cdot.direct_cdot cfg be result n_elem A B
        = op_cdot.direct_cdot_arma n_elem A B) ∧
    (32 < n_elem → cfg.use_blas = true → op_cdot.direct_cdot cfg be result n_elem A B
        = (be.blas_gemv 'C' (blas_int cfg.blas_int_bits n_elem) 1 ⟨1, 0⟩ A
            (blas_int cfg.blas_int_bits n_elem) B 1 ⟨0, 0⟩ result 1) 0) ∧
    (cfg.use_blas = false → op_cdot.direct_cdot cfg be result n_elem A B
        = op_cdot.direct_cdot_arma n_elem A B) := by
  unfold op_cdot.direct_cdot
  refine ⟨?_, ?_, ?_⟩
  · intro h
    rw [if_pos h]
  · intro h hb
    rw [if_neg (by omega), if_pos hb]
  · intro hb
    by_cases h : n_elem ≤ 32
    · rw [if_pos h]
    · rw [if_neg h, if_neg (by simp [hb])]

/-- Witness for C10 amended: with BLAS configured, 32 elements go to the manual
kernel and 33 elements to `gemv`. -/
theorem direct_cdot_dispatch_witness :
    op_cdot.direct_cdot blas_config (const_backend ⟨7, 0⟩) (fun _ => ⟨0, 0⟩) 32
        (fun _ => (⟨0, 0⟩ : std.complex Int)) (fun _ => ⟨0, 0⟩)
      = op_cdot.direct_cdot_arma 32 (fun _ => (⟨0, 0⟩ : std.complex Int)) (fun _ => ⟨0, 0⟩) ∧
    op_cdot.direct_cdot blas_config (const_backend ⟨7, 0⟩) (fun _ => ⟨0, 0⟩) 33
        (fun _ => (⟨0, 0⟩ : std.complex Int)) (fun _ => ⟨0, 0⟩)
      = ((const_backend (⟨7, 0⟩ : std.complex Int)).blas_gemv 'C' (blas_int 32 33) 1 ⟨1, 0⟩
          (fun _ => ⟨0, 0⟩) (blas_int 32 33) (fun _ => ⟨0, 0⟩) 1 ⟨0, 0⟩ (fun _ => ⟨0, 0⟩) 1) 0 :=
  ⟨(direct_cdot_dispatch blas_config (const_backend ⟨7, 0⟩) (fun _ => ⟨0, 0⟩) 32
      (fun _ => (⟨0, 0⟩ : std.complex Int)) (fun _ => ⟨0, 0⟩)).1 (by decide),
   (direct_cdot_dispatch blas_config (const_backend ⟨7, 0⟩) (fun _ => ⟨0, 0⟩) 33
      (fun _ => (⟨0, 0⟩ : std.complex Int)) (fun _ => ⟨0, 0⟩)).2.1 (by decide) rfl⟩

/-! ### Complex kernels and the mixed-type dot -/

/-- A counted loop adding complex products part by part is the pair of the two
real sums. -/
theorem cx_sum_of_products_eq {T : Type} [Ring T] (n : Nat) (A B : Nat → std.complex T) :
    cx_sum_of_products n A B
      = ⟨∑ i in Finset.range n, ((A i).real * (B i).real - (A i).imag * (B i).imag),
         ∑ i in Finset.range n, ((A i).real * (B i).imag + (A i).imag * (B i).real)⟩ := by
  unfold cx_sum_of_products
  induction n with
  | zero => rfl
  | succ k ih =>
    rw [for_uword_succ, ih, Finset.sum_range_succ, Finset.sum_range_succ]
    rfl

namespace op_dot

/-- Closed form of the complex kernel: the two accumulators are finite sums. -/
theorem direct_dot_arma_cx_eq_sum {T : Type} [Ring T] (n_elem : Nat)
    (A B : Nat → std.complex T) :
    direct_dot_arma_cx n_elem A B
      = ⟨∑ i in Finset.range n_elem, ((A i).real * (B i).real - (A i).imag * (B i).imag),
         ∑ i in Finset.range n_elem, ((A i).real * (B i).imag + (A i).imag * (B i).real)⟩ := by
  unfold direct_dot_arma_cx
  have h := for_uword_sum_pair
    (fun i => (A i).real * (B i).real - (A i).imag * (B i).imag)
    (fun i => (A i).real * (B i).imag + (A i).imag * (B i).real) n_elem
  simp only [] at h ⊢
  rw [h]

end op_dot

/-- C11: for every `n` and complex sequences `A`, `B` (exact arithmetic), the
complex `op_dot::direct_dot_arma` returns the sum over `i` of the complex product
`A[i] * B[i]`, with no conjugation: its real part is the sum of `a c - b d` and its
imaginary part the sum of `a d + b c`, where `A[i] = a + b i` and `B[i] = c + d i`. -/
theorem direct_dot_arma_cx_spec {T : Type} [Ring T] (n_elem : Nat)
    (A B : Nat → std.complex T) :
    op_dot.direct_dot_arma_cx n_elem A B = cx_sum_of_products n_elem A B ∧
    (op_dot.direct_dot_arma_cx n_elem A B).real
      = ∑ i in Finset.range n_elem, ((A i).real * (B i).real - (A i).imag * (B i).imag) ∧
    (op_dot.direct_dot_arma_cx n_elem A B).imag
      = ∑ i in Finset.range n_elem, ((A i).real * (B i).imag + (A i).imag * (B i).real) := by
  rw [op_dot.direct_dot_arma_cx_eq_sum, cx_sum_of_products_eq]
  exact ⟨rfl, rfl, rfl⟩

/-- C12: for every `n` and complex sequences `A`, `B` (exact arithmetic),
`op_cdot::direct_cdot_arma(n, A, B)` is the sum over `i` of `conj(A[i]) * B[i]`,
that is the unconjugated complex dot product of the element-wise conjugate of `A`
with `B`. The conjugate is on the first operand: for `A = [i]`, `B = [1]` the
kernel gives `-i`, where conjugating the second operand would give `i`. -/
theorem direct_cdot_arma_spec {T : Type} [Ring T] (n_elem : Nat)
    (A B : Nat → std.complex T) :
    op_cdot.direct_cdot_arma n_elem A B
      = cx_sum_of_products n_elem (fun i => std.conj (A i)) B ∧
    op_cdot.direct_cdot_arma n_elem A B
      = op_dot.direct_dot_arma_cx n_elem (fun i => std.conj (A i)) B ∧
    op_cdot.direct_cdot_arma 1 (fun _ => (⟨0, 1⟩ : std.complex Int)) (fun _ => ⟨1, 0⟩)
      = ⟨0, -1⟩ ∧
    op_dot.direct_dot_arma_cx 1 (fun _ => (⟨0, 1⟩ : std.complex Int))
        (fun _ => std.conj ⟨1, 0⟩) = ⟨0, 1⟩ := by
  refine ⟨?_, ?_, by decide, by decide⟩
  · rw [op_cdot.direct_cdot_arma_eq_sum, cx_sum_of_products_eq]
    simp only [std.conj, neg_mul, sub_neg_eq_add, std.complex.mk.injEq]
    constructor
    · trivial
    · apply Finset.sum_congr rfl
      intro i _
      rw [sub_eq_add_neg]
  · rw [op_cdot.direct_cdot_arma_eq_sum, op_dot.direct_dot_arma_cx_eq_sum]
    simp only [std.conj, neg_mul, sub_neg_eq_add, std.complex.mk.injEq]
    constructor
    · trivial
    · apply Finset.sum_congr rfl
      intro i _
      rw [sub_eq_add_neg]

/-- C13: for operands `A`, `B` of different element types with equal element count
`N`, `op_dot_mixed::apply` returns, in the promoted output type, the sum over `i`
in `[0, N)` of `upgrade(A[i]) * upgrade(B[i])`; it takes no backend, so the value
comes from its own loop at every `N`. With unequal counts it raises the
conformance error instead. -/
theorem dot_mixed_apply_spec {in_eT1 in_eT2 out_eT : Type} [NonUnitalNonAssocSemiring out_eT]
    (up1 : in_eT1 → out_eT) (up2 : in_eT2 → out_eT) (A : Operand in_eT1)
    (B : Operand in_eT2) :
    (A.n_elem = B.n_elem → op_dot_mixed.apply up1 up2 A B
      = Except.ok (∑ i in Finset.range A.n_elem, up1 (A.M.mem i) * up2 (B.M.mem i))) ∧
    (A.n_elem ≠ B.n_elem → op_dot_mixed.apply up1 up2 A B
      = Except.error op_dot_mixed.conform_msg) := by
  refine ⟨?_, op_dot_mixed.dot_mixed_apply_of_ne up1 up2 A B⟩
  intro h
  have h1 : A.M.n_elem = B.M.n_elem := h
  unfold op_dot_mixed.apply arma_conform_check
  simp only [Proxy.get_n_elem, Proxy.get_ea, h1, bne_self_eq_false, Bool.false_eq_true, if_false]
  have hs := for_uword_sum (fun i => up1 (A.M.mem i) * up2 (B.M.mem i)) B.M.n_elem
  simp only [Operand.n_elem, h1]
  rw [← hs]
  rfl

/-- Witness for C13: an integer column and a rational column of two elements each,
and an integer column of two against a rational column of three. -/
theorem dot_mixed_apply_spec_witness :
    (int_col [1, 2]).n_elem = (Operand.of_Col (Col (fun _ => (3 : Rat)) 2)).n_elem ∧
    op_dot_mixed.apply (fun (x : Int) => (x : Rat)) (fun (q : Rat) => q) (int_col [1, 2])
        (Operand.of_Col (Col (fun _ => (3 : Rat)) 2))
      = Except.ok (∑ i in Finset.range (int_col [1, 2]).n_elem,
          (((int_col [1, 2]).M.mem i : Int) : Rat)
            * (Operand.of_Col (Col (fun _ => (3 : Rat)) 2)).M.mem i) ∧
    (int_col [1, 2]).n_elem ≠ (Operand.of_Col (Col (fun _ => (3 : Rat)) 3)).n_elem ∧
    op_dot_mixed.apply (fun (x : Int) => (x : Rat)) (fun (q : Rat) => q) (int_col [1, 2])
        (Operand.of_Col (Col (fun _ => (3 : Rat)) 3))
      = Except.error op_dot_mixed.conform_msg :=
  ⟨by decide,
   (dot_mixed_apply_spec (fun (x : Int) => (x : Rat)) (fun (q : Rat) => q) (int_col [1, 2])
      (Operand.of_Col (Col (fun _ => (3 : Rat)) 2))).1 (by decide),
   by decide,
   (dot_mixed_apply_spec (fun (x : Int) => (x : Rat)) (fun (q : Rat) => q) (int_col [1, 2])
      (Operand.of_Col (Col (fun _ => (3 : Rat)) 3))).2 (by decide)⟩

/-! ### Elementwise maps -/

/-- A linear fill whose read at step `i` depends only on positions not yet
overwritten writes `h p` at every position `p < n` and leaves the rest alone. -/
theorem linear_fill {T : Type} (g : (Nat → T) → Nat → T) (h : Nat → T) (mem0 : Nat → T)
    (n : Nat)
    (hg : ∀ i, i < n → ∀ mem : Nat → T, (∀ q, i ≤ q → mem q = mem0 q) → g mem i = h i) :
    ∀ p, for_uword n (fun i mem => Function.update mem i (g mem i)) mem0 p
      = if p < n then h p else mem0 p := by
  induction n with
  | zero =>
    intro p
    simp [for_uword]
  | succ k ih =>
    intro p
    have ih1 := ih (fun i hi => hg i (by omega))
    rw [for_uword_succ]
    have hk : g (for_uword k (fun i mem => Function.update mem i (g mem i)) mem0) k = h k := by
      apply hg k (by omega)
      intro q hq
      rw [ih1 q, if_neg (by omega)]
    simp only [hk]
    by_cases hp : p = k
    · subst hp
      simp
    · rw [Function.update_noteq hp, ih1 p]
      by_cases hlt : p < k
      · rw [if_pos hlt, if_pos (by omega)]
      · rw [if_neg hlt, if_neg (by omega)]

/-- One run of the inner loop of `fill_at`: `n` writes through a pointer that
advances by one, starting at offset `q`. -/
theorem pointer_fill {T : Type} (f : Nat → T) (n : Nat) (m : Nat → T) (q : Nat) :
    (for_uword n (fun row (st : (Nat → T) × Nat) =>
        (Function.update st.1 st.2 (f row), st.2 + 1)) (m, q)).2 = q + n ∧
    ∀ p, (for_uword n (fun row (st : (Nat → T) × Nat) =>
        (Function.update st.1 st.2 (f row), st.2 + 1)) (m, q)).1 p
      = if q ≤ p ∧ p < q + n then f (p - q) else m p := by
  induction n with
  | zero =>
    refine ⟨rfl, ?_⟩
    intro p
    rw [if_neg (by omega)]
    rfl
  | succ k ih =>
    obtain ⟨ih1, ih2⟩ := ih
    rw [for_uword_succ]
    refine ⟨?_, ?_⟩
    · dsimp only
      rw [ih1]
      omega
    · intro p
      dsimp only
      rw [ih1]
      by_cases hp : p = q + k
      · subst hp
        rw [Function.update_same, if_pos (by omega)]
        congr 1
        omega
      · rw [Function.update_noteq hp, ih2 p]
        by_cases hc : q ≤ p ∧ p < q + k
        · rw [if_pos hc, if_pos (by omega)]
        · rw [if_neg hc, if_neg (by omega)]

/-- Position `i + j * r` with `i < r` lies in column `j` at row `i`. -/
theorem col_major_div_mod (r i j : Nat) (hi : i < r) :
    (i + j * r) / r = j ∧ (i + j * r) % r = i := by
  have hr : 0 < r := by omega
  constructor
  · rw [Nat.add_mul_div_right _ _ hr, Nat.div_eq_of_lt hi, Nat.zero_add]
  · rw [Nat.add_mul_mod_self_right, Nat.mod_eq_of_lt hi]

/-- The loop nest of the `use_at` branch, on an operand kept apart from the
destination, ends with the pointer `n_rows * n_cols` past the start and has written
`f (P.at(row, col))` at position `row + col * n_rows`. -/
theorem fill_at_apart {eT T : Type} (f : eT → T) (P : UnaryArg eT T) (hP : P.apart)
    (r c : Nat) (mem0 : Nat → T) :
    (fill_at f P r c mem0).2 = c * r ∧
    ∀ p, (fill_at f P r c mem0).1 p
      = if p < c * r then f (P.at_ mem0 (p % r) (p / r)) else mem0 p := by
  unfold fill_at
  induction c with
  | zero =>
    refine ⟨by simp [for_uword], ?_⟩
    intro p
    simp [for_uword]
  | succ k ih =>
    obtain ⟨ih1, ih2⟩ := ih
    rw [for_uword_succ]
    have hbody : (fun row (st : (Nat → T) × Nat) =>
        (Function.update st.1 st.2 (f (P.at_ st.1 row k)), st.2 + 1))
        = (fun row (st : (Nat → T) × Nat) =>
        (Function.update st.1 st.2 ((fun row => f (P.at_ mem0 row k)) row), st.2 + 1)) := by
      funext row st
      rw [hP.2 st.1 mem0 row k]
    simp only [hbody]
    generalize hst : for_uword k (fun col st =>
      for_uword r (fun row (st : (Nat → T) × Nat) =>
        (Function.update st.1 st.2 (f (P.at_ st.1 row col)), st.2 + 1)) st) (mem0, 0) = st0
      at ih1 ih2
    obtain ⟨m, q⟩ := st0
    simp only at ih1 ih2
    subst ih1
    obtain ⟨h1, h2⟩ := pointer_fill (fun row => f (P.at_ mem0 row k)) r m (k * r)
    refine ⟨?_, ?_⟩
    · rw [h1, Nat.succ_mul]
    · intro p
      rw [h2 p, ih2 p]
      by_cases hc : k * r ≤ p ∧ p < k * r + r
      · rw [if_pos hc, if_pos (by rw [Nat.succ_mul]; omega)]
        have hp : p = (p - k * r) + k * r := by omega
        obtain ⟨hd, hm⟩ := col_major_div_mod r (p - k * r) k (by omega)
        rw [← hp] at hd hm
        rw [hd, hm]
      · rw [if_neg hc]
        by_cases hlt : p < k * r
        · rw [if_pos hlt, if_pos (by rw [Nat.succ_mul]; omega)]
        · rw [if_neg hlt, if_neg (by rw [Nat.succ_mul]; omega)]

/-- After `set_size` the destination has the requested extents. -/
theorem set_size_shape {T : Type} (out : Mat T) (fresh : Nat → T) (r c : Nat) :
    (out.set_size fresh r c).n_rows = r ∧ (out.set_size fresh r c).n_cols = c := by
  unfold Mat.set_size
  by_cases h : out.n_rows = r ∧ out.n_cols = c
  · rw [if_pos h]
    exact h
  · rw [if_neg h]
    exact ⟨rfl, rfl⟩

/-- Position `i + j * r` of an `r x c` matrix is below `r * c`. -/
theorem col_major_lt (r c i j : Nat) (hi : i < r) (hj : j < c) : i + j * r < r * c := by
  have h1 : (j + 1) * r ≤ c * r := Nat.mul_le_mul_right r hj
  rw [Nat.succ_mul] at h1
  rw [Nat.mul_comm r c]
  omega

namespace op_abs

/-- Extents of the destination of `op_abs::apply`. -/
theorem abs_apply_shape {eT T : Type} (abs : eT → T) (fresh : Nat → T) (out : Mat T)
    (X : mtOp T eT (UnaryArg eT T)) :
    (apply abs fresh out X).n_rows = X.m.n_rows ∧
    (apply abs fresh out X).n_cols = X.m.n_cols := by
  obtain ⟨h1, h2⟩ := set_size_shape out fresh X.m.n_rows X.m.n_cols
  unfold apply
  by_cases hu : (X.m.use_at == false) = true
  · simp only [hu, if_true]
    exact ⟨h1, h2⟩
  · simp only [hu, if_false]
    exact ⟨h1, h2⟩

/-- Elements of the destination of `op_abs::apply` for an operand kept apart from
it: position `p` holds the image of what the selected access path reads there. -/
theorem abs_apply_mem_apart {eT T : Type} (abs : eT → T) (fresh : Nat → T) (out : Mat T)
    (X : mtOp T eT (UnaryArg eT T)) (hP : X.m.apart) (cur : Nat → T) (p : Nat)
    (hp : p < X.m.n_elem) :
    (apply abs fresh out X).mem p
      = abs (if X.m.use_at then X.m.at_ cur (p % X.m.n_rows) (p / X.m.n_rows)
          else X.m.ea cur p) := by
  have hp1 : p < X.m.n_rows * X.m.n_cols := hp
  unfold apply
  cases hu : X.m.use_at
  · have hc : (X.m.use_at == false) = true := by rw [hu]; rfl
    rw [if_pos hc]
    dsimp only
    rw [linear_fill (fun mem i => abs (X.m.ea mem i)) (fun i => abs (X.m.ea cur i)) _ X.m.n_elem
      (fun i _ mem _ => by simp only [hP.1 mem cur i]) p, if_pos hp]
    simp
  · have hc : ¬ ((X.m.use_at == false) = true) := by rw [hu]; decide
    rw [if_neg hc]
    dsimp only
    rw [(fill_at_apart abs X.m hP X.m.n_rows X.m.n_cols _).2 p,
      if_pos (by rw [Nat.mul_comm]; exact hp1), hP.2 _ cur]
    simp

end op_abs

/-- C14: for every matrix operand `X` of shape `r x c`, `op_abs::apply` leaves `out`
with shape `r x c` and `out(i,j) = |X(i,j)|` for every `i < r`, `j < c`, on the
linear element-accessor path and on the `use_at` nested-loop path alike; the two
paths leave the same value at every column-major position. -/
theorem op_abs_apply_spec {eT T : Type} (abs : eT → T) (fresh : Nat → T) (out : Mat T)
    (X : Mat eT) (use_at : Bool) (aux : eT) (aux_out : T) (a b : Nat) :
    (op_abs.apply abs fresh out ⟨UnaryArg.of_Mat use_at X, aux, aux_out, a, b⟩).n_rows
      = X.n_rows ∧
    (op_abs.apply abs fresh out ⟨UnaryArg.of_Mat use_at X, aux, aux_out, a, b⟩).n_cols
      = X.n_cols ∧
    (∀ i j, i < X.n_rows → j < X.n_cols →
      (op_abs.apply abs fresh out ⟨UnaryArg.of_Mat use_at X, aux, aux_out, a, b⟩).at_ i j
        = abs (X.at_ i j)) ∧
    (∀ p, p < X.n_elem →
      (op_abs.apply abs fresh out ⟨UnaryArg.of_Mat false X, aux, aux_out, a, b⟩).mem p
        = (op_abs.apply abs fresh out ⟨UnaryArg.of_Mat true X, aux, aux_out, a, b⟩).mem p) := by
  have hap : ∀ u : Bool, (UnaryArg.of_Mat u X : UnaryArg eT T).apart :=
    fun u => ⟨fun _ _ _ => rfl, fun _ _ _ _ => rfl⟩
  have hs := op_abs.abs_apply_shape abs fresh out
    ⟨UnaryArg.of_Mat use_at X, aux, aux_out, a, b⟩
  have h1 : (op_abs.apply abs fresh out
      ⟨UnaryArg.of_Mat use_at X, aux, aux_out, a, b⟩).n_rows = X.n_rows := hs.1
  have h2 : (op_abs.apply abs fresh out
      ⟨UnaryArg.of_Mat use_at X, aux, aux_out, a, b⟩).n_cols = X.n_cols := hs.2
  refine ⟨h1, h2, ?_, ?_⟩
  · intro i j hi hj
    have hp : i + j * X.n_rows < X.n_rows * X.n_cols := col_major_lt _ _ i j hi hj
    obtain ⟨hd, hm⟩ := col_major_div_mod X.n_rows i j hi
    unfold Mat.at_
    rw [h1]
    rw [op_abs.abs_apply_mem_apart abs fresh out ⟨UnaryArg.of_Mat use_at X, aux, aux_out, a, b⟩
      (hap use_at) fresh (i + j * X.n_rows) hp]
    simp only [UnaryArg.of_Mat, Mat.at_, hd, hm, ite_self]
  · intro p hp
    have hr : 0 < X.n_rows := by
      rcases Nat.eq_zero_or_pos X.n_rows with h0 | h0
      · unfold Mat.n_elem at hp
        rw [h0, Nat.zero_mul] at hp
        omega
      · exact h0
    rw [op_abs.abs_apply_mem_apart abs fresh out ⟨UnaryArg.of_Mat false X, aux, aux_out, a, b⟩
        (hap false) fresh p hp,
      op_abs.abs_apply_mem_apart abs fresh out ⟨UnaryArg.of_Mat true X, aux, aux_out, a, b⟩
        (hap true) fresh p hp]
    simp only [UnaryArg.of_Mat, Mat.at_, Bool.false_eq_true, if_false, if_true]
    rw [Nat.mod_add_div']

/-- Witness for C14: the absolute values of the 2 x 2 integer matrix
`[-1, 2; -3, 4]` (stored column by column), on the `use_at` path. -/
theorem op_abs_apply_spec_witness :
    (0 < (int_mat 2 2 [-1, -3, 2, 4]).n_rows ∧ 1 < (int_mat 2 2 [-1, -3, 2, 4]).n_cols) ∧
    (op_abs.apply Int.natAbs (fun _ => 0) (Mat.mk 0 0 (fun _ => 0))
        ⟨UnaryArg.of_Mat true (int_mat 2 2 [-1, -3, 2, 4]), 0, 0, 0, 0⟩).at_ 0 1
      = Int.natAbs ((int_mat 2 2 [-1, -3, 2, 4]).at_ 0 1) :=
  ⟨by decide,
   (op_abs_apply_spec Int.natAbs (fun _ => 0) (Mat.mk 0 0 (fun _ => 0))
      (int_mat 2 2 [-1, -3, 2, 4]) true 0 0 0 0).2.2.1 0 1 (by decide) (by decide)⟩

/-- Filling the first `n` positions with zero. -/
theorem zero_fill {T : Type} [Zero T] (mem0 : Nat → T) (n p : Nat) :
    for_uword n (fun i mem => Function.update mem i 0) mem0 p
      = if p < n then 0 else mem0 p :=
  linear_fill (fun _ _ => 0) (fun _ => 0) mem0 n (fun _ _ _ _ => rfl) p

/-- C15: for every operand `X` with a non-complex element type, `op_imag::apply`
(matrix and cube forms) leaves `out` with exactly the extents of `X` and every
element equal to zero, without reading any element of `X`: the destination is the
same for every operand of those extents, whatever its elements and its access
path. -/
theorem op_imag_apply_non_cx {eT T : Type} [Zero T] (tmp_imag : eT → T) (fresh : Nat → T)
    (out : Mat T) (X : mtOp T eT (UnaryArg eT T)) (outc : Cube T)
    (XC : mtOp T eT (UnaryArgCube eT T)) :
    ((op_imag.apply false tmp_imag fresh out X).n_rows = X.m.n_rows ∧
     (op_imag.apply false tmp_imag fresh out X).n_cols = X.m.n_cols ∧
     (∀ p, p < X.m.n_elem → (op_imag.apply false tmp_imag fresh out X).mem p = 0) ∧
     (∀ (tmp_imag1 : eT → T) (X1 : mtOp T eT (UnaryArg eT T)),
        X1.m.n_rows = X.m.n_rows → X1.m.n_cols = X.m.n_cols →
        op_imag.apply false tmp_imag1 fresh out X1 = op_imag.apply false tmp_imag fresh out X)) ∧
    ((op_imag.apply_cube false tmp_imag fresh outc XC).n_rows = XC.m.n_rows ∧
     (op_imag.apply_cube false tmp_imag fresh outc XC).n_cols = XC.m.n_cols ∧
     (op_imag.apply_cube false tmp_imag fresh outc XC).n_slices = XC.m.n_slices ∧
     (∀ p, p < XC.m.n_elem → (op_imag.apply_cube false tmp_imag fresh outc XC).mem p = 0) ∧
     (∀ (tmp_imag1 : eT → T) (XC1 : mtOp T eT (UnaryArgCube eT T)),
        XC1.m.n_rows = XC.m.n_rows → XC1.m.n_cols = XC.m.n_cols →
        XC1.m.n_slices = XC.m.n_slices →
        op_imag.apply_cube false tmp_imag1 fresh outc XC1
          = op_imag.apply_cube false tmp_imag fresh outc XC)) := by
  refine ⟨⟨rfl, rfl, ?_, ?_⟩, rfl, rfl, rfl, ?_, ?_⟩
  · intro p hp
    have hp1 : p < X.m.n_rows * X.m.n_cols := hp
    unfold op_imag.apply Mat.zeros
    simp only [Bool.not_false, if_true]
    rw [zero_fill, if_pos hp1]
  · intro tmp_imag1 X1 hr hc
    unfold op_imag.apply
    simp only [Bool.not_false, if_true, hr, hc]
  · intro p hp
    have hp1 : p < XC.m.n_rows * XC.m.n_cols * XC.m.n_slices := hp
    unfold op_imag.apply_cube Cube.zeros
    simp only [Bool.not_false, if_true]
    rw [zero_fill, if_pos hp1]
  · intro tmp_imag1 XC1 hr hc hs
    unfold op_imag.apply_cube
    simp only [Bool.not_false, if_true, hr, hc, hs]

/-- Witness for C15: the imaginary part of a 1 x 2 integer matrix is `[0, 0]`, and
it is the same for `[5, 7]` read linearly and `[8, 9]` read by row and column. -/
theorem op_imag_apply_non_cx_witness :
    (1 < (UnaryArg.of_Mat false (int_mat 1 2 [5, 7]) : UnaryArg Int Int).n_elem ∧
     (op_imag.apply false (fun _ => (1 : Int)) (fun _ => 3) (int_mat 0 0 [])
        ⟨UnaryArg.of_Mat false (int_mat 1 2 [5, 7]), 0, 0, 0, 0⟩).mem 1 = 0) ∧
    op_imag.apply false (fun _ => (1 : Int)) (fun _ => 3) (int_mat 0 0 [])
        ⟨UnaryArg.of_Mat true (int_mat 1 2 [8, 9]), 0, 0, 0, 0⟩
      = op_imag.apply false (fun _ => (1 : Int)) (fun _ => 3) (int_mat 0 0 [])
        ⟨UnaryArg.of_Mat false (int_mat 1 2 [5, 7]), 0, 0, 0, 0⟩ :=
  ⟨⟨by decide,
    (op_imag_apply_non_cx (fun _ => (1 : Int)) (fun _ => 3) (int_mat 0 0 [])
      ⟨UnaryArg.of_Mat false (int_mat 1 2 [5, 7]), 0, 0, 0, 0⟩ (Cube.mk 0 0 0 (int_ptr []))
      ⟨UnaryArgCube.of_Cube false (Cube.mk 1 1 2 (int_ptr [5, 7])), 0, 0, 0, 0⟩).1.2.2.1 1
      (by decide)⟩,
   (op_imag_apply_non_cx (fun _ => (1 : Int)) (fun _ => 3) (int_mat 0 0 [])
      ⟨UnaryArg.of_Mat false (int_mat 1 2 [5, 7]), 0, 0, 0, 0⟩ (Cube.mk 0 0 0 (int_ptr []))
      ⟨UnaryArgCube.of_Cube false (Cube.mk 1 1 2 (int_ptr [5, 7])), 0, 0, 0, 0⟩).1.2.2.2
      (fun _ => (1 : Int)) ⟨UnaryArg.of_Mat true (int_mat 1 2 [8, 9]), 0, 0, 0, 0⟩ rfl rfl⟩

/-- C16: when the destination is the operand `A` itself (same buffer, same element
type), `op_abs::apply` on the linear-accessor path, which calls `set_size` with
unchanged extents and then overwrites `out_mem[i]` with `|A[i]|` in place, ends
with the same shape and elements as computing `abs(A)` into a separate matrix `B`
and then copying `B` into `A`. -/
theorem op_abs_apply_alias {T : Type} (abs : T → T) (fresh fresh1 : Nat → T) (A B0 : Mat T)
    (aux aux_out aux1 aux_out1 : T) (a b a1 b1 : Nat) :
    (op_abs.apply abs fresh A ⟨UnaryArg.of_dest A, aux, aux_out, a, b⟩).n_rows
      = (Mat.assign A (op_abs.apply abs fresh1 B0
          ⟨UnaryArg.of_Mat false A, aux1, aux_out1, a1, b1⟩)).n_rows ∧
    (op_abs.apply abs fresh A ⟨UnaryArg.of_dest A, aux, aux_out, a, b⟩).n_cols
      = (Mat.assign A (op_abs.apply abs fresh1 B0
          ⟨UnaryArg.of_Mat false A, aux1, aux_out1, a1, b1⟩)).n_cols ∧
    ∀ p, p < A.n_elem →
      (op_abs.apply abs fresh A ⟨UnaryArg.of_dest A, aux, aux_out, a, b⟩).mem p
        = (Mat.assign A (op_abs.apply abs fresh1 B0
            ⟨UnaryArg.of_Mat false A, aux1, aux_out1, a1, b1⟩)).mem p := by
  have hs := op_abs.abs_apply_shape abs fresh A ⟨UnaryArg.of_dest A, aux, aux_out, a, b⟩
  have hs1 := op_abs.abs_apply_shape abs fresh1 B0
    ⟨UnaryArg.of_Mat false A, aux1, aux_out1, a1, b1⟩
  refine ⟨hs.1.trans hs1.1.symm, hs.2.trans hs1.2.symm, ?_⟩
  intro p hp
  have hR : (Mat.assign A (op_abs.apply abs fresh1 B0
      ⟨UnaryArg.of_Mat false A, aux1, aux_out1, a1, b1⟩)).mem p = abs (A.mem p) := by
    have h := op_abs.abs_apply_mem_apart abs fresh1 B0
      ⟨UnaryArg.of_Mat false A, aux1, aux_out1, a1, b1⟩
      ⟨fun _ _ _ => rfl, fun _ _ _ _ => rfl⟩ fresh1 p hp
    simpa [Mat.assign, UnaryArg.of_Mat] using h
  rw [hR]
  have hkeep : A.set_size fresh A.n_rows A.n_cols = A := by
    unfold Mat.set_size
    rw [if_pos ⟨rfl, rfl⟩]
  unfold op_abs.apply
  simp only [UnaryArg.of_dest, beq_self_eq_true, if_true, hkeep, Mat.memptr, UnaryArg.n_elem]
  have hp1 : p < A.n_rows * A.n_cols := hp
  rw [linear_fill (fun mem i => abs (mem i)) (fun i => abs (A.mem i)) A.mem
    (A.n_rows * A.n_cols) (fun i _ mem hq => congrArg abs (hq i (Nat.le_refl i))) p,
    if_pos hp1]

/-- Witness for C16: `A = abs(A)` in place on the 1 x 2 integer matrix `[-5, 7]`. -/
theorem op_abs_apply_alias_witness :
    1 < (int_mat 1 2 [-5, 7]).n_elem ∧
    (op_abs.apply (fun (x : Int) => |x|) (fun _ => 0) (int_mat 1 2 [-5, 7])
        ⟨UnaryArg.of_dest (int_mat 1 2 [-5, 7]), 0, 0, 0, 0⟩).mem 0
      = (Mat.assign (int_mat 1 2 [-5, 7]) (op_abs.apply (fun (x : Int) => |x|) (fun _ => 1)
          (int_mat 0 0 []) ⟨UnaryArg.of_Mat false (int_mat 1 2 [-5, 7]), 0, 0, 0, 0⟩)).mem 0 :=
  ⟨by decide,
   (op_abs_apply_alias (fun (x : Int) => |x|) (fun _ => 0) (fun _ => 1) (int_mat 1 2 [-5, 7])
      (int_mat 0 0 []) 0 0 0 0 0 0 0 0).2.2 0 (by decide)⟩

/-- The body of `op_real::apply` is that of `op_abs::apply` with `std::real` in
place of `std::abs`. -/
theorem real_apply_eq_map {eT T : Type} (real : eT → T) (fresh : Nat → T) (out : Mat T)
    (X : mtOp T eT (UnaryArg eT T)) :
    op_real.apply real fresh out X = op_abs.apply real fresh out X := rfl

/-- For a complex element type the body of `op_imag::apply` is that of
`op_abs::apply` with `access::tmp_imag` in place of `std::abs`. -/
theorem imag_apply_cx_eq_map {eT T : Type} [Zero T] (tmp_imag : eT → T) (fresh : Nat → T)
    (out : Mat T) (X : mtOp T eT (UnaryArg eT T)) :
    op_imag.apply true tmp_imag fresh out X = op_abs.apply tmp_imag fresh out X := rfl

/-- On an operand kept apart from the destination an elementwise map ends in the
same state from any two prior states of the destination. -/
theorem abs_apply_same {eT T : Type} (f : eT → T) (X : mtOp T eT (UnaryArg eT T))
    (hP : X.m.apart) (out1 out2 : Mat T) (fresh1 fresh2 : Nat → T) :
    (op_abs.apply f fresh1 out1 X).same (op_abs.apply f fresh2 out2 X) := by
  obtain ⟨h1, h2⟩ := op_abs.abs_apply_shape f fresh1 out1 X
  obtain ⟨h3, h4⟩ := op_abs.abs_apply_shape f fresh2 out2 X
  refine ⟨h1.trans h3.symm, h2.trans h4.symm, ?_⟩
  intro p hp
  have hp1 : p < X.m.n_elem := by
    unfold Mat.n_elem at hp
    rw [h1, h2] at hp
    exact hp
  rw [op_abs.abs_apply_mem_apart f fresh1 out1 X hP fresh1 p hp1,
    op_abs.abs_apply_mem_apart f fresh2 out2 X hP fresh1 p hp1]

/-- C17: for every operand `X` and any two prior states of a destination that does
not alias `X` (any shapes, any contents), `op_abs::apply`, `op_real::apply` and
`op_imag::apply` leave the destination in the same final state, its shape and
every element being determined by `X` alone; and `X` is unchanged: reading it
after the call returns what reading it before the call returned. -/
theorem unary_maps_frame {eT T : Type} [Zero T] (abs real tmp_imag : eT → T) (is_cx : Bool)
    (X : mtOp T eT (UnaryArg eT T)) (hP : X.m.apart) (out1 out2 : Mat T)
    (fresh1 fresh2 : Nat → T) :
    (op_abs.apply abs fresh1 out1 X).same (op_abs.apply abs fresh2 out2 X) ∧
    (op_real.apply real fresh1 out1 X).same (op_real.apply real fresh2 out2 X) ∧
    (op_imag.apply is_cx tmp_imag fresh1 out1 X).same
      (op_imag.apply is_cx tmp_imag fresh2 out2 X) ∧
    (∀ i, X.m.ea (op_abs.apply abs fresh1 out1 X).mem i = X.m.ea out1.mem i ∧
          X.m.ea (op_real.apply real fresh1 out1 X).mem i = X.m.ea out1.mem i ∧
          X.m.ea (op_imag.apply is_cx tmp_imag fresh1 out1 X).mem i = X.m.ea out1.mem i) ∧
    (∀ row col,
          X.m.at_ (op_abs.apply abs fresh1 out1 X).mem row col = X.m.at_ out1.mem row col ∧
          X.m.at_ (op_real.apply real fresh1 out1 X).mem row col = X.m.at_ out1.mem row col ∧
          X.m.at_ (op_imag.apply is_cx tmp_imag fresh1 out1 X).mem row col
            = X.m.at_ out1.mem row col) := by
  refine ⟨abs_apply_same abs X hP out1 out2 fresh1 fresh2, ?_, ?_,
    fun i => ⟨hP.1 _ _ i, hP.1 _ _ i, hP.1 _ _ i⟩,
    fun row col => ⟨hP.2 _ _ row col, hP.2 _ _ row col, hP.2 _ _ row col⟩⟩
  · rw [real_apply_eq_map, real_apply_eq_map]
    exact abs_apply_same real X hP out1 out2 fresh1 fresh2
  · cases is_cx
    · refine ⟨rfl, rfl, ?_⟩
      intro p hp
      have hp1 : p < X.m.n_rows * X.m.n_cols := hp
      unfold op_imag.apply Mat.zeros
      simp only [Bool.not_false, if_true]
      rw [zero_fill, zero_fill, if_pos hp1, if_pos hp1]
    · rw [imag_apply_cx_eq_map, imag_apply_cx_eq_map]
      exact abs_apply_same tmp_imag X hP out1 out2 fresh1 fresh2

/-- Witness for C17: the maps of the 1 x 2 integer matrix `[-5, 7]` into an empty
destination and into a 1 x 2 destination holding `[9, 9]`. -/
theorem unary_maps_frame_witness :
    (UnaryArg.of_Mat false (int_mat 1 2 [-5, 7]) : UnaryArg Int Int).apart ∧
    (op_abs.apply (fun (x : Int) => |x|) (fun _ => 0) (int_mat 0 0 [])
        ⟨UnaryArg.of_Mat false (int_mat 1 2 [-5, 7]), 0, 0, 0, 0⟩).same
      (op_abs.apply (fun (x : Int) => |x|) (fun _ => 1) (int_mat 1 2 [9, 9])
        ⟨UnaryArg.of_Mat false (int_mat 1 2 [-5, 7]), 0, 0, 0, 0⟩) :=
  ⟨⟨fun _ _ _ => rfl, fun _ _ _ _ => rfl⟩,
   (unary_maps_frame (fun (x : Int) => |x|) (fun (x : Int) => x) (fun (_ : Int) => (0 : Int))
      false ⟨UnaryArg.of_Mat false (int_mat 1 2 [-5, 7]), 0, 0, 0, 0⟩
      ⟨fun _ _ _ => rfl, fun _ _ _ _ => rfl⟩ (int_mat 0 0 []) (int_mat 1 2 [9, 9])
      (fun _ => 0) (fun _ => 1)).1⟩

/-! ### sym_helper: what the loops compute -/

/-- A counted loop over an optional state that stays at `none` once there: if
every step from the tracked states `s k` succeeds the loop ends in `s n`, and if
one of them fails the loop ends in `none`. -/
theorem for_uword_option {σ : Type} (body : Nat → Option σ → Option σ) (s : Nat → σ)
    (ok : Nat → Prop) (n : Nat) (hnone : ∀ i, body i none = none)
    (hok : ∀ k, k < n → ok k → body k (some (s k)) = some (s (k + 1)))
    (hbad : ∀ k, k < n → ¬ ok k → body k (some (s k)) = none) :
    ((∀ k, k < n → ok k) → for_uword n body (some (s 0)) = some (s n)) ∧
    ((∃ k, k < n ∧ ¬ ok k) → for_uword n body (some (s 0)) = none) := by
  induction n with
  | zero =>
    refine ⟨fun _ => rfl, ?_⟩
    rintro ⟨k, hk, _⟩
    omega
  | succ m ih =>
    obtain ⟨ih1, ih2⟩ := ih (fun k hk => hok k (by omega)) (fun k hk => hbad k (by omega))
    constructor
    · intro hall
      rw [for_uword_succ, ih1 (fun k hk => hall k (by omega))]
      exact hok m (by omega) (hall m (by omega))
    · rintro ⟨k, hk, hkbad⟩
      rw [for_uword_succ]
      by_cases hall : ∀ k, k < m → ok k
      · rw [ih1 hall]
        have hkm : k = m := by
          by_contra hne
          exact hkbad (hall k (by omega))
        subst hkm
        exact hbad k (by omega) hkbad
      · have hex : ∃ k, k < m ∧ ¬ ok k := by
          by_contra hcon
          apply hall
          intro k hk
          by_contra hb
          exact hcon ⟨k, hk, hb⟩
        rw [ih2 hex]
        exact hnone m

namespace sym_helper

/-- The running maximum dominates zero and every diagonal entry seen, and is zero
or one of those entries. -/
theorem max_diag_upto_spec {eT : Type} [LinearOrderedRing eT] (N : Nat) (A_mem : Nat → eT)
    (k : Nat) :
    0 ≤ max_diag_upto N A_mem k ∧
    (∀ j, j < k → A_mem (j * N + j) ≤ max_diag_upto N A_mem k) ∧
    (max_diag_upto N A_mem k = 0 ∨ ∃ j, j < k ∧ max_diag_upto N A_mem k = A_mem (j * N + j)) := by
  induction k with
  | zero =>
    refine ⟨le_refl _, ?_, Or.inl rfl⟩
    intro j hj
    omega
  | succ m ih =>
    obtain ⟨h0, hle, hex⟩ := ih
    have hstep : max_diag_upto N A_mem (m + 1)
        = if A_mem (m * N + m) > max_diag_upto N A_mem m then A_mem (m * N + m)
          else max_diag_upto N A_mem m := rfl
    rw [hstep]
    by_cases hgt : A_mem (m * N + m) > max_diag_upto N A_mem m
    · rw [if_pos hgt]
      refine ⟨le_trans h0 (le_of_lt hgt), ?_, Or.inr ⟨m, by omega, rfl⟩⟩
      intro j hj
      by_cases hjm : j = m
      · subst hjm
        exact le_refl _
      · exact le_trans (hle j (by omega)) (le_of_lt hgt)
    · rw [if_neg hgt]
      refine ⟨h0, ?_, ?_⟩
      · intro j hj
        by_cases hjm : j = m
        · subst hjm
          exact not_lt.mp hgt
        · exact hle j (by omega)
      · rcases hex with h | ⟨j, hj, h⟩
        · exact Or.inl h
        · exact Or.inr ⟨j, by omega, h⟩

/-- The flag `diag_below_tol` is still set exactly when every diagonal entry seen
is below the tolerance. -/
theorem diag_below_tol_upto_spec {eT : Type} [LinearOrderedRing eT] (tol : eT) (N : Nat)
    (A_mem : Nat → eT) (k : Nat) :
    diag_below_tol_upto tol N A_mem k = true ↔ ∀ j, j < k → A_mem (j * N + j) < tol := by
  induction k with
  | zero =>
    constructor
    · intro _ j hj
      omega
    · intro _
      rfl
  | succ m ih =>
    have hstep : diag_below_tol_upto tol N A_mem (m + 1)
        = if A_mem (m * N + m) ≥ tol then false else diag_below_tol_upto tol N A_mem m := rfl
    rw [hstep]
    by_cases hge : A_mem (m * N + m) ≥ tol
    · rw [if_pos hge]
      constructor
      · intro h
        cases h
      · intro h
        exact absurd (h m (by omega)) (not_lt.mpr hge)
    · rw [if_neg hge, ih]
      constructor
      · intro h j hj
        by_cases hjm : j = m
        · subst hjm
          exact not_le.mp hge
        · exact h j (by omega)
      · intro h j hj
        exact h j (by omega)

/-- The diagonal loop: it runs to the end exactly when every diagonal entry is
positive and finite, and then `A_col` has advanced by `N` columns and the flag and
the maximum are the tracked ones; otherwise it returns. -/
theorem guess_sympd_worker_diag_spec {eT : Type} [LinearOrderedRing eT] (lim : Numeric eT)
    (tol : eT) (N : Nat) (A_mem : Nat → eT) :
    ((∀ j, j < N → 0 < A_mem (j * N + j) ∧ lim.arma_isnonfinite (A_mem (j * N + j)) = false) →
      guess_sympd_worker_diag lim tol N A_mem
        = some (N * N, diag_below_tol_upto tol N A_mem N, max_diag_upto N A_mem N)) ∧
    ((∃ j, j < N ∧
        ¬ (0 < A_mem (j * N + j) ∧ lim.arma_isnonfinite (A_mem (j * N + j)) = false)) →
      guess_sympd_worker_diag lim tol N A_mem = none) := by
  unfold guess_sympd_worker_diag
  have h := for_uword_option
    (fun j (st : Option (Nat × Bool × eT)) =>
      match st with
      | none => none
      | some (A_col, diag_below_tol, max_diag) =>
        let A_jj := A_mem (A_col + j)
        if A_jj ≤ 0 then none
        else if lim.arma_isnonfinite A_jj then none
        else
          let diag_below_tol := if A_jj ≥ tol then false else diag_below_tol
          let max_diag := if A_jj > max_diag then A_jj else max_diag
          some (A_col + N, diag_below_tol, max_diag))
    (fun k => (k * N, diag_below_tol_upto tol N A_mem k, max_diag_upto N A_mem k))
    (fun j => 0 < A_mem (j * N + j) ∧ lim.arma_isnonfinite (A_mem (j * N + j)) = false)
    N (fun _ => rfl)
    (by
      intro k _ hk
      obtain ⟨hpos, hfin⟩ := hk
      simp only [if_neg (not_le.mpr hpos), hfin, Bool.false_eq_true, if_false]
      rw [Nat.succ_mul]
      rfl)
    (by
      intro k _ hk
      by_cases hpos : 0 < A_mem (k * N + k)
      · have hfin : lim.arma_isnonfinite (A_mem (k * N + k)) = true := by
          cases hb : lim.arma_isnonfinite (A_mem (k * N + k))
          · exact absurd ⟨hpos, hb⟩ hk
          · rfl
        simp only [if_neg (not_le.mpr hpos), hfin, if_true]
      · simp only [if_pos (not_lt.mp hpos)])
  simpa using h

end sym_helper

namespace sym_helper

/-- The inner loop for column `j`, entered with `A_col` at column `j`: it runs to
the end exactly when the three tests pass at every pair `(j, i)` with `j < i < N`.
At iteration `i` the reads through `A_col[i]`, `*A_ji_ptr`, `*A_ii_ptr` and
`A_col[j]` are at offsets `j*N + i`, `j + i*N`, `i + i*N` and `j*N + j`. -/
theorem guess_sympd_worker_inner_spec {eT : Type} [LinearOrderedRing eT] (tol max_diag : eT)
    (N : Nat) (A_mem : Nat → eT) (j : Nat) :
    ((∀ i, j < i → i < N → pair_ok tol max_diag N A_mem j i) →
      ∃ st, guess_sympd_worker_inner tol max_diag N (N + 1) A_mem (j * N) j = some st) ∧
    ((∃ i, j < i ∧ i < N ∧ ¬ pair_ok tol max_diag N A_mem j i) →
      guess_sympd_worker_inner tol max_diag N (N + 1) A_mem (j * N) j = none) := by
  unfold guess_sympd_worker_inner for_uword_from
  have h := for_uword_option
    (fun k (st : Option (Nat × Nat)) =>
      match st with
      | none => none
      | some (A_ji_ptr, A_ii_ptr) =>
        let A_ij := A_mem (j * N + (j + 1 + k))
        let A_ji := A_mem A_ji_ptr
        let A_ij_abs := |A_ij|
        let A_ji_abs := |A_ji|
        if A_ij_abs ≥ max_diag then none
        else
          let A_delta := |A_ij - A_ji|
          let A_abs_max := max A_ij_abs A_ji_abs
          if (A_delta > tol) ∧ (A_delta > (A_abs_max * tol)) then none
          else
            let A_ii := A_mem A_ii_ptr
            if (A_ij_abs + A_ij_abs) ≥ (A_ii + A_mem (j * N + j)) then none
            else some (A_ji_ptr + N, A_ii_ptr + (N + 1)))
    (fun k => (j + (j + 1 + k) * N, (j + 1 + k) + (j + 1 + k) * N))
    (fun k => pair_ok tol max_diag N A_mem j (j + 1 + k))
    (N - (j + 1)) (fun _ => rfl)
    (by
      intro k _ hk
      obtain ⟨h1, h2, h3⟩ := hk
      rw [Nat.add_comm (j + 1 + k) (j * N)] at h1 h2 h3
      rw [Nat.add_comm j (j * N)] at h3
      simp only [if_neg (not_le.mpr h1), if_neg h2, if_neg (not_le.mpr h3)]
      have e1 : (j + 1 + (k + 1)) * N = (j + 1 + k) * N + N := by
        rw [← Nat.add_assoc, Nat.succ_mul]
      rw [e1]
      simp only [Option.some.injEq, Prod.mk.injEq]
      constructor <;> omega)
    (by
      intro k _ hk
      by_cases h1 : |A_mem (j * N + (j + 1 + k))| < max_diag
      · by_cases h2 : ¬ (|A_mem (j * N + (j + 1 + k)) - A_mem (j + (j + 1 + k) * N)| > tol ∧
            |A_mem (j * N + (j + 1 + k)) - A_mem (j + (j + 1 + k) * N)|
              > max |A_mem (j * N + (j + 1 + k))| |A_mem (j + (j + 1 + k) * N)| * tol)
        · have h3 : ¬ (|A_mem (j * N + (j + 1 + k))| + |A_mem (j * N + (j + 1 + k))|
              < A_mem ((j + 1 + k) + (j + 1 + k) * N) + A_mem (j * N + j)) := by
            intro h3
            apply hk
            unfold pair_ok
            rw [Nat.add_comm (j + 1 + k) (j * N), Nat.add_comm j (j * N)]
            exact ⟨h1, h2, h3⟩
          simp only [if_neg (not_le.mpr h1), if_neg h2, if_pos (not_lt.mp h3)]
        · simp only [if_neg (not_le.mpr h1), if_pos (not_not.mp h2)]
      · simp only [if_pos (not_lt.mp h1)])
  obtain ⟨hall, hex⟩ := h
  constructor
  · intro hp
    exact ⟨_, hall (fun k hk => hp (j + 1 + k) (by omega) (by omega))⟩
  · rintro ⟨i, hji, hiN, hbad⟩
    exact hex ⟨i - (j + 1), by omega, by
      have e : j + 1 + (i - (j + 1)) = i := by omega
      show ¬ pair_ok tol max_diag N A_mem j (j + 1 + (i - (j + 1)))
      rw [e]
      exact hbad⟩

end sym_helper

/-- On a size that fits with room to spare, `N - 1` and `N + 1` do not wrap. -/
theorem uword_no_wrap (bits N : Nat) (h0 : 0 < N) (hN : N + 1 < 2 ^ bits) :
    uword_sub bits N 1 = N - 1 ∧ uword_add bits N 1 = N + 1 := by
  unfold uword_sub uword_add
  have h1 : 1 % 2 ^ bits = 1 := Nat.mod_eq_of_lt (by omega)
  rw [h1]
  constructor
  · have e : N + 2 ^ bits - 1 = (N - 1) + 2 ^ bits := by omega
    rw [e, Nat.add_mod_right, Nat.mod_eq_of_lt (by omega)]
  · exact Nat.mod_eq_of_lt hN

namespace sym_helper

/-- The pair loop over the columns `j < N - 1`: it runs to the end exactly when the
three tests pass at every pair `j < i < N`. -/
theorem guess_sympd_worker_pairs_spec {eT : Type} [LinearOrderedRing eT] (tol max_diag : eT)
    (N : Nat) (A_mem : Nat → eT) :
    ((∀ j i, j < i → i < N → pair_ok tol max_diag N A_mem j i) →
      ∃ st, guess_sympd_worker_pairs tol max_diag N (N - 1) (N + 1) A_mem = some st) ∧
    ((∃ j i, j < i ∧ i < N ∧ ¬ pair_ok tol max_diag N A_mem j i) →
      guess_sympd_worker_pairs tol max_diag N (N - 1) (N + 1) A_mem = none) := by
  unfold guess_sympd_worker_pairs
  have h := for_uword_option
    (fun j (st : Option Nat) =>
      match st with
      | none => none
      | some A_col =>
        match guess_sympd_worker_inner tol max_diag N (N + 1) A_mem A_col j with
        | none => none
        | some _ => some (A_col + N))
    (fun j => j * N)
    (fun j => ∀ i, j < i → i < N → pair_ok tol max_diag N A_mem j i)
    (N - 1) (fun _ => rfl)
    (by
      intro j _ hj
      obtain ⟨st, hst⟩ := (guess_sympd_worker_inner_spec tol max_diag N A_mem j).1 hj
      simp only [hst]
      rw [Nat.succ_mul])
    (by
      intro j _ hj
      have hex : ∃ i, j < i ∧ i < N ∧ ¬ pair_ok tol max_diag N A_mem j i := by
        by_contra hcon
        apply hj
        intro i h1 h2
        by_contra hb
        exact hcon ⟨i, h1, h2, hb⟩
      simp only [(guess_sympd_worker_inner_spec tol max_diag N A_mem j).2 hex])
  simp only [Nat.zero_mul] at h
  obtain ⟨hall, hex⟩ := h
  constructor
  · intro hp
    exact ⟨_, hall (fun j _ i h1 h2 => hp j i h1 h2)⟩
  · rintro ⟨j, i, hji, hiN, hbad⟩
    exact hex ⟨j, by omega, fun hj => hbad (hj i hji hiN)⟩

/-- What the real `guess_sympd_worker` decides on an `N x N` buffer: it returns
true exactly when every diagonal entry is positive and finite, some diagonal entry
reaches the tolerance `100 * epsilon`, and the three pair tests pass at every pair
`j < i < N` against the largest diagonal entry. -/
theorem guess_sympd_worker_true_iff {eT : Type} [LinearOrderedRing eT] (lim : Numeric eT)
    (A : Mat eT) (hN : A.n_rows + 1 < 2 ^ lim.uword_bits) :
    guess_sympd_worker lim A = true ↔
      (∀ j, j < A.n_rows → 0 < A.mem (j * A.n_rows + j)
          ∧ lim.arma_isnonfinite (A.mem (j * A.n_rows + j)) = false) ∧
      (∃ j, j < A.n_rows ∧ 100 * lim.epsilon ≤ A.mem (j * A.n_rows + j)) ∧
      (∀ j i, j < i → i < A.n_rows →
        pair_ok (100 * lim.epsilon) (max_diag_upto A.n_rows A.mem A.n_rows) A.n_rows A.mem j i) := by
  unfold guess_sympd_worker
  simp only [Mat.memptr]
  by_cases hd : ∀ j, j < A.n_rows → 0 < A.mem (j * A.n_rows + j)
      ∧ lim.arma_isnonfinite (A.mem (j * A.n_rows + j)) = false
  · rw [(guess_sympd_worker_diag_spec lim (100 * lim.epsilon) A.n_rows A.mem).1 hd]
    simp only
    have hflag := diag_below_tol_upto_spec (100 * lim.epsilon) A.n_rows A.mem A.n_rows
    by_cases hb : diag_below_tol_upto (100 * lim.epsilon) A.n_rows A.mem A.n_rows = true
    · rw [if_pos hb]
      constructor
      · intro h
        cases h
      · rintro ⟨_, ⟨j, hj, hge⟩, _⟩
        exact absurd (hflag.mp hb j hj) (not_lt.mpr hge)
    · rw [if_neg hb]
      have hex : ∃ j, j < A.n_rows ∧ 100 * lim.epsilon ≤ A.mem (j * A.n_rows + j) := by
        by_contra hcon
        apply hb
        rw [hflag]
        intro j hj
        by_contra hlt
        exact hcon ⟨j, hj, not_lt.mp hlt⟩
      have h0 : 0 < A.n_rows := by
        obtain ⟨j, hj, _⟩ := hex
        omega
      obtain ⟨e1, e2⟩ := uword_no_wrap lim.uword_bits A.n_rows h0 hN
      rw [e1, e2]
      by_cases hp : ∀ j i, j < i → i < A.n_rows →
          pair_ok (100 * lim.epsilon) (max_diag_upto A.n_rows A.mem A.n_rows) A.n_rows A.mem j i
      · obtain ⟨st, hst⟩ := (guess_sympd_worker_pairs_spec (100 * lim.epsilon)
          (max_diag_upto A.n_rows A.mem A.n_rows) A.n_rows A.mem).1 hp
        rw [hst]
        simp only [true_iff]
        exact ⟨hd, hex, hp⟩
      · have hbad : ∃ j i, j < i ∧ i < A.n_rows ∧ ¬ pair_ok (100 * lim.epsilon)
            (max_diag_upto A.n_rows A.mem A.n_rows) A.n_rows A.mem j i := by
          by_contra hcon
          apply hp
          intro j i h1 h2
          by_contra hb2
          exact hcon ⟨j, i, h1, h2, hb2⟩
        rw [(guess_sympd_worker_pairs_spec (100 * lim.epsilon)
          (max_diag_upto A.n_rows A.mem A.n_rows) A.n_rows A.mem).2 hbad]
        constructor
        · intro h
          cases h
        · rintro ⟨_, _, hp2⟩
          exact absurd hp2 hp
  · have hex : ∃ j, j < A.n_rows ∧ ¬ (0 < A.mem (j * A.n_rows + j)
        ∧ lim.arma_isnonfinite (A.mem (j * A.n_rows + j)) = false) := by
      by_contra hcon
      apply hd
      intro j hj
      by_contra hb
      exact hcon ⟨j, hj, hb⟩
    rw [(guess_sympd_worker_diag_spec lim (100 * lim.epsilon) A.n_rows A.mem).2 hex]
    constructor
    · intro h
      cases h
    · rintro ⟨hd2, _, _⟩
      exact absurd hd2 hd

end sym_helper

/-! ### sym_helper: the verdict of guess_sympd -/

/-- C20: `sym_helper::guess_sympd(A)` returns false for every matrix that is not
square or has fewer than 4 rows, and `guess_sympd(A, min_n_rows)` for every matrix
that is not square or has fewer than `min_n_rows` rows; this holds whatever the
worker would answer and whatever the elements are, so no element is examined. And
`guess_sympd(A)` equals `guess_sympd(A, 4)` for every `A`. -/
theorem guess_sympd_size_gate {eT : Type} (worker : Mat eT → Bool) (A : Mat eT)
    (min_n_rows : Nat) :
    ((A.n_rows ≠ A.n_cols ∨ A.n_rows < 4) → sym_helper.guess_sympd worker A = false) ∧
    ((A.n_rows ≠ A.n_cols ∨ A.n_rows < min_n_rows) →
      sym_helper.guess_sympd_min worker A min_n_rows = false) ∧
    sym_helper.guess_sympd worker A = sym_helper.guess_sympd_min worker A 4 := by
  unfold sym_helper.guess_sympd sym_helper.guess_sympd_min
  refine ⟨?_, ?_, rfl⟩
  · intro h
    rw [if_pos]
    simpa using h
  · intro h
    rw [if_pos]
    simpa using h

/-- Witness for C20: a 3 x 3 matrix and a 4 x 5 matrix are turned down even by a
worker that always says yes. -/
theorem guess_sympd_size_gate_witness :
    sym_helper.guess_sympd (fun _ => true) (int_mat 3 3 []) = false ∧
    sym_helper.guess_sympd_min (fun _ => true) (int_mat 4 5 []) 2 = false :=
  ⟨(guess_sympd_size_gate (fun _ => true) (int_mat 3 3 []) 2).1 (Or.inr (by decide)),
   (guess_sympd_size_gate (fun _ => true) (int_mat 4 5 []) 2).2.1 (Or.inl (by decide))⟩

/-- A true verdict of `guess_sympd` on the real worker means a square matrix of at
least 4 rows on which the worker said yes. -/
theorem guess_sympd_true_imp {eT : Type} [LinearOrderedRing eT] (lim : Numeric eT)
    (A : Mat eT) (h : sym_helper.guess_sympd (sym_helper.guess_sympd_worker lim) A = true) :
    A.n_rows = A.n_cols ∧ 4 ≤ A.n_rows ∧ sym_helper.guess_sympd_worker lim A = true := by
  unfold sym_helper.guess_sympd at h
  by_cases hc : ((A.n_rows != A.n_cols) || decide (A.n_rows < 4)) = true
  · rw [if_pos hc] at h
    cases h
  · rw [if_neg hc] at h
    simp only [Bool.or_eq_true, bne_iff_ne, ne_eq, decide_eq_true_eq, not_or, not_not,
      not_lt] at hc
    exact ⟨hc.1, hc.2, h⟩

/-- In exact arithmetic: for every real matrix `A` in which some off-diagonal pair
is asymmetric beyond tolerance, that is `|A_ij - A_ji| > tol` and
`|A_ij - A_ji| > tol * max(|A_ij|, |A_ji|)` for some `i != j`, with
`tol = 100 * epsilon`, `sym_helper::guess_sympd(A)` returns false; equivalently a
true verdict implies that every off-diagonal pair is symmetric within that
tolerance. -/
theorem guess_sympd_symmetric_exact {eT : Type} [LinearOrderedCommRing eT] (lim : Numeric eT)
    (A : Mat eT) (hN : A.n_rows + 1 < 2 ^ lim.uword_bits) :
    (∀ i j, i < A.n_rows → j < A.n_rows → i ≠ j →
      |A.at_ i j - A.at_ j i| > 100 * lim.epsilon →
      |A.at_ i j - A.at_ j i| > 100 * lim.epsilon * max |A.at_ i j| |A.at_ j i| →
      sym_helper.guess_sympd (sym_helper.guess_sympd_worker lim) A = false) ∧
    (sym_helper.guess_sympd (sym_helper.guess_sympd_worker lim) A = true →
      ∀ i j, i < A.n_rows → j < A.n_rows → i ≠ j →
        ¬ (|A.at_ i j - A.at_ j i| > 100 * lim.epsilon ∧
           |A.at_ i j - A.at_ j i| > 100 * lim.epsilon * max |A.at_ i j| |A.at_ j i|)) := by
  have key : sym_helper.guess_sympd (sym_helper.guess_sympd_worker lim) A = true →
      ∀ i j, i < A.n_rows → j < A.n_rows → i ≠ j →
        ¬ (|A.at_ i j - A.at_ j i| > 100 * lim.epsilon ∧
           |A.at_ i j - A.at_ j i| > 100 * lim.epsilon * max |A.at_ i j| |A.at_ j i|) := by
    intro htrue
    obtain ⟨_, _, hw⟩ := guess_sympd_true_imp lim A htrue
    obtain ⟨_, _, hpairs⟩ := (sym_helper.guess_sympd_worker_true_iff lim A hN).mp hw
    have hlow : ∀ i j, j < i → i < A.n_rows →
        ¬ (|A.at_ i j - A.at_ j i| > 100 * lim.epsilon ∧
           |A.at_ i j - A.at_ j i| > 100 * lim.epsilon * max |A.at_ i j| |A.at_ j i|) := by
      intro i j hji hi
      have h2 := (hpairs j i hji hi).2.1
      unfold Mat.at_
      rw [mul_comm (100 * lim.epsilon)]
      exact h2
    intro i j hi hj hij
    rcases Nat.lt_or_gt_of_ne hij with hlt | hgt
    · have h := hlow j i hlt hj
      rw [abs_sub_comm, max_comm]
      exact h
    · exact hlow i j hgt hi
  refine ⟨?_, key⟩
  intro i j hi hj hij h1 h2
  cases hv : sym_helper.guess_sympd (sym_helper.guess_sympd_worker lim) A
  · rfl
  · exact absurd ⟨h1, h2⟩ (key hv i j hi hj hij)

/-- If `a^2 <= P * Q` with `P`, `Q` non-negative and `k` positive, then `|a|` is
below the larger of `P + k` and `Q + k`, and `2 |a|` is below their sum. -/
theorem gram_pair_bounds {eT : Type} [LinearOrderedField eT] (a P Q k : eT)
    (hcs : a ^ 2 ≤ P * Q) (hP : 0 ≤ P) (hQ : 0 ≤ Q) (hk : 0 < k) :
    |a| < max (P + k) (Q + k) ∧ |a| + |a| < (P + k) + (Q + k) := by
  have hm : |a| ≤ max P Q := by
    apply abs_le_of_sq_le_sq _ (le_trans hP (le_max_left P Q))
    have h1 : P * Q ≤ max P Q * max P Q :=
      mul_le_mul (le_max_left P Q) (le_max_right P Q) hQ (le_trans hP (le_max_left P Q))
    rw [pow_two (max P Q)]
    exact le_trans hcs h1
  have h2 : |a| + |a| ≤ P + Q := by
    have hsq : (|a| + |a|) ^ 2 ≤ (P + Q) ^ 2 := by
      have ha : |a| ^ 2 = a ^ 2 := sq_abs a
      nlinarith [sq_nonneg (P - Q)]
    have := abs_le_of_sq_le_sq hsq (add_nonneg hP hQ)
    exact le_trans (le_abs_self _) this
  constructor
  · have h3 : max P Q + k = max (P + k) (Q + k) := (max_add_add_right P Q k).symm
    rw [← h3]
    linarith
  · linarith

/-- On `A = M * transpose(M) + k * Identity` with `k > 0`, in exact arithmetic, every
diagonal test and every pair test of the real worker passes. -/
theorem gram_tests_pass {eT : Type} [LinearOrderedField eT] (lim : Numeric eT) (A M : Mat eT)
    (k : eT) (hform : is_gram_plus_scaled_identity A M k) (hk : 0 < k)
    (heps : 0 ≤ lim.epsilon) (hfin : ∀ x, lim.arma_isnonfinite x = false) :
    (∀ j, j < A.n_rows → 0 < A.mem (j * A.n_rows + j)
        ∧ lim.arma_isnonfinite (A.mem (j * A.n_rows + j)) = false) ∧
    (∀ j i, j < i → i < A.n_rows →
      sym_helper.pair_ok (100 * lim.epsilon)
        (sym_helper.max_diag_upto A.n_rows A.mem A.n_rows) A.n_rows A.mem j i) := by
  obtain ⟨_, _, _, hentry⟩ := hform
  unfold Mat.at_ at hentry
  have hS0 : ∀ i, 0 ≤ ∑ l in Finset.range A.n_rows,
      M.mem (i + l * M.n_rows) * M.mem (i + l * M.n_rows) :=
    fun i => Finset.sum_nonneg (fun l _ => mul_self_nonneg _)
  have hdiag : ∀ j, j < A.n_rows → A.mem (j + j * A.n_rows)
      = (∑ l in Finset.range A.n_rows, M.mem (j + l * M.n_rows) * M.mem (j + l * M.n_rows))
        + k := by
    intro j hj
    rw [hentry j j hj hj, if_pos rfl]
  constructor
  · intro j hj
    refine ⟨?_, hfin _⟩
    rw [Nat.add_comm (j * A.n_rows) j, hdiag j hj]
    have := hS0 j
    linarith
  · intro j i hji hi
    have hj : j < A.n_rows := by omega
    have hne : i ≠ j := by omega
    have hne2 : j ≠ i := by omega
    have hij : A.mem (i + j * A.n_rows)
        = ∑ l in Finset.range A.n_rows, M.mem (i + l * M.n_rows) * M.mem (j + l * M.n_rows) := by
      rw [hentry i j hi hj, if_neg hne, add_zero]
    have hji2 : A.mem (j + i * A.n_rows) = A.mem (i + j * A.n_rows) := by
      rw [hentry j i hj hi, if_neg hne2, add_zero, hij]
      apply Finset.sum_congr rfl
      intro l _
      rw [mul_comm]
    have hcs : (A.mem (i + j * A.n_rows)) ^ 2
        ≤ (∑ l in Finset.range A.n_rows, M.mem (i + l * M.n_rows) * M.mem (i + l * M.n_rows))
          * (∑ l in Finset.range A.n_rows,
              M.mem (j + l * M.n_rows) * M.mem (j + l * M.n_rows)) := by
      rw [hij]
      have h := Finset.sum_mul_sq_le_sq_mul_sq (Finset.range A.n_rows)
        (fun l => M.mem (i + l * M.n_rows)) (fun l => M.mem (j + l * M.n_rows))
      simp only [pow_two] at h ⊢
      exact h
    obtain ⟨hb1, hb2⟩ := gram_pair_bounds _ _ _ k hcs (hS0 i) (hS0 j) hk
    rw [← hdiag i hi, ← hdiag j hj] at hb1 hb2
    obtain ⟨_, hmax, _⟩ := sym_helper.max_diag_upto_spec A.n_rows A.mem A.n_rows
    have hmi := hmax i hi
    have hmj := hmax j hj
    rw [Nat.add_comm (i * A.n_rows) i] at hmi
    rw [Nat.add_comm (j * A.n_rows) j] at hmj
    refine ⟨lt_of_lt_of_le hb1 (max_le hmi hmj), ?_, hb2⟩
    rw [hji2, sub_self, abs_zero]
    rintro ⟨h1, _⟩
    have : 0 ≤ 100 * lim.epsilon := mul_nonneg (by norm_num) heps
    exact absurd h1 (not_lt.mpr this)

/-- C18, as stated, fails: with the `epsilon` of `double` the 4 x 4 matrix
`2^-60 * Identity` is `M * transpose(M) + k * Identity` for `M = 0` and
`k = 2^-60 > 0`, yet every diagonal entry is below `tol = 100 * epsilon` and
`guess_sympd` returns false. -/
theorem guess_sympd_gram_small_k_false :
    is_gram_plus_scaled_identity (rat_scaled_identity 4 (1 / 1152921504606846976))
      (rat_mat 4 4 []) (1 / 1152921504606846976) ∧
    (0 : Rat) < 1 / 1152921504606846976 ∧
    4 ≤ (rat_scaled_identity 4 (1 / 1152921504606846976)).n_rows ∧
    sym_helper.guess_sympd (sym_helper.guess_sympd_worker rat_numeric)
      (rat_scaled_identity 4 (1 / 1152921504606846976)) = false := by
  refine ⟨⟨rfl, rfl, rfl, ?_⟩, by norm_num, by decide, ?_⟩
  · intro i j hi hj
    have hi4 : i < 4 := hi
    have hj4 : j < 4 := hj
    interval_cases i <;> interval_cases j <;>
      simp [Mat.at_, rat_scaled_identity, rat_mat]
  · cases hv : sym_helper.guess_sympd (sym_helper.guess_sympd_worker rat_numeric)
        (rat_scaled_identity 4 (1 / 1152921504606846976))
    · rfl
    · obtain ⟨_, _, hw⟩ := guess_sympd_true_imp rat_numeric _ hv
      obtain ⟨_, ⟨j, hj, hge⟩, _⟩ :=
        (sym_helper.guess_sympd_worker_true_iff rat_numeric _ (by decide)).mp hw
      have hj4 : j < 4 := hj
      exfalso
      revert hge
      interval_cases j <;> norm_num [rat_scaled_identity, rat_numeric]

/-- C18, amended: for every real `N x N` matrix `A` with `N >= 4` of the form
`A = M * transpose(M) + k * Identity`, for any real `N x N` matrix `M` and any
`k > 0` (exact arithmetic, every value finite), `sym_helper::guess_sympd(A)` returns
true exactly when some diagonal entry of `A` is at least `tol = 100 * epsilon`; in
particular it returns true whenever `k >= tol`. -/
theorem guess_sympd_gram {eT : Type} [LinearOrderedField eT] (lim : Numeric eT) (A M : Mat eT)
    (k : eT) (hN : A.n_rows + 1 < 2 ^ lim.uword_bits) (h4 : 4 ≤ A.n_rows)
    (hform : is_gram_plus_scaled_identity A M k) (hk : 0 < k) (heps : 0 ≤ lim.epsilon)
    (hfin : ∀ x, lim.arma_isnonfinite x = false) :
    (sym_helper.guess_sympd (sym_helper.guess_sympd_worker lim) A = true ↔
      ∃ j, j < A.n_rows ∧ 100 * lim.epsilon ≤ A.at_ j j) ∧
    (100 * lim.epsilon ≤ k →
      sym_helper.guess_sympd (sym_helper.guess_sympd_worker lim) A = true) := by
  obtain ⟨hd, hp⟩ := gram_tests_pass lim A M k hform hk heps hfin
  have hgate : sym_helper.guess_sympd (sym_helper.guess_sympd_worker lim) A
      = sym_helper.guess_sympd_worker lim A := by
    unfold sym_helper.guess_sympd
    rw [if_neg]
    simp only [Bool.or_eq_true, bne_iff_ne, ne_eq, decide_eq_true_eq, not_or, not_not, not_lt]
    exact ⟨hform.1, h4⟩
  have hiff : sym_helper.guess_sympd (sym_helper.guess_sympd_worker lim) A = true ↔
      ∃ j, j < A.n_rows ∧ 100 * lim.epsilon ≤ A.at_ j j := by
    rw [hgate, sym_helper.guess_sympd_worker_true_iff lim A hN]
    constructor
    · rintro ⟨_, ⟨j, hj, hge⟩, _⟩
      refine ⟨j, hj, ?_⟩
      unfold Mat.at_
      rw [Nat.add_comm j (j * A.n_rows)]
      exact hge
    · rintro ⟨j, hj, hge⟩
      refine ⟨hd, ⟨j, hj, ?_⟩, hp⟩
      unfold Mat.at_ at hge
      rw [Nat.add_comm j (j * A.n_rows)] at hge
      exact hge
  refine ⟨hiff, ?_⟩
  intro hkt
  rw [hiff]
  refine ⟨0, by omega, ?_⟩
  rw [hform.2.2.2 0 0 (by omega) (by omega), if_pos rfl]
  have hS : 0 ≤ ∑ l in Finset.range A.n_rows, M.at_ 0 l * M.at_ 0 l :=
    Finset.sum_nonneg (fun l _ => mul_self_nonneg _)
  linarith

/-- Witness for C18 amended: the 4 x 4 identity is `M * transpose(M) + k * Identity`
for `M = 0` and `k = 1`, and `1 >= tol`. -/
theorem guess_sympd_gram_witness :
    (rat_scaled_identity 4 1).n_rows + 1 < 2 ^ rat_numeric.uword_bits ∧
    4 ≤ (rat_scaled_identity 4 1).n_rows ∧
    is_gram_plus_scaled_identity (rat_scaled_identity 4 1) (rat_mat 4 4 []) 1 ∧
    (0 : Rat) < 1 ∧ 0 ≤ rat_numeric.epsilon ∧
    (∀ x, rat_numeric.arma_isnonfinite x = false) ∧
    100 * rat_numeric.epsilon ≤ 1 ∧
    sym_helper.guess_sympd (sym_helper.guess_sympd_worker rat_numeric)
      (rat_scaled_identity 4 1) = true :=
  have hform : is_gram_plus_scaled_identity (rat_scaled_identity 4 1) (rat_mat 4 4 []) 1 :=
    ⟨rfl, rfl, rfl, by
      intro i j hi hj
      have hi4 : i < 4 := hi
      have hj4 : j < 4 := hj
      interval_cases i <;> interval_cases j <;>
        simp [Mat.at_, rat_scaled_identity, rat_mat]⟩
  ⟨by decide, by decide, hform, by norm_num, by norm_num [rat_numeric], fun _ => rfl,
   by norm_num [rat_numeric],
   (guess_sympd_gram rat_numeric (rat_scaled_identity 4 1) (rat_mat 4 4 []) 1 (by decide)
      (by decide) hform (by norm_num) (by norm_num [rat_numeric]) (fun _ => rfl)).2
      (by norm_num [rat_numeric])⟩

/-! ### Real and imaginary parts together -/

namespace op_abs

/-- On a matrix operand kept apart from the destination, the map `f` leaves
`f (X(i,j))` at row `i` and column `j` of the destination, on either access path. -/
theorem abs_apply_at_of_Mat {eT T : Type} (f : eT → T) (fresh : Nat → T) (out : Mat T)
    (X : Mat eT) (use_at : Bool) (aux : eT) (aux_out : T) (a b i j : Nat)
    (hi : i < X.n_rows) (hj : j < X.n_cols) :
    (apply f fresh out ⟨UnaryArg.of_Mat use_at X, aux, aux_out, a, b⟩).at_ i j
      = f (X.at_ i j) := by
  have hs := abs_apply_shape f fresh out ⟨UnaryArg.of_Mat use_at X, aux, aux_out, a, b⟩
  have h1 : (apply f fresh out
      ⟨UnaryArg.of_Mat use_at X, aux, aux_out, a, b⟩).n_rows = X.n_rows := hs.1
  have hp : i + j * X.n_rows < X.n_rows * X.n_cols := col_major_lt _ _ i j hi hj
  obtain ⟨hd, hm⟩ := col_major_div_mod X.n_rows i j hi
  unfold Mat.at_
  rw [h1, abs_apply_mem_apart f fresh out ⟨UnaryArg.of_Mat use_at X, aux, aux_out, a, b⟩
    ⟨fun _ _ _ => rfl, fun _ _ _ _ => rfl⟩ fresh (i + j * X.n_rows) hp]
  simp only [UnaryArg.of_Mat, Mat.at_, hd, hm, ite_self]

end op_abs

/-- C24: for every complex matrix `X`, `op_real::apply` and `op_imag::apply` produce
real matrices `R` and `I` of the shape of `X` with `X(r,c) = R(r,c) + i * I(r,c)` at
every position, whichever access path each of them takes: the two maps together
decompose `X` without loss. -/
theorem real_imag_decompose {T : Type} [Ring T] (fresh1 fresh2 : Nat → T) (out1 out2 : Mat T)
    (X : Mat (std.complex T)) (u1 u2 : Bool) (aux : std.complex T) (aux_out : T)
    (a b : Nat) :
    (op_real.apply std.complex.real fresh1 out1
        ⟨UnaryArg.of_Mat u1 X, aux, aux_out, a, b⟩).n_rows = X.n_rows ∧
    (op_real.apply std.complex.real fresh1 out1
        ⟨UnaryArg.of_Mat u1 X, aux, aux_out, a, b⟩).n_cols = X.n_cols ∧
    (op_imag.apply true std.complex.imag fresh2 out2
        ⟨UnaryArg.of_Mat u2 X, aux, aux_out, a, b⟩).n_rows = X.n_rows ∧
    (op_imag.apply true std.complex.imag fresh2 out2
        ⟨UnaryArg.of_Mat u2 X, aux, aux_out, a, b⟩).n_cols = X.n_cols ∧
    ∀ r c, r < X.n_rows → c < X.n_cols →
      X.at_ r c
        = ⟨(op_real.apply std.complex.real fresh1 out1
              ⟨UnaryArg.of_Mat u1 X, aux, aux_out, a, b⟩).at_ r c,
           (op_imag.apply true std.complex.imag fresh2 out2
              ⟨UnaryArg.of_Mat u2 X, aux, aux_out, a, b⟩).at_ r c⟩ ∧
      X.at_ r c
        = (⟨(op_real.apply std.complex.real fresh1 out1
              ⟨UnaryArg.of_Mat u1 X, aux, aux_out, a, b⟩).at_ r c, 0⟩ : std.complex T)
          + (⟨0, 1⟩ : std.complex T)
            * ⟨(op_imag.apply true std.complex.imag fresh2 out2
              ⟨UnaryArg.of_Mat u2 X, aux, aux_out, a, b⟩).at_ r c, 0⟩ := by
  rw [real_apply_eq_map, imag_apply_cx_eq_map]
  have hs1 := op_abs.abs_apply_shape std.complex.real fresh1 out1
    ⟨UnaryArg.of_Mat u1 X, aux, aux_out, a, b⟩
  have hs2 := op_abs.abs_apply_shape std.complex.imag fresh2 out2
    ⟨UnaryArg.of_Mat u2 X, aux, aux_out, a, b⟩
  refine ⟨hs1.1, hs1.2, hs2.1, hs2.2, ?_⟩
  intro r c hr hc
  rw [op_abs.abs_apply_at_of_Mat std.complex.real fresh1 out1 X u1 aux aux_out a b r c hr hc,
    op_abs.abs_apply_at_of_Mat std.complex.imag fresh2 out2 X u2 aux aux_out a b r c hr hc]
  refine ⟨rfl, ?_⟩
  show X.at_ r c = std.complex.add _ (std.complex.mul _ _)
  simp [std.complex.add, std.complex.mul]

/-- Witness for C24: the 1 x 2 complex integer matrix `[1 + 2i, 3 + 4i]`, real part
read linearly and imaginary part read by row and column. -/
theorem real_imag_decompose_witness :
    (0 < (Mat.mk 1 2 (fun i => [(⟨1, 2⟩ : std.complex Int), ⟨3, 4⟩].getD i ⟨0, 0⟩)).n_rows ∧
     1 < (Mat.mk 1 2 (fun i => [(⟨1, 2⟩ : std.complex Int), ⟨3, 4⟩].getD i ⟨0, 0⟩)).n_cols) ∧
    (Mat.mk 1 2 (fun i => [(⟨1, 2⟩ : std.complex Int), ⟨3, 4⟩].getD i ⟨0, 0⟩)).at_ 0 1
      = ⟨(op_real.apply std.complex.real (fun _ => 0) (int_mat 0 0 [])
            ⟨UnaryArg.of_Mat false
              (Mat.mk 1 2 (fun i => [(⟨1, 2⟩ : std.complex Int), ⟨3, 4⟩].getD i ⟨0, 0⟩)),
              ⟨0, 0⟩, 0, 0, 0⟩).at_ 0 1,
         (op_imag.apply true std.complex.imag (fun _ => 0) (int_mat 0 0 [])
            ⟨UnaryArg.of_Mat true
              (Mat.mk 1 2 (fun i => [(⟨1, 2⟩ : std.complex Int), ⟨3, 4⟩].getD i ⟨0, 0⟩)),
              ⟨0, 0⟩, 0, 0, 0⟩).at_ 0 1⟩ :=
  ⟨by decide,
   ((real_imag_decompose (fun _ => 0) (fun _ => 0) (int_mat 0 0 []) (int_mat 0 0 [])
      (Mat.mk 1 2 (fun i => [(⟨1, 2⟩ : std.complex Int), ⟨3, 4⟩].getD i ⟨0, 0⟩))
      false true ⟨0, 0⟩ 0 0 0).2.2.2.2 0 1 (by decide) (by decide)).1⟩

/-! ### Access modes of dot and cdot -/

namespace op_dot

/-- The non-complex manual kernel is the finite sum of the products, in either
build. -/
theorem direct_dot_arma_sum {eT : Type} [NonUnitalNonAssocSemiring eT] (cfg : Config)
    (n_elem : Nat) (A B : Nat → eT) :
    direct_dot_arma cfg n_elem A B = ∑ i in Finset.range n_elem, A i * B i := by
  unfold direct_dot_arma
  by_cases hf : cfg.fast_math = true
  · rw [if_pos hf]
    exact for_uword_sum (fun i => A i * B i) n_elem
  · rw [if_neg hf]
    have h := direct_dot_arma_loop_sum n_elem A B n_elem 0 0 0 rfl (Nat.zero_le _)
    rw [Finset.range_eq_Ico]
    simpa using h

end op_dot

namespace op_cdot

/-- Below the threshold of `direct_cdot`, or without BLAS, `direct_cdot` is the
manual kernel. -/
theorem direct_cdot_manual {T : Type} [Zero T] [One T] [Add T] [Sub T] [Mul T] (cfg : Config)
    (be : Backend (std.complex T)) (result : Nat → std.complex T) (n_elem : Nat)
    (A B : Nat → std.complex T) (h : n_elem ≤ 32 ∨ cfg.use_blas = false) :
    direct_cdot cfg be result n_elem A B = direct_cdot_arma n_elem A B := by
  unfold direct_cdot
  by_cases hn : n_elem ≤ 32
  · rw [if_pos hn]
  · rcases h with h | hb
    · exact absurd h hn
    · rw [if_neg hn, if_neg (by simp [hb])]

end op_cdot

namespace op_dot

/-- The sum over the columns of the per-column sums is the sum over the whole
column-major buffer. -/
theorem sum_by_columns {M : Type} [AddCommMonoid M] (f : Nat → M) (r c : Nat) :
    for_uword c (fun k acc => acc + ∑ i in Finset.range r, f (k * r + i)) 0
      = ∑ p in Finset.range (r * c), f p := by
  induction c with
  | zero => simp [for_uword]
  | succ k ih =>
    rw [for_uword_succ, ih, Nat.mul_succ, Finset.sum_range_add, Nat.mul_comm r k]

end op_dot

/-- C27: in the subview path of `op_dot::apply`, for operands `A` and `B` of
identical shape `r x c`, the sum accumulated over the columns `k` of
`direct_dot(r, A.colptr(k), B.colptr(k))` equals, in exact arithmetic where
`direct_dot` returns the dot product, the dot product of the two full column-major
element sequences of length `r * c`, which is the value of the flattened call
`direct_dot(n_elem, A.memptr(), B.memptr())`. -/
theorem subview_path_eq_flattened {eT : Type} [NonUnitalNonAssocSemiring eT]
    (et : ElemType eT) (X Y : Operand eT)
    (hdd : ∀ n (A B : Nat → eT), et.direct_dot n A B = ∑ i in Finset.range n, A i * B i)
    (hrow : ((X.is_subview_row && Y.is_subview_row)
      && ((X.m.n_rows == 1) && (Y.m.n_rows == 1))) = false)
    (hsub : (X.is_subview || Y.is_subview) = true)
    (hr : X.M.n_rows = Y.M.n_rows) (hc : X.M.n_cols = Y.M.n_cols) :
    op_dot.apply et X Y
      = Except.ok (for_uword X.M.n_cols
          (fun k acc => acc + et.direct_dot X.M.n_rows (X.M.colptr k) (Y.M.colptr k)) 0) ∧
    op_dot.apply et X Y
      = Except.ok (∑ p in Finset.range (X.M.n_rows * X.M.n_cols), X.M.mem p * Y.M.mem p) ∧
    op_dot.apply et X Y = Except.ok (et.direct_dot X.n_elem X.M.memptr Y.M.memptr) := by
  have hpath : op_dot.apply et X Y
      = Except.ok (for_uword X.M.n_cols
          (fun k acc => acc + et.direct_dot X.M.n_rows (X.M.colptr k) (Y.M.colptr k)) 0) := by
    unfold op_dot.apply
    simp only [hrow, hsub, Bool.false_eq_true, if_false, if_true, sv_keep_unwrap, hr, hc,
      beq_self_eq_true, Bool.and_self]
    rfl
  have hsum : for_uword X.M.n_cols
      (fun k acc => acc + et.direct_dot X.M.n_rows (X.M.colptr k) (Y.M.colptr k)) 0
      = ∑ p in Finset.range (X.M.n_rows * X.M.n_cols), X.M.mem p * Y.M.mem p := by
    have hbody : (fun k (acc : eT) =>
        acc + et.direct_dot X.M.n_rows (X.M.colptr k) (Y.M.colptr k))
        = (fun k (acc : eT) => acc + ∑ i in Finset.range X.M.n_rows,
            (fun p => X.M.mem p * Y.M.mem p) (k * X.M.n_rows + i)) := by
      funext k acc
      rw [hdd]
      simp only [Mat.colptr, hr]
    rw [hbody]
    exact op_dot.sum_by_columns (fun p => X.M.mem p * Y.M.mem p) X.M.n_rows X.M.n_cols
  refine ⟨hpath, ?_, ?_⟩
  · rw [hpath, hsum]
  · rw [hpath, hsum, hdd]
    rfl

/-- Witness for C27: two 2 x 2 integer subviews, with the integral `direct_dot`,
which is the manual kernel at every size. -/
theorem subview_path_eq_flattened_witness :
    (∀ n (A B : Nat → Int), (ElemType.integral blas_config).direct_dot n A B
      = ∑ i in Finset.range n, A i * B i) ∧
    op_dot.apply (ElemType.integral blas_config) (int_subview (int_mat 2 2 [1, 2, 3, 4]))
        (int_subview (int_mat 2 2 [5, 6, 7, 8]))
      = Except.ok (∑ p in Finset.range
          ((int_subview (int_mat 2 2 [1, 2, 3, 4])).M.n_rows
            * (int_subview (int_mat 2 2 [1, 2, 3, 4])).M.n_cols),
          (int_subview (int_mat 2 2 [1, 2, 3, 4])).M.mem p
            * (int_subview (int_mat 2 2 [5, 6, 7, 8])).M.mem p) :=
  ⟨fun n A B => op_dot.direct_dot_arma_sum blas_config n A B,
   (subview_path_eq_flattened (ElemType.integral blas_config)
      (int_subview (int_mat 2 2 [1, 2, 3, 4])) (int_subview (int_mat 2 2 [5, 6, 7, 8]))
      (fun n A B => op_dot.direct_dot_arma_sum blas_config n A B) rfl rfl rfl rfl).2.1⟩

/-! ### Elementwise maps on cubes -/

/-- The column-by-column loop nest entered with the pointer at offset `q`: after
`c` columns of `r` rows the pointer is at `q + c * r`, and row `i` of column `j` has
been written at offset `q + (i + j * r)`. -/
theorem two_level_fill {T : Type} (g : Nat → Nat → T) (r c : Nat) (m : Nat → T) (q : Nat) :
    (for_uword c (fun col (st : (Nat → T) × Nat) =>
        for_uword r (fun row (st : (Nat → T) × Nat) =>
          (Function.update st.1 st.2 (g row col), st.2 + 1)) st) (m, q)).2 = q + c * r ∧
    (∀ i j, i < r → j < c →
      (for_uword c (fun col (st : (Nat → T) × Nat) =>
        for_uword r (fun row (st : (Nat → T) × Nat) =>
          (Function.update st.1 st.2 (g row col), st.2 + 1)) st) (m, q)).1 (q + (i + j * r))
        = g i j) ∧
    (∀ p, ¬ (q ≤ p ∧ p < q + c * r) →
      (for_uword c (fun col (st : (Nat → T) × Nat) =>
        for_uword r (fun row (st : (Nat → T) × Nat) =>
          (Function.update st.1 st.2 (g row col), st.2 + 1)) st) (m, q)).1 p = m p) := by
  induction c with
  | zero =>
    refine ⟨by simp [for_uword], ?_, fun p _ => rfl⟩
    intro i j _ hj
    omega
  | succ k ih =>
    obtain ⟨ih1, ih2, ih3⟩ := ih
    rw [for_uword_succ]
    generalize hst : for_uword k (fun col (st : (Nat → T) × Nat) =>
        for_uword r (fun row (st : (Nat → T) × Nat) =>
          (Function.update st.1 st.2 (g row col), st.2 + 1)) st) (m, q) = st0 at ih1 ih2 ih3
    obtain ⟨m1, q1⟩ := st0
    simp only at ih1 ih2 ih3
    subst ih1
    obtain ⟨h1, h2⟩ := pointer_fill (fun row => g row k) r m1 (q + k * r)
    refine ⟨?_, ?_, ?_⟩
    · rw [h1, Nat.succ_mul]
      omega
    · intro i j hi hj
      rw [h2]
      by_cases hjk : j = k
      · subst hjk
        rw [if_pos (by omega)]
        congr 1
        omega
      · have hlt : j < k := by omega
        have hb : (j + 1) * r ≤ k * r := Nat.mul_le_mul_right r hlt
        rw [Nat.succ_mul] at hb
        rw [if_neg (by omega)]
        exact ih2 i j hi hlt
    · intro p hp
      rw [Nat.succ_mul] at hp
      rw [h2, if_neg (by omega)]
      exact ih3 p (by omega)

/-- The loop nest of the `use_at` branch of a cube map, on an operand kept apart
from the destination: element `(i, j, k)` is written at linear position
`i + j * r + k * (r * c)`. -/
theorem fill_at_cube_apart {eT T : Type} (f : eT → T) (P : UnaryArgCube eT T)
    (hP : ∀ cur cur1 row col slice, P.at_ cur row col slice = P.at_ cur1 row col slice)
    (r c s : Nat) (mem0 : Nat → T) :
    (fill_at_cube f P r c s mem0).2 = s * (c * r) ∧
    ∀ i j k, i < r → j < c → k < s →
      (fill_at_cube f P r c s mem0).1 (i + j * r + k * (r * c)) = f (P.at_ mem0 i j k) := by
  unfold fill_at_cube
  induction s with
  | zero =>
    refine ⟨by simp [for_uword], ?_⟩
    intro i j k _ _ hk
    omega
  | succ n ih =>
    obtain ⟨ih1, ih2⟩ := ih
    rw [for_uword_succ]
    have hbody : (fun col (st : (Nat → T) × Nat) =>
        for_uword r (fun row (st : (Nat → T) × Nat) =>
          (Function.update st.1 st.2 (f (P.at_ st.1 row col n)), st.2 + 1)) st)
        = (fun col (st : (Nat → T) × Nat) =>
        for_uword r (fun row (st : (Nat → T) × Nat) =>
          (Function.update st.1 st.2 ((fun row col => f (P.at_ mem0 row col n)) row col),
            st.2 + 1)) st) := by
      funext col st
      congr 1
      funext row st1
      rw [hP st1.1 mem0 row col n]
    simp only [hbody]
    generalize hst : for_uword n (fun slice (st : (Nat → T) × Nat) =>
        for_uword c (fun col (st : (Nat → T) × Nat) =>
          for_uword r (fun row (st : (Nat → T) × Nat) =>
            (Function.update st.1 st.2 (f (P.at_ st.1 row col slice)), st.2 + 1)) st) st)
        (mem0, 0) = st0 at ih1 ih2
    obtain ⟨m1, q1⟩ := st0
    simp only at ih1 ih2
    subst ih1
    obtain ⟨h1, h2, h3⟩ := two_level_fill (fun row col => f (P.at_ mem0 row col n)) r c m1
      (n * (c * r))
    refine ⟨?_, ?_⟩
    · rw [h1, Nat.succ_mul]
    · intro i j k hi hj hk
      have hij : i + j * r < c * r := by
        have := col_major_lt r c i j hi hj
        rw [Nat.mul_comm r c] at this
        exact this
      by_cases hkn : k = n
      · subst hkn
        have e : i + j * r + k * (r * c) = k * (c * r) + (i + j * r) := by
          rw [Nat.mul_comm r c]
          omega
        rw [e]
        exact h2 i j hi hj
      · have hlt : k < n := by omega
        have hb : (k + 1) * (c * r) ≤ n * (c * r) := Nat.mul_le_mul_right (c * r) hlt
        rw [Nat.succ_mul] at hb
        have e : k * (r * c) = k * (c * r) := by rw [Nat.mul_comm r c]
        rw [h3 _ (by rw [e]; omega)]
        exact ih2 i j k hi hj hlt

/-- Every position of an `r x c x s` cube is `i + j * r + k * (r * c)` for a row
`i`, a column `j` and a slice `k`. -/
theorem cube_index_decomp (r c s p : Nat) (hp : p < r * c * s) :
    ∃ i j k, i < r ∧ j < c ∧ k < s ∧ p = i + j * r + k * (r * c) := by
  have hr : 0 < r := by
    rcases Nat.eq_zero_or_pos r with h | h
    · rw [h, Nat.zero_mul, Nat.zero_mul] at hp
      omega
    · exact h
  have hc : 0 < c := by
    rcases Nat.eq_zero_or_pos c with h | h
    · rw [h, Nat.mul_zero, Nat.zero_mul] at hp
      omega
    · exact h
  have hrc : 0 < r * c := Nat.mul_pos hr hc
  refine ⟨p % (r * c) % r, p % (r * c) / r, p / (r * c), Nat.mod_lt _ hr, ?_, ?_, ?_⟩
  · rw [Nat.div_lt_iff_lt_mul hr, Nat.mul_comm c r]
    exact Nat.mod_lt _ hrc
  · rw [Nat.div_lt_iff_lt_mul hrc, Nat.mul_comm s (r * c)]
    exact hp
  · have h1 := Nat.mod_add_div (p % (r * c)) r
    have h2 := Nat.mod_add_div p (r * c)
    rw [Nat.mul_comm r (p % (r * c) / r)] at h1
    rw [Nat.mul_comm (r * c) (p / (r * c))] at h2
    omega

/-- After `set_size` the destination cube has the requested extents. -/
theorem cube_set_size_shape {T : Type} (out : Cube T) (fresh : Nat → T) (r c s : Nat) :
    (out.set_size fresh r c s).n_rows = r ∧ (out.set_size fresh r c s).n_cols = c ∧
    (out.set_size fresh r c s).n_slices = s := by
  unfold Cube.set_size
  by_cases h : out.n_rows = r ∧ out.n_cols = c ∧ out.n_slices = s
  · rw [if_pos h]
    exact h
  · rw [if_neg h]
    exact ⟨rfl, rfl, rfl⟩

/-- Position `i + j * r + k * (r * c)` of an `r x c x s` cube is below `r * c * s`. -/
theorem cube_index_lt (r c s i j k : Nat) (hi : i < r) (hj : j < c) (hk : k < s) :
    i + j * r + k * (r * c) < r * c * s := by
  have h1 := col_major_lt r c i j hi hj
  have h2 : (k + 1) * (r * c) ≤ s * (r * c) := Nat.mul_le_mul_right (r * c) hk
  rw [Nat.succ_mul] at h2
  rw [Nat.mul_comm (r * c) s]
  omega

namespace op_abs

/-- Extents of the destination of `op_abs::apply` on a cube. -/
theorem abs_apply_cube_shape {eT T : Type} (abs : eT → T) (fresh : Nat → T) (out : Cube T)
    (X : mtOp T eT (UnaryArgCube eT T)) :
    (apply_cube abs fresh out X).n_rows = X.m.n_rows ∧
    (apply_cube abs fresh out X).n_cols = X.m.n_cols ∧
    (apply_cube abs fresh out X).n_slices = X.m.n_slices := by
  obtain ⟨h1, h2, h3⟩ := cube_set_size_shape out fresh X.m.n_rows X.m.n_cols X.m.n_slices
  unfold apply_cube
  by_cases hu : (X.m.use_at == false) = true
  · simp only [hu, if_true]
    exact ⟨h1, h2, h3⟩
  · simp only [hu, if_false]
    exact ⟨h1, h2, h3⟩

/-- Elements of the destination of `op_abs::apply` on a cube operand kept apart
from it: on either access path, linear position `i + j * r + k * (r * c)` holds the
image of the element that position holds in the operand. -/
theorem abs_apply_cube_mem {eT T : Type} (abs : eT → T) (fresh : Nat → T) (out : Cube T)
    (Q : Cube eT) (use_at : Bool) (aux : eT) (aux_out : T) (a b i j k : Nat)
    (hi : i < Q.n_rows) (hj : j < Q.n_cols) (hk : k < Q.n_slices) :
    (apply_cube abs fresh out ⟨UnaryArgCube.of_Cube use_at Q, aux, aux_out, a, b⟩).mem
        (i + j * Q.n_rows + k * (Q.n_rows * Q.n_cols))
      = abs (Q.mem (i + j * Q.n_rows + k * (Q.n_rows * Q.n_cols))) := by
  have hp := cube_index_lt Q.n_rows Q.n_cols Q.n_slices i j k hi hj hk
  unfold apply_cube
  cases use_at
  · have hc : ((UnaryArgCube.of_Cube false Q : UnaryArgCube eT T).use_at == false) = true := rfl
    simp only [hc, if_true]
    have hp1 : i + j * Q.n_rows + k * (Q.n_rows * Q.n_cols)
        < (UnaryArgCube.of_Cube false Q : UnaryArgCube eT T).n_elem := hp
    rw [linear_fill (fun mem i => abs ((UnaryArgCube.of_Cube false Q : UnaryArgCube eT T).ea mem i))
      (fun i => abs (Q.mem i)) _ _ (fun _ _ _ _ => rfl), if_pos hp1]
  · have hc : ¬ (((UnaryArgCube.of_Cube true Q : UnaryArgCube eT T).use_at == false) = true) :=
      fun h => Bool.noConfusion h
    simp only [hc, if_false]
    exact (fill_at_cube_apart abs (UnaryArgCube.of_Cube true Q) (fun _ _ _ _ _ => rfl)
      Q.n_rows Q.n_cols Q.n_slices _).2 i j k hi hj hk

end op_abs

/-- C25: for every cube operand `X` with extents `r x c x s`, `op_abs::apply` leaves
`out` with extents `r x c x s` and `out(i,j,k) = |X(i,j,k)|`; its `use_at` path
(slice outermost, then column, then row, the output pointer advancing by one per
element) writes element `(i,j,k)` at linear position `i + j*r + k*r*c`, so it
leaves the same buffer as the linear element-accessor path. -/
theorem op_abs_apply_cube_spec {eT T : Type} (abs : eT → T) (fresh : Nat → T) (out : Cube T)
    (Q : Cube eT) (use_at : Bool) (aux : eT) (aux_out : T) (a b : Nat) :
    ((op_abs.apply_cube abs fresh out
        ⟨UnaryArgCube.of_Cube use_at Q, aux, aux_out, a, b⟩).n_rows = Q.n_rows ∧
     (op_abs.apply_cube abs fresh out
        ⟨UnaryArgCube.of_Cube use_at Q, aux, aux_out, a, b⟩).n_cols = Q.n_cols ∧
     (op_abs.apply_cube abs fresh out
        ⟨UnaryArgCube.of_Cube use_at Q, aux, aux_out, a, b⟩).n_slices = Q.n_slices) ∧
    (∀ i j k, i < Q.n_rows → j < Q.n_cols → k < Q.n_slices →
      (op_abs.apply_cube abs fresh out
        ⟨UnaryArgCube.of_Cube use_at Q, aux, aux_out, a, b⟩).at_ i j k = abs (Q.at_ i j k)) ∧
    (∀ i j k, i < Q.n_rows → j < Q.n_cols → k < Q.n_slices →
      (op_abs.apply_cube abs fresh out
        ⟨UnaryArgCube.of_Cube true Q, aux, aux_out, a, b⟩).mem
          (i + j * Q.n_rows + k * (Q.n_rows * Q.n_cols))
        = abs ((UnaryArgCube.of_Cube true Q : UnaryArgCube eT T).at_ fresh i j k)) ∧
    (∀ p, p < Q.n_elem →
      (op_abs.apply_cube abs fresh out
        ⟨UnaryArgCube.of_Cube false Q, aux, aux_out, a, b⟩).mem p
        = (op_abs.apply_cube abs fresh out
            ⟨UnaryArgCube.of_Cube true Q, aux, aux_out, a, b⟩).mem p) := by
  have hs := op_abs.abs_apply_cube_shape abs fresh out
    ⟨UnaryArgCube.of_Cube use_at Q, aux, aux_out, a, b⟩
  have h1 : (op_abs.apply_cube abs fresh out
      ⟨UnaryArgCube.of_Cube use_at Q, aux, aux_out, a, b⟩).n_rows = Q.n_rows := hs.1
  have h2 : (op_abs.apply_cube abs fresh out
      ⟨UnaryArgCube.of_Cube use_at Q, aux, aux_out, a, b⟩).n_cols = Q.n_cols := hs.2.1
  refine ⟨⟨h1, h2, hs.2.2⟩, ?_, ?_, ?_⟩
  · intro i j k hi hj hk
    unfold Cube.at_
    rw [h1, h2]
    exact op_abs.abs_apply_cube_mem abs fresh out Q use_at aux aux_out a b i j k hi hj hk
  · intro i j k hi hj hk
    exact op_abs.abs_apply_cube_mem abs fresh out Q true aux aux_out a b i j k hi hj hk
  · intro p hp
    obtain ⟨i, j, k, hi, hj, hk, e⟩ := cube_index_decomp Q.n_rows Q.n_cols Q.n_slices p hp
    rw [e, op_abs.abs_apply_cube_mem abs fresh out Q false aux aux_out a b i j k hi hj hk,
      op_abs.abs_apply_cube_mem abs fresh out Q true aux aux_out a b i j k hi hj hk]

/-- Witness for C25: the absolute values of the 1 x 2 x 2 integer cube
`[-1, 2 | -3, 4]` on the `use_at` path. -/
theorem op_abs_apply_cube_spec_witness :
    (0 < (Cube.mk 1 2 2 (int_ptr [-1, 2, -3, 4])).n_rows ∧
     1 < (Cube.mk 1 2 2 (int_ptr [-1, 2, -3, 4])).n_cols ∧
     1 < (Cube.mk 1 2 2 (int_ptr [-1, 2, -3, 4])).n_slices) ∧
    (op_abs.apply_cube Int.natAbs (fun _ => 0) (Cube.mk 0 0 0 (fun _ => 0))
        ⟨UnaryArgCube.of_Cube true (Cube.mk 1 2 2 (int_ptr [-1, 2, -3, 4])), 0, 0, 0, 0⟩).at_
          0 1 1
      = Int.natAbs ((Cube.mk 1 2 2 (int_ptr [-1, 2, -3, 4])).at_ 0 1 1) :=
  ⟨by decide,
   (op_abs_apply_cube_spec Int.natAbs (fun _ => 0) (Cube.mk 0 0 0 (fun _ => 0))
      (Cube.mk 1 2 2 (int_ptr [-1, 2, -3, 4])) true 0 0 0 0).2.1 0 1 1 (by decide) (by decide)
      (by decide)⟩

/-! ### sym_helper: necessity, insufficiency and the largest-modulus test -/

/-- On a square matrix with at least 4 rows, `guess_sympd` hands the verdict to its
worker. -/
theorem guess_sympd_eq_worker {eT : Type} (worker : Mat eT → Bool) (A : Mat eT)
    (hsq : A.n_rows = A.n_cols) (h4 : 4 ≤ A.n_rows) :
    sym_helper.guess_sympd worker A = worker A := by
  unfold sym_helper.guess_sympd
  have hc : ¬ (((A.n_rows != A.n_cols) || decide (A.n_rows < 4)) = true) := by
    simp only [Bool.or_eq_true, bne_iff_ne, ne_eq, decide_eq_true_eq, not_or, not_not, not_lt]
    exact ⟨hsq, h4⟩
  rw [if_neg hc]

/-- A sum against a vector supported on the indices `i` and `j`. -/
theorem sum_two_support {eT : Type} [LinearOrderedField eT] (N i j : Nat) (hi : i < N)
    (hj : j < N) (u v : eT) (g : Nat → eT) :
    ∑ a in Finset.range N, ((if a = i then u else 0) + (if a = j then v else 0)) * g a
      = u * g i + v * g j := by
  simp only [add_mul, ite_mul, zero_mul, Finset.sum_add_distrib, Finset.sum_ite_eq,
    Finset.sum_ite_eq', Finset.mem_range, hi, hj, if_true]

/-- The quadratic form at the vector `u * e_i + v * e_j`. -/
theorem quad_form_two_support {eT : Type} [LinearOrderedField eT] (A : Mat eT) (i j : Nat)
    (hi : i < A.n_rows) (hj : j < A.n_rows) (u v : eT) :
    quad_form A (fun a => (if a = i then u else 0) + (if a = j then v else 0))
      = u * (u * A.at_ i i + v * A.at_ i j) + v * (u * A.at_ j i + v * A.at_ j j) := by
  unfold quad_form
  have inner : ∀ a : Nat, ∀ xa : eT,
      ∑ b in Finset.range A.n_rows,
          xa * A.at_ a b * ((if b = i then u else 0) + (if b = j then v else 0))
        = xa * (u * A.at_ a i + v * A.at_ a j) := by
    intro a xa
    have h := sum_two_support A.n_rows i j hi hj u v (fun b => xa * A.at_ a b)
    have e : ∑ b in Finset.range A.n_rows,
          xa * A.at_ a b * ((if b = i then u else 0) + (if b = j then v else 0))
        = ∑ b in Finset.range A.n_rows,
          ((if b = i then u else 0) + (if b = j then v else 0)) * (xa * A.at_ a b) :=
      Finset.sum_congr rfl (fun b _ => mul_comm _ _)
    rw [e, h]
    ring
  have outer : ∑ a in Finset.range A.n_rows, ∑ b in Finset.range A.n_rows,
        ((if a = i then u else 0) + (if a = j then v else 0)) * A.at_ a b
          * ((if b = i then u else 0) + (if b = j then v else 0))
      = ∑ a in Finset.range A.n_rows,
        ((if a = i then u else 0) + (if a = j then v else 0))
          * (u * A.at_ a i + v * A.at_ a j) :=
    Finset.sum_congr rfl (fun a _ => inner a _)
  show ∑ a in Finset.range A.n_rows, ∑ b in Finset.range A.n_rows,
        ((if a = i then u else 0) + (if a = j then v else 0)) * A.at_ a b
          * ((if b = i then u else 0) + (if b = j then v else 0)) = _
  rw [outer, sum_two_support A.n_rows i j hi hj u v (fun a => u * A.at_ a i + v * A.at_ a j)]

/-- What positive definiteness of a symmetric matrix gives on the vectors `e_j` and
`e_i + e_j`, `e_i - e_j`: a positive diagonal, and `2 |A_ij| < A_ii + A_jj`. -/
theorem pos_def_tests {eT : Type} [LinearOrderedField eT] (A : Mat eT) (hsym : is_symmetric A)
    (hpd : is_pos_def A) :
    (∀ j, j < A.n_rows → 0 < A.at_ j j) ∧
    (∀ i j, i < A.n_rows → j < A.n_rows → i ≠ j →
      |A.at_ i j| + |A.at_ i j| < A.at_ i i + A.at_ j j) := by
  constructor
  · intro j hj
    have h := hpd (fun a => (if a = j then (1 : eT) else 0) + (if a = j then (0 : eT) else 0))
      ⟨j, hj, by simp⟩
    rw [quad_form_two_support A j j hj hj 1 0] at h
    linarith
  · intro i j hi hj hij
    have hp := hpd (fun a => (if a = i then (1 : eT) else 0) + (if a = j then (1 : eT) else 0))
      ⟨i, hi, by simp [hij]⟩
    have hm := hpd (fun a => (if a = i then (1 : eT) else 0) + (if a = j then (-1 : eT) else 0))
      ⟨i, hi, by simp [hij]⟩
    rw [quad_form_two_support A i j hi hj 1 1] at hp
    rw [quad_form_two_support A i j hi hj 1 (-1)] at hm
    have hs := hsym.2 i j hi hj
    rw [← hs] at hp hm
    rcases abs_cases (A.at_ i j) with ⟨h, _⟩ | ⟨h, _⟩ <;> rw [h] <;> linarith

/-- C21: the conditions the worker tests are necessary for positive definiteness.
For every real, exactly symmetric, positive definite `N x N` matrix `A` with
`N >= 4` whose diagonal has at least one entry `>= tol`, with `tol = 100 * epsilon`,
`sym_helper::guess_sympd(A)` returns true, in exact arithmetic: the diagonal
entries are finite and `epsilon` is not negative. -/
theorem guess_sympd_of_pos_def {eT : Type} [LinearOrderedField eT] (lim : Numeric eT)
    (A : Mat eT) (hsym : is_symmetric A) (hpd : is_pos_def A) (h4 : 4 ≤ A.n_rows)
    (hN : A.n_rows + 1 < 2 ^ lim.uword_bits) (heps : 0 ≤ lim.epsilon)
    (hfin : ∀ j, j < A.n_rows → lim.arma_isnonfinite (A.at_ j j) = false)
    (hdiag : ∃ j, j < A.n_rows ∧ 100 * lim.epsilon ≤ A.at_ j j) :
    sym_helper.guess_sympd (sym_helper.guess_sympd_worker lim) A = true := by
  obtain ⟨hdpos, hpair⟩ := pos_def_tests A hsym hpd
  rw [guess_sympd_eq_worker _ A hsym.1 h4, sym_helper.guess_sympd_worker_true_iff lim A hN]
  refine ⟨?_, ?_, ?_⟩
  · intro j hj
    rw [Nat.add_comm]
    exact ⟨hdpos j hj, hfin j hj⟩
  · obtain ⟨j, hj, hge⟩ := hdiag
    refine ⟨j, hj, ?_⟩
    rw [Nat.add_comm]
    exact hge
  · intro j i hji hi
    have hj : j < A.n_rows := by omega
    obtain ⟨_, hmax, _⟩ := sym_helper.max_diag_upto_spec A.n_rows A.mem A.n_rows
    have hi2 := hmax i hi
    have hj2 := hmax j hj
    rw [Nat.add_comm] at hi2 hj2
    have hp : |A.mem (i + j * A.n_rows)| + |A.mem (i + j * A.n_rows)|
        < A.mem (i + i * A.n_rows) + A.mem (j + j * A.n_rows) := hpair i j hi hj (by omega)
    have hs : A.mem (i + j * A.n_rows) = A.mem (j + i * A.n_rows) := hsym.2 i j hi hj
    refine ⟨by linarith, ?_, hp⟩
    rintro ⟨hgt, _⟩
    rw [← hs, sub_self, abs_zero] at hgt
    have : (0 : eT) ≤ 100 * lim.epsilon := mul_nonneg (by norm_num) heps
    linarith

/-- Witness for C21: the 4 x 4 rational identity is symmetric and positive definite,
its diagonal entries are `1 >= tol`, and `guess_sympd` returns true on it. -/
theorem guess_sympd_of_pos_def_witness :
    is_symmetric (rat_scaled_identity 4 1) ∧ is_pos_def (rat_scaled_identity 4 1) ∧
    4 ≤ (rat_scaled_identity 4 1).n_rows ∧
    (rat_scaled_identity 4 1).n_rows + 1 < 2 ^ rat_numeric.uword_bits ∧
    0 ≤ rat_numeric.epsilon ∧
    (∀ j, j < (rat_scaled_identity 4 1).n_rows →
      rat_numeric.arma_isnonfinite ((rat_scaled_identity 4 1).at_ j j) = false) ∧
    (∃ j, j < (rat_scaled_identity 4 1).n_rows ∧
      100 * rat_numeric.epsilon ≤ (rat_scaled_identity 4 1).at_ j j) ∧
    sym_helper.guess_sympd (sym_helper.guess_sympd_worker rat_numeric)
      (rat_scaled_identity 4 1) = true :=
  have hsym : is_symmetric (rat_scaled_identity 4 1) :=
    ⟨rfl, by
      intro i j hi hj
      have hi4 : i < 4 := hi
      have hj4 : j < 4 := hj
      interval_cases i <;> interval_cases j <;> simp [Mat.at_, rat_scaled_identity]⟩
  have hpd : is_pos_def (rat_scaled_identity 4 1) := by
    rintro x ⟨i, hi, hx⟩
    have hi4 : i < 4 := hi
    have hq : quad_form (rat_scaled_identity 4 1) x
        = x 0 * x 0 + x 1 * x 1 + x 2 * x 2 + x 3 * x 3 := by
      simp [quad_form, Finset.sum_range_succ, Mat.at_, rat_scaled_identity]
    rw [hq]
    have hpos : 0 < x i * x i := mul_self_pos.mpr hx
    interval_cases i <;>
      nlinarith [mul_self_nonneg (x 0), mul_self_nonneg (x 1), mul_self_nonneg (x 2),
        mul_self_nonneg (x 3)]
  have hd : ∃ j, j < (rat_scaled_identity 4 1).n_rows ∧
      100 * rat_numeric.epsilon ≤ (rat_scaled_identity 4 1).at_ j j :=
    ⟨0, by decide, by norm_num [Mat.at_, rat_scaled_identity, rat_numeric]⟩
  ⟨hsym, hpd, by decide, by decide, by norm_num [rat_numeric], fun _ _ => rfl, hd,
   guess_sympd_of_pos_def rat_numeric (rat_scaled_identity 4 1) hsym hpd (by decide)
     (by decide) (by norm_num [rat_numeric]) (fun _ _ => rfl) hd⟩

/-- The real worker accepts the 4 x 4 matrix with 5 on the diagonal and -2
elsewhere. -/
theorem rat_not_pos_def_accepted :
    sym_helper.guess_sympd (sym_helper.guess_sympd_worker rat_numeric) rat_not_pos_def
      = true := by
  rw [guess_sympd_eq_worker _ rat_not_pos_def rfl (by decide),
    sym_helper.guess_sympd_worker_true_iff rat_numeric rat_not_pos_def (by decide)]
  obtain ⟨_, hmax, _⟩ :=
    sym_helper.max_diag_upto_spec rat_not_pos_def.n_rows rat_not_pos_def.mem
      rat_not_pos_def.n_rows
  have h5 : (5 : Rat) ≤ sym_helper.max_diag_upto rat_not_pos_def.n_rows rat_not_pos_def.mem
      rat_not_pos_def.n_rows := by
    have h := hmax 0 (by decide)
    norm_num [rat_not_pos_def, rat_mat] at h
    exact h
  refine ⟨?_, ⟨0, by decide, by norm_num [rat_not_pos_def, rat_mat, rat_numeric]⟩, ?_⟩
  · intro j hj
    have hj4 : j < 4 := hj
    refine ⟨?_, rfl⟩
    interval_cases j <;> norm_num [rat_not_pos_def, rat_mat]
  · intro j i hji hi
    have hi4 : i < 4 := hi
    have hj4 : j < 4 := by omega
    unfold sym_helper.pair_ok
    interval_cases i <;> interval_cases j <;>
      first
        | omega
        | (refine ⟨lt_of_lt_of_le ?_ h5, ?_, ?_⟩ <;>
            norm_num [rat_not_pos_def, rat_mat, rat_numeric])

/-- C22: the conditions are not sufficient. There is a real, exactly symmetric
matrix `A` with 4 rows that is not positive definite, some vector `x` that is not
zero has `transpose(x) * A * x <= 0`, and `sym_helper::guess_sympd(A)` returns
true: the matrix with 5 on the diagonal and -2 elsewhere, with `x` all ones. -/
theorem guess_sympd_not_sufficient :
    ∃ A : Mat Rat, 4 ≤ A.n_rows ∧ is_symmetric A ∧
      (∃ x : Nat → Rat, (∃ i, i < A.n_rows ∧ x i ≠ 0) ∧ quad_form A x ≤ 0) ∧
      ¬ is_pos_def A ∧
      sym_helper.guess_sympd (sym_helper.guess_sympd_worker rat_numeric) A = true := by
  have hq : quad_form rat_not_pos_def (fun _ => 1) = -4 := by
    simp [quad_form, Finset.sum_range_succ, Mat.at_, rat_not_pos_def, rat_mat]
    norm_num
  have hx : ∃ i, i < rat_not_pos_def.n_rows ∧ (fun _ : Nat => (1 : Rat)) i ≠ 0 :=
    ⟨0, by decide, one_ne_zero⟩
  refine ⟨rat_not_pos_def, by decide, ⟨rfl, ?_⟩, ⟨fun _ => 1, hx, ?_⟩, ?_,
    rat_not_pos_def_accepted⟩
  · intro i j hi hj
    have hi4 : i < 4 := hi
    have hj4 : j < 4 := hj
    interval_cases i <;> interval_cases j <;> simp [Mat.at_, rat_not_pos_def, rat_mat]
  · rw [hq]
    norm_num
  · intro hpd
    have h := hpd (fun _ => 1) hx
    rw [hq] at h
    norm_num at h

/-- The real worker accepts the 4 x 4 matrix with unit diagonal in which `A(1,0)` is
a quarter of the tolerance below 1 and `A(0,1)` a quarter of the tolerance above. -/
theorem rat_upper_exceeds_accepted :
    sym_helper.guess_sympd (sym_helper.guess_sympd_worker rat_numeric) rat_upper_exceeds
      = true := by
  rw [guess_sympd_eq_worker _ rat_upper_exceeds rfl (by decide),
    sym_helper.guess_sympd_worker_true_iff rat_numeric rat_upper_exceeds (by decide)]
  obtain ⟨_, hmax, _⟩ :=
    sym_helper.max_diag_upto_spec rat_upper_exceeds.n_rows rat_upper_exceeds.mem
      rat_upper_exceeds.n_rows
  have h1 : (1 : Rat) ≤ sym_helper.max_diag_upto rat_upper_exceeds.n_rows
      rat_upper_exceeds.mem rat_upper_exceeds.n_rows := by
    have h := hmax 0 (by decide)
    norm_num [rat_upper_exceeds, rat_mat] at h
    exact h
  refine ⟨?_, ⟨0, by decide, by norm_num [rat_upper_exceeds, rat_mat, rat_numeric]⟩, ?_⟩
  · intro j hj
    have hj4 : j < 4 := hj
    refine ⟨?_, rfl⟩
    interval_cases j <;> norm_num [rat_upper_exceeds, rat_mat]
  · intro j i hji hi
    have hi4 : i < 4 := hi
    have hj4 : j < 4 := by omega
    unfold sym_helper.pair_ok
    interval_cases i <;> interval_cases j <;>
      first
        | omega
        | (refine ⟨lt_of_lt_of_le ?_ h1, ?_, ?_⟩ <;>
            norm_num [rat_upper_exceeds, rat_mat, rat_numeric, abs_of_pos])

/-! ### sym_helper: the loops of the approximate-symmetry test -/

namespace sym_helper

/-- The diagonal loop of the real `is_approx_sym_worker`: it runs to the end exactly
when every diagonal entry is finite, and then the flag is the tracked one, over the
absolute values of the diagonal. -/
theorem is_approx_sym_worker_diag_spec {eT : Type} [LinearOrderedRing eT] (lim : Numeric eT)
    (tol : eT) (N : Nat) (A_mem : Nat → eT) :
    ((∀ j, j < N → lim.arma_isnonfinite (A_mem (j * N + j)) = false) →
      is_approx_sym_worker_diag lim tol N A_mem
        = some (N * N, diag_below_tol_upto tol N (fun p => |A_mem p|) N)) ∧
    ((∃ j, j < N ∧ ¬ (lim.arma_isnonfinite (A_mem (j * N + j)) = false)) →
      is_approx_sym_worker_diag lim tol N A_mem = none) := by
  unfold is_approx_sym_worker_diag
  have h := for_uword_option
    (fun j (st : Option (Nat × Bool)) =>
      match st with
      | none => none
      | some (A_col, diag_below_tol) =>
        let A_jj := A_mem (A_col + j)
        if lim.arma_isnonfinite A_jj then none
        else
          let diag_below_tol := if |A_jj| ≥ tol then false else diag_below_tol
          some (A_col + N, diag_below_tol))
    (fun k => (k * N, diag_below_tol_upto tol N (fun p => |A_mem p|) k))
    (fun j => lim.arma_isnonfinite (A_mem (j * N + j)) = false)
    N (fun _ => rfl)
    (by
      intro k _ hk
      simp only [hk, Bool.false_eq_true, if_false]
      rw [Nat.succ_mul]
      rfl)
    (by
      intro k _ hk
      have hfin : lim.arma_isnonfinite (A_mem (k * N + k)) = true := by
        cases hb : lim.arma_isnonfinite (A_mem (k * N + k))
        · exact absurd hb hk
        · rfl
      simp only [hfin, if_true])
  simpa using h

/-- The inner loop of the real `is_approx_sym_worker` for column `j`, entered with
`A_col` at column `j`: it runs to the end exactly when the symmetry test passes at
every pair `(j, i)` with `j < i < N`. -/
theorem is_approx_sym_worker_inner_spec {eT : Type} [LinearOrderedRing eT] (tol : eT)
    (N : Nat) (A_mem : Nat → eT) (j : Nat) :
    ((∀ i, j < i → i < N → sym_ok tol N A_mem j i) →
      ∃ st, is_approx_sym_worker_inner tol N A_mem (j * N) j = some st) ∧
    ((∃ i, j < i ∧ i < N ∧ ¬ sym_ok tol N A_mem j i) →
      is_approx_sym_worker_inner tol N A_mem (j * N) j = none) := by
  unfold is_approx_sym_worker_inner for_uword_from
  have h := for_uword_option
    (fun k (st : Option Nat) =>
      match st with
      | none => none
      | some A_ji_ptr =>
        let A_ij := A_mem (j * N + (j + 1 + k))
        let A_ji := A_mem A_ji_ptr
        let A_ij_abs := |A_ij|
        let A_ji_abs := |A_ji|
        let A_delta := |A_ij - A_ji|
        let A_abs_max := max A_ij_abs A_ji_abs
        if (A_delta > tol) ∧ (A_delta > (A_abs_max * tol)) then none
        else some (A_ji_ptr + N))
    (fun k => j + (j + 1 + k) * N)
    (fun k => sym_ok tol N A_mem j (j + 1 + k))
    (N - (j + 1)) (fun _ => rfl)
    (by
      intro k _ hk
      have hk2 : sym_ok tol N A_mem j (j + 1 + k) := hk
      unfold sym_ok at hk2
      rw [Nat.add_comm (j + 1 + k) (j * N)] at hk2
      simp only [if_neg hk2]
      have e1 : (j + 1 + (k + 1)) * N = (j + 1 + k) * N + N := by
        rw [← Nat.add_assoc, Nat.succ_mul]
      rw [e1, Nat.add_assoc])
    (by
      intro k _ hk
      have hk2 : ¬ sym_ok tol N A_mem j (j + 1 + k) := hk
      unfold sym_ok at hk2
      rw [Nat.add_comm (j + 1 + k) (j * N)] at hk2
      simp only [if_pos (not_not.mp hk2)])
  obtain ⟨hall, hex⟩ := h
  constructor
  · intro hp
    exact ⟨_, hall (fun k hk => hp (j + 1 + k) (by omega) (by omega))⟩
  · rintro ⟨i, hji, hiN, hbad⟩
    exact hex ⟨i - (j + 1), by omega, by
      have e : j + 1 + (i - (j + 1)) = i := by omega
      show ¬ sym_ok tol N A_mem j (j + 1 + (i - (j + 1)))
      rw [e]
      exact hbad⟩

/-- The pair loop of the real `is_approx_sym_worker` over the columns `j < N - 1`:
it runs to the end exactly when the symmetry test passes at every pair
`j < i < N`. -/
theorem is_approx_sym_worker_pairs_spec {eT : Type} [LinearOrderedRing eT] (tol : eT)
    (N : Nat) (A_mem : Nat → eT) :
    ((∀ j i, j < i → i < N → sym_ok tol N A_mem j i) →
      ∃ st, is_approx_sym_worker_pairs tol N (N - 1) A_mem = some st) ∧
    ((∃ j i, j < i ∧ i < N ∧ ¬ sym_ok tol N A_mem j i) →
      is_approx_sym_worker_pairs tol N (N - 1) A_mem = none) := by
  unfold is_approx_sym_worker_pairs
  have h := for_uword_option
    (fun j (st : Option Nat) =>
      match st with
      | none => none
      | some A_col =>
        match is_approx_sym_worker_inner tol N A_mem A_col j with
        | none => none
        | some _ => some (A_col + N))
    (fun j => j * N)
    (fun j => ∀ i, j < i → i < N → sym_ok tol N A_mem j i)
    (N - 1) (fun _ => rfl)
    (by
      intro j _ hj
      obtain ⟨st, hst⟩ := (is_approx_sym_worker_inner_spec tol N A_mem j).1 hj
      simp only [hst]
      rw [Nat.succ_mul])
    (by
      intro j _ hj
      have hex : ∃ i, j < i ∧ i < N ∧ ¬ sym_ok tol N A_mem j i := by
        by_contra hcon
        apply hj
        intro i h1 h2
        by_contra hb
        exact hcon ⟨i, h1, h2, hb⟩
      simp only [(is_approx_sym_worker_inner_spec tol N A_mem j).2 hex])
  simp only [Nat.zero_mul] at h
  obtain ⟨hall, hex⟩ := h
  constructor
  · intro hp
    exact ⟨_, hall (fun j _ i h1 h2 => hp j i h1 h2)⟩
  · rintro ⟨j, i, hji, hiN, hbad⟩
    exact hex ⟨j, by omega, fun hj => hbad (hj i hji hiN)⟩

/-- When every diagonal entry is below the tolerance in absolute value, the real
`is_approx_sym_worker` returns false, whatever the other entries are. -/
theorem is_approx_sym_worker_small_diag {eT : Type} [LinearOrderedRing eT] (lim : Numeric eT)
    (A : Mat eT) (h : ∀ j, j < A.n_rows → |A.mem (j * A.n_rows + j)| < 100 * lim.epsilon) :
    is_approx_sym_worker lim A = false := by
  unfold is_approx_sym_worker
  simp only [Mat.memptr]
  by_cases hd : ∀ j, j < A.n_rows → lim.arma_isnonfinite (A.mem (j * A.n_rows + j)) = false
  · rw [(is_approx_sym_worker_diag_spec lim (100 * lim.epsilon) A.n_rows A.mem).1 hd]
    simp only
    have hb : diag_below_tol_upto (100 * lim.epsilon) A.n_rows (fun p => |A.mem p|) A.n_rows
        = true :=
      (diag_below_tol_upto_spec (100 * lim.epsilon) A.n_rows (fun p => |A.mem p|)
        A.n_rows).mpr h
    rw [if_pos hb]
  · have hex : ∃ j, j < A.n_rows ∧ ¬ (lim.arma_isnonfinite (A.mem (j * A.n_rows + j)) = false) := by
      by_contra hcon
      apply hd
      intro j hj
      by_contra hb
      exact hcon ⟨j, hj, hb⟩
    rw [(is_approx_sym_worker_diag_spec lim (100 * lim.epsilon) A.n_rows A.mem).2 hex]

/-- What the real `is_approx_sym_worker` decides on an `N x N` buffer: it returns
true exactly when every diagonal entry is finite, some diagonal entry reaches the
tolerance `100 * epsilon` in absolute value, and the symmetry test passes at every
pair `j < i < N`. -/
theorem is_approx_sym_worker_true_iff {eT : Type} [LinearOrderedRing eT] (lim : Numeric eT)
    (A : Mat eT) (hN : A.n_rows + 1 < 2 ^ lim.uword_bits) :
    is_approx_sym_worker lim A = true ↔
      (∀ j, j < A.n_rows → lim.arma_isnonfinite (A.mem (j * A.n_rows + j)) = false) ∧
      (∃ j, j < A.n_rows ∧ 100 * lim.epsilon ≤ |A.mem (j * A.n_rows + j)|) ∧
      (∀ j i, j < i → i < A.n_rows → sym_ok (100 * lim.epsilon) A.n_rows A.mem j i) := by
  by_cases hsmall : ∀ j, j < A.n_rows → |A.mem (j * A.n_rows + j)| < 100 * lim.epsilon
  · rw [is_approx_sym_worker_small_diag lim A hsmall]
    constructor
    · intro h
      cases h
    · rintro ⟨_, ⟨j, hj, hge⟩, _⟩
      exact absurd (hsmall j hj) (not_lt.mpr hge)
  · have hex : ∃ j, j < A.n_rows ∧ 100 * lim.epsilon ≤ |A.mem (j * A.n_rows + j)| := by
      by_contra hcon
      apply hsmall
      intro j hj
      by_contra hlt
      exact hcon ⟨j, hj, not_lt.mp hlt⟩
    have h0 : 0 < A.n_rows := by
      obtain ⟨j, hj, _⟩ := hex
      omega
    unfold is_approx_sym_worker
    simp only [Mat.memptr]
    by_cases hd : ∀ j, j < A.n_rows → lim.arma_isnonfinite (A.mem (j * A.n_rows + j)) = false
    · rw [(is_approx_sym_worker_diag_spec lim (100 * lim.epsilon) A.n_rows A.mem).1 hd]
      simp only
      have hb : ¬ (diag_below_tol_upto (100 * lim.epsilon) A.n_rows (fun p => |A.mem p|)
          A.n_rows = true) := by
        rw [diag_below_tol_upto_spec]
        exact hsmall
      rw [if_neg hb, (uword_no_wrap lim.uword_bits A.n_rows h0 hN).1]
      by_cases hp : ∀ j i, j < i → i < A.n_rows →
          sym_ok (100 * lim.epsilon) A.n_rows A.mem j i
      · obtain ⟨st, hst⟩ :=
          (is_approx_sym_worker_pairs_spec (100 * lim.epsilon) A.n_rows A.mem).1 hp
        rw [hst]
        simp only [true_iff]
        exact ⟨hd, hex, hp⟩
      · have hbad : ∃ j i, j < i ∧ i < A.n_rows ∧
            ¬ sym_ok (100 * lim.epsilon) A.n_rows A.mem j i := by
          by_contra hcon
          apply hp
          intro j i h1 h2
          by_contra hb2
          exact hcon ⟨j, i, h1, h2, hb2⟩
        rw [(is_approx_sym_worker_pairs_spec (100 * lim.epsilon) A.n_rows A.mem).2 hbad]
        constructor
        · intro h
          cases h
        · rintro ⟨_, _, hp2⟩
          exact absurd hp2 hp
    · have hex2 : ∃ j, j < A.n_rows ∧
          ¬ (lim.arma_isnonfinite (A.mem (j * A.n_rows + j)) = false) := by
        by_contra hcon
        apply hd
        intro j hj
        by_contra hb
        exact hcon ⟨j, hj, hb⟩
      rw [(is_approx_sym_worker_diag_spec lim (100 * lim.epsilon) A.n_rows A.mem).2 hex2]
      constructor
      · intro h
        cases h
      · rintro ⟨hd2, _, _⟩
        exact absurd hd2 hd

end sym_helper

/-! ### sym_helper: the loops of the complex workers -/

namespace sym_helper

/-- The diagonal loop of the complex `guess_sympd_worker`: it runs to the end exactly
when the four diagonal tests pass on every diagonal entry, and then the flag and the
maximum are the tracked ones, over the real parts of the diagonal. -/
theorem guess_sympd_worker_cx_diag_spec {T : Type} [LinearOrderedRing T] (lim : Numeric T)
    (tol : T) (N : Nat) (A_mem : Nat → std.complex T) :
    ((∀ j, j < N → cx_diag_ok lim tol (A_mem (j * N + j))) →
      guess_sympd_worker_cx_diag lim tol N A_mem
        = some (N * N, diag_below_tol_upto tol N (fun p => (A_mem p).real) N,
            max_diag_upto N (fun p => (A_mem p).real) N)) ∧
    ((∃ j, j < N ∧ ¬ cx_diag_ok lim tol (A_mem (j * N + j))) →
      guess_sympd_worker_cx_diag lim tol N A_mem = none) := by
  unfold guess_sympd_worker_cx_diag
  have h := for_uword_option
    (fun j (st : Option (Nat × Bool × T)) =>
      match st with
      | none => none
      | some (A_col, diag_below_tol, max_diag) =>
        let A_jj := A_mem (A_col + j)
        let A_jj_r := A_jj.real
        let A_jj_i := A_jj.imag
        let A_jj_rabs := |A_jj_r|
        let A_jj_iabs := |A_jj_i|
        if A_jj_r ≤ 0 then none
        else if lim.arma_isnonfinite A_jj_r then none
        else if A_jj_iabs > tol then none
        else if A_jj_iabs > A_jj_rabs then none
        else
          let diag_below_tol := if A_jj_r ≥ tol then false else diag_below_tol
          let max_diag := if A_jj_r > max_diag then A_jj_r else max_diag
          some (A_col + N, diag_below_tol, max_diag))
    (fun k => (k * N, diag_below_tol_upto tol N (fun p => (A_mem p).real) k,
      max_diag_upto N (fun p => (A_mem p).real) k))
    (fun j => cx_diag_ok lim tol (A_mem (j * N + j)))
    N (fun _ => rfl)
    (by
      intro k _ hk
      obtain ⟨hpos, hfin, hi1, hi2⟩ := hk
      simp only [if_neg (not_le.mpr hpos), hfin, Bool.false_eq_true, if_false, if_neg hi1,
        if_neg hi2]
      rw [Nat.succ_mul]
      rfl)
    (by
      intro k _ hk
      have hk2 : ¬ cx_diag_ok lim tol (A_mem (k * N + k)) := hk
      unfold cx_diag_ok at hk2
      dsimp only
      split_ifs with c1 c2 c3 c4
      all_goals first
        | rfl
        | exact absurd ⟨not_le.mp c1, by simpa using c2, c3, c4⟩ hk2)
  simpa using h

/-- The inner loop of the complex `guess_sympd_worker` for column `j`, entered with
`A_col` at column `j`: it runs to the end exactly when every test passes at every
pair `(j, i)` with `j < i < N`. -/
theorem guess_sympd_worker_cx_inner_spec {T : Type} [LinearOrderedRing T] (lim : Numeric T)
    (tol square_max_diag : T) (N : Nat) (A_mem : Nat → std.complex T) (j : Nat) :
    ((∀ i, j < i → i < N → cx_pair_ok lim tol square_max_diag N A_mem j i) →
      ∃ st, guess_sympd_worker_cx_inner lim tol square_max_diag N (N + 1) A_mem (j * N) j
        = some st) ∧
    ((∃ i, j < i ∧ i < N ∧ ¬ cx_pair_ok lim tol square_max_diag N A_mem j i) →
      guess_sympd_worker_cx_inner lim tol square_max_diag N (N + 1) A_mem (j * N) j = none) := by
  unfold guess_sympd_worker_cx_inner for_uword_from
  have h := for_uword_option
    (fun k (st : Option (Nat × Nat)) =>
      match st with
      | none => none
      | some (A_ji_ptr, A_ii_ptr) =>
        let A_ij := A_mem (j * N + (j + 1 + k))
        let A_ij_real := A_ij.real
        let A_ij_imag := A_ij.imag
        let square_A_ij_abs := (A_ij_real * A_ij_real) + (A_ij_imag * A_ij_imag)
        if lim.arma_isnonfinite square_A_ij_abs then none
        else if square_A_ij_abs ≥ square_max_diag then none
        else
          let A_ij_real_abs := |A_ij_real|
          let A_ij_imag_abs := |A_ij_imag|
          let A_ji := A_mem A_ji_ptr
          let A_ji_real := A_ji.real
          let A_ji_imag := A_ji.imag
          let A_ji_real_abs := |A_ji_real|
          let A_ji_imag_abs := |A_ji_imag|
          let A_real_delta := |A_ij_real - A_ji_real|
          let A_real_abs_max := max A_ij_real_abs A_ji_real_abs
          if (A_real_delta > tol) ∧ (A_real_delta > (A_real_abs_max * tol)) then none
          else
            let A_imag_delta := |A_ij_imag + A_ji_imag|
            let A_imag_abs_max := max A_ij_imag_abs A_ji_imag_abs
            if (A_imag_delta > tol) ∧ (A_imag_delta > (A_imag_abs_max * tol)) then none
            else
              let A_ii_real := (A_mem A_ii_ptr).real
              if (A_ij_real_abs + A_ij_real_abs) ≥ (A_ii_real + (A_mem (j * N + j)).real)
              then none
              else some (A_ji_ptr + N, A_ii_ptr + (N + 1)))
    (fun k => (j + (j + 1 + k) * N, (j + 1 + k) + (j + 1 + k) * N))
    (fun k => cx_pair_ok lim tol square_max_diag N A_mem j (j + 1 + k))
    (N - (j + 1)) (fun _ => rfl)
    (by
      intro k _ hk
      have hk2 : cx_pair_ok lim tol square_max_diag N A_mem j (j + 1 + k) := hk
      unfold cx_pair_ok cx_sym_ok at hk2
      rw [Nat.add_comm (j + 1 + k) (j * N), Nat.add_comm j (j * N)] at hk2
      obtain ⟨h1, h2, ⟨h3, h4⟩, h5⟩ := hk2
      simp only [h1, Bool.false_eq_true, if_false, if_neg (not_le.mpr h2), if_neg h3,
        if_neg h4, if_neg (not_le.mpr h5)]
      have e1 : (j + 1 + (k + 1)) * N = (j + 1 + k) * N + N := by
        rw [← Nat.add_assoc, Nat.succ_mul]
      rw [e1]
      simp only [Option.some.injEq, Prod.mk.injEq]
      constructor <;> omega)
    (by
      intro k _ hk
      have hk2 : ¬ cx_pair_ok lim tol square_max_diag N A_mem j (j + 1 + k) := hk
      unfold cx_pair_ok cx_sym_ok at hk2
      rw [Nat.add_comm (j + 1 + k) (j * N), Nat.add_comm j (j * N)] at hk2
      dsimp only
      split_ifs with c1 c2 c3 c4 c5
      all_goals first
        | rfl
        | exact absurd ⟨by simpa using c1, not_le.mp c2, ⟨c3, c4⟩, not_le.mp c5⟩ hk2)
  obtain ⟨hall, hex⟩ := h
  constructor
  · intro hp
    exact ⟨_, hall (fun k hk => hp (j + 1 + k) (by omega) (by omega))⟩
  · rintro ⟨i, hji, hiN, hbad⟩
    exact hex ⟨i - (j + 1), by omega, by
      have e : j + 1 + (i - (j + 1)) = i := by omega
      show ¬ cx_pair_ok lim tol square_max_diag N A_mem j (j + 1 + (i - (j + 1)))
      rw [e]
      exact hbad⟩

/-- The pair loop of the complex `guess_sympd_worker` over the columns `j < N - 1`:
it runs to the end exactly when every test passes at every pair `j < i < N`. -/
theorem guess_sympd_worker_cx_pairs_spec {T : Type} [LinearOrderedRing T] (lim : Numeric T)
    (tol square_max_diag : T) (N : Nat) (A_mem : Nat → std.complex T) :
    ((∀ j i, j < i → i < N → cx_pair_ok lim tol square_max_diag N A_mem j i) →
      ∃ st, guess_sympd_worker_cx_pairs lim tol square_max_diag N (N - 1) (N + 1) A_mem
        = some st) ∧
    ((∃ j i, j < i ∧ i < N ∧ ¬ cx_pair_ok lim tol square_max_diag N A_mem j i) →
      guess_sympd_worker_cx_pairs lim tol square_max_diag N (N - 1) (N + 1) A_mem = none) := by
  unfold guess_sympd_worker_cx_pairs
  have h := for_uword_option
    (fun j (st : Option Nat) =>
      match st with
      | none => none
      | some A_col =>
        match guess_sympd_worker_cx_inner lim tol square_max_diag N (N + 1) A_mem A_col j with
        | none => none
        | some _ => some (A_col + N))
    (fun j => j * N)
    (fun j => ∀ i, j < i → i < N → cx_pair_ok lim tol square_max_diag N A_mem j i)
    (N - 1) (fun _ => rfl)
    (by
      intro j _ hj
      obtain ⟨st, hst⟩ :=
        (guess_sympd_worker_cx_inner_spec lim tol square_max_diag N A_mem j).1 hj
      simp only [hst]
      rw [Nat.succ_mul])
    (by
      intro j _ hj
      have hex : ∃ i, j < i ∧ i < N ∧ ¬ cx_pair_ok lim tol square_max_diag N A_mem j i := by
        by_contra hcon
        apply hj
        intro i h1 h2
        by_contra hb
        exact hcon ⟨i, h1, h2, hb⟩
      simp only [(guess_sympd_worker_cx_inner_spec lim tol square_max_diag N A_mem j).2 hex])
  simp only [Nat.zero_mul] at h
  obtain ⟨hall, hex⟩ := h
  constructor
  · intro hp
    exact ⟨_, hall (fun j _ i h1 h2 => hp j i h1 h2)⟩
  · rintro ⟨j, i, hji, hiN, hbad⟩
    exact hex ⟨j, by omega, fun hj => hbad (hj i hji hiN)⟩

end sym_helper

namespace sym_helper

/-- What the complex `guess_sympd_worker` decides on an `N x N` buffer: it returns
true exactly when the four diagonal tests pass on every diagonal entry, the real part
of some diagonal entry reaches the tolerance `100 * epsilon`, the square of the
largest real part on the diagonal is finite, and every pair test passes at every
pair `j < i < N`. -/
theorem guess_sympd_worker_cx_true_iff {T : Type} [LinearOrderedRing T] (lim : Numeric T)
    (A : Mat (std.complex T)) (hN : A.n_rows + 1 < 2 ^ lim.uword_bits) :
    guess_sympd_worker_cx lim A = true ↔
      (∀ j, j < A.n_rows → cx_diag_ok lim (100 * lim.epsilon) (A.mem (j * A.n_rows + j))) ∧
      (∃ j, j < A.n_rows ∧ 100 * lim.epsilon ≤ (A.mem (j * A.n_rows + j)).real) ∧
      lim.arma_isnonfinite
        (max_diag_upto A.n_rows (fun p => (A.mem p).real) A.n_rows
          * max_diag_upto A.n_rows (fun p => (A.mem p).real) A.n_rows) = false ∧
      (∀ j i, j < i → i < A.n_rows →
        cx_pair_ok lim (100 * lim.epsilon)
          (max_diag_upto A.n_rows (fun p => (A.mem p).real) A.n_rows
            * max_diag_upto A.n_rows (fun p => (A.mem p).real) A.n_rows)
          A.n_rows A.mem j i) := by
  unfold guess_sympd_worker_cx
  simp only [Mat.memptr]
  by_cases hd : ∀ j, j < A.n_rows →
      cx_diag_ok lim (100 * lim.epsilon) (A.mem (j * A.n_rows + j))
  · rw [(guess_sympd_worker_cx_diag_spec lim (100 * lim.epsilon) A.n_rows A.mem).1 hd]
    simp only
    have hflag := diag_below_tol_upto_spec (100 * lim.epsilon) A.n_rows
      (fun p => (A.mem p).real) A.n_rows
    by_cases hb : diag_below_tol_upto (100 * lim.epsilon) A.n_rows
        (fun p => (A.mem p).real) A.n_rows = true
    · rw [if_pos hb]
      constructor
      · intro h
        cases h
      · rintro ⟨_, ⟨j, hj, hge⟩, _⟩
        exact absurd (hflag.mp hb j hj) (not_lt.mpr hge)
    · rw [if_neg hb]
      have hex : ∃ j, j < A.n_rows ∧ 100 * lim.epsilon ≤ (A.mem (j * A.n_rows + j)).real := by
        by_contra hcon
        apply hb
        rw [hflag]
        intro j hj
        by_contra hlt
        exact hcon ⟨j, hj, not_lt.mp hlt⟩
      have h0 : 0 < A.n_rows := by
        obtain ⟨j, hj, _⟩ := hex
        omega
      obtain ⟨e1, e2⟩ := uword_no_wrap lim.uword_bits A.n_rows h0 hN
      rw [e1, e2]
      cases hsq : lim.arma_isnonfinite
          (max_diag_upto A.n_rows (fun p => (A.mem p).real) A.n_rows
            * max_diag_upto A.n_rows (fun p => (A.mem p).real) A.n_rows)
      · simp only [Bool.false_eq_true, if_false]
        by_cases hp : ∀ j i, j < i → i < A.n_rows →
            cx_pair_ok lim (100 * lim.epsilon)
              (max_diag_upto A.n_rows (fun p => (A.mem p).real) A.n_rows
                * max_diag_upto A.n_rows (fun p => (A.mem p).real) A.n_rows)
              A.n_rows A.mem j i
        · obtain ⟨st, hst⟩ := (guess_sympd_worker_cx_pairs_spec lim (100 * lim.epsilon)
            (max_diag_upto A.n_rows (fun p => (A.mem p).real) A.n_rows
              * max_diag_upto A.n_rows (fun p => (A.mem p).real) A.n_rows)
            A.n_rows A.mem).1 hp
          rw [hst]
          simp only [true_iff]
          exact ⟨hd, hex, trivial, hp⟩
        · have hbad : ∃ j i, j < i ∧ i < A.n_rows ∧ ¬ cx_pair_ok lim (100 * lim.epsilon)
              (max_diag_upto A.n_rows (fun p => (A.mem p).real) A.n_rows
                * max_diag_upto A.n_rows (fun p => (A.mem p).real) A.n_rows)
              A.n_rows A.mem j i := by
            by_contra hcon
            apply hp
            intro j i h1 h2
            by_contra hb2
            exact hcon ⟨j, i, h1, h2, hb2⟩
          rw [(guess_sympd_worker_cx_pairs_spec lim (100 * lim.epsilon)
            (max_diag_upto A.n_rows (fun p => (A.mem p).real) A.n_rows
              * max_diag_upto A.n_rows (fun p => (A.mem p).real) A.n_rows)
            A.n_rows A.mem).2 hbad]
          constructor
          · intro h
            cases h
          · rintro ⟨_, _, _, hp2⟩
            exact absurd hp2 hp
      · simp only [if_true]
        constructor
        · intro h
          cases h
        · rintro ⟨_, _, hf, _⟩
          cases hf
  · have hex : ∃ j, j < A.n_rows ∧
        ¬ cx_diag_ok lim (100 * lim.epsilon) (A.mem (j * A.n_rows + j)) := by
      by_contra hcon
      apply hd
      intro j hj
      by_contra hb
      exact hcon ⟨j, hj, hb⟩
    rw [(guess_sympd_worker_cx_diag_spec lim (100 * lim.epsilon) A.n_rows A.mem).2 hex]
    constructor
    · intro h
      cases h
    · rintro ⟨hd2, _, _, _⟩
      exact absurd hd2 hd

/-- The diagonal loop of the complex `is_approx_sym_worker`: it runs to the end
exactly when the three diagonal tests pass on every diagonal entry, and then the
flag is the tracked one, over the absolute values of the real parts. -/
theorem is_approx_sym_worker_cx_diag_spec {T : Type} [LinearOrderedRing T] (lim : Numeric T)
    (tol : T) (N : Nat) (A_mem : Nat → std.complex T) :
    ((∀ j, j < N → cx_approx_diag_ok lim tol (A_mem (j * N + j))) →
      is_approx_sym_worker_cx_diag lim tol N A_mem
        = some (N * N, diag_below_tol_upto tol N (fun p => |(A_mem p).real|) N)) ∧
    ((∃ j, j < N ∧ ¬ cx_approx_diag_ok lim tol (A_mem (j * N + j))) →
      is_approx_sym_worker_cx_diag lim tol N A_mem = none) := by
  unfold is_approx_sym_worker_cx_diag
  have h := for_uword_option
    (fun j (st : Option (Nat × Bool)) =>
      match st with
      | none => none
      | some (A_col, diag_below_tol) =>
        let A_jj := A_mem (A_col + j)
        let A_jj_r := A_jj.real
        let A_jj_i := A_jj.imag
        let A_jj_rabs := |A_jj_r|
        let A_jj_iabs := |A_jj_i|
        if A_jj_iabs > tol then none
        else if A_jj_iabs > A_jj_rabs then none
        else if lim.arma_isnonfinite A_jj_r then none
        else
          let diag_below_tol := if A_jj_rabs ≥ tol then false else diag_below_tol
          some (A_col + N, diag_below_tol))
    (fun k => (k * N, diag_below_tol_upto tol N (fun p => |(A_mem p).real|) k))
    (fun j => cx_approx_diag_ok lim tol (A_mem (j * N + j)))
    N (fun _ => rfl)
    (by
      intro k _ hk
      obtain ⟨hi1, hi2, hfin⟩ := hk
      simp only [if_neg hi1, if_neg hi2, hfin, Bool.false_eq_true, if_false]
      rw [Nat.succ_mul]
      rfl)
    (by
      intro k _ hk
      have hk2 : ¬ cx_approx_diag_ok lim tol (A_mem (k * N + k)) := hk
      unfold cx_approx_diag_ok at hk2
      dsimp only
      split_ifs with c1 c2 c3
      all_goals first
        | rfl
        | exact absurd ⟨c1, c2, by simpa using c3⟩ hk2)
  simpa using h

/-- The inner loop of the complex `is_approx_sym_worker` for column `j`, entered
with `A_col` at column `j`: it runs to the end exactly when the two symmetry tests
pass at every pair `(j, i)` with `j < i < N`. -/
theorem is_approx_sym_worker_cx_inner_spec {T : Type} [LinearOrderedRing T] (tol : T)
    (N : Nat) (A_mem : Nat → std.complex T) (j : Nat) :
    ((∀ i, j < i → i < N → cx_sym_ok tol N A_mem j i) →
      ∃ st, is_approx_sym_worker_cx_inner tol N A_mem (j * N) j = some st) ∧
    ((∃ i, j < i ∧ i < N ∧ ¬ cx_sym_ok tol N A_mem j i) →
      is_approx_sym_worker_cx_inner tol N A_mem (j * N) j = none) := by
  unfold is_approx_sym_worker_cx_inner for_uword_from
  have h := for_uword_option
    (fun k (st : Option Nat) =>
      match st with
      | none => none
      | some A_ji_ptr =>
        let A_ij := A_mem (j * N + (j + 1 + k))
        let A_ij_real := A_ij.real
        let A_ij_imag := A_ij.imag
        let A_ij_real_abs := |A_ij_real|
        let A_ij_imag_abs := |A_ij_imag|
        let A_ji := A_mem A_ji_ptr
        let A_ji_real := A_ji.real
        let A_ji_imag := A_ji.imag
        let A_ji_real_abs := |A_ji_real|
        let A_ji_imag_abs := |A_ji_imag|
        let A_real_delta := |A_ij_real - A_ji_real|
        let A_real_abs_max := max A_ij_real_abs A_ji_real_abs
        if (A_real_delta > tol) ∧ (A_real_delta > (A_real_abs_max * tol)) then none
        else
          let A_imag_delta := |A_ij_imag + A_ji_imag|
          let A_imag_abs_max := max A_ij_imag_abs A_ji_imag_abs
          if (A_imag_delta > tol) ∧ (A_imag_delta > (A_imag_abs_max * tol)) then none
          else some (A_ji_ptr + N))
    (fun k => j + (j + 1 + k) * N)
    (fun k => cx_sym_ok tol N A_mem j (j + 1 + k))
    (N - (j + 1)) (fun _ => rfl)
    (by
      intro k _ hk
      have hk2 : cx_sym_ok tol N A_mem j (j + 1 + k) := hk
      unfold cx_sym_ok at hk2
      rw [Nat.add_comm (j + 1 + k) (j * N)] at hk2
      obtain ⟨h3, h4⟩ := hk2
      simp only [if_neg h3, if_neg h4]
      have e1 : (j + 1 + (k + 1)) * N = (j + 1 + k) * N + N := by
        rw [← Nat.add_assoc, Nat.succ_mul]
      rw [e1, Nat.add_assoc])
    (by
      intro k _ hk
      have hk2 : ¬ cx_sym_ok tol N A_mem j (j + 1 + k) := hk
      unfold cx_sym_ok at hk2
      rw [Nat.add_comm (j + 1 + k) (j * N)] at hk2
      dsimp only
      split_ifs with c3 c4
      all_goals first
        | rfl
        | exact absurd ⟨c3, c4⟩ hk2)
  obtain ⟨hall, hex⟩ := h
  constructor
  · intro hp
    exact ⟨_, hall (fun k hk => hp (j + 1 + k) (by omega) (by omega))⟩
  · rintro ⟨i, hji, hiN, hbad⟩
    exact hex ⟨i - (j + 1), by omega, by
      have e : j + 1 + (i - (j + 1)) = i := by omega
      show ¬ cx_sym_ok tol N A_mem j (j + 1 + (i - (j + 1)))
      rw [e]
      exact hbad⟩

/-- The pair loop of the complex `is_approx_sym_worker` over the columns
`j < N - 1`: it runs to the end exactly when the two symmetry tests pass at every
pair `j < i < N`. -/
theorem is_approx_sym_worker_cx_pairs_spec {T : Type} [LinearOrderedRing T] (tol : T)
    (N : Nat) (A_mem : Nat → std.complex T) :
    ((∀ j i, j < i → i < N → cx_sym_ok tol N A_mem j i) →
      ∃ st, is_approx_sym_worker_cx_pairs tol N (N - 1) A_mem = some st) ∧
    ((∃ j i, j < i ∧ i < N ∧ ¬ cx_sym_ok tol N A_mem j i) →
      is_approx_sym_worker_cx_pairs tol N (N - 1) A_mem = none) := by
  unfold is_approx_sym_worker_cx_pairs
  have h := for_uword_option
    (fun j (st : Option Nat) =>
      match st with
      | none => none
      | some A_col =>
        match is_approx_sym_worker_cx_inner tol N A_mem A_col j with
        | none => none
        | some _ => some (A_col + N))
    (fun j => j * N)
    (fun j => ∀ i, j < i → i < N → cx_sym_ok tol N A_mem j i)
    (N - 1) (fun _ => rfl)
    (by
      intro j _ hj
      obtain ⟨st, hst⟩ := (is_approx_sym_worker_cx_inner_spec tol N A_mem j).1 hj
      simp only [hst]
      rw [Nat.succ_mul])
    (by
      intro j _ hj
      have hex : ∃ i, j < i ∧ i < N ∧ ¬ cx_sym_ok tol N A_mem j i := by
        by_contra hcon
        apply hj
        intro i h1 h2
        by_contra hb
        exact hcon ⟨i, h1, h2, hb⟩
      simp only [(is_approx_sym_worker_cx_inner_spec tol N A_mem j).2 hex])
  simp only [Nat.zero_mul] at h
  obtain ⟨hall, hex⟩ := h
  constructor
  · intro hp
    exact ⟨_, hall (fun j _ i h1 h2 => hp j i h1 h2)⟩
  · rintro ⟨j, i, hji, hiN, hbad⟩
    exact hex ⟨j, by omega, fun hj => hbad (hj i hji hiN)⟩

/-- When the real part of every diagonal entry is below the tolerance in absolute
value, the complex `is_approx_sym_worker` returns false, whatever the other entries
are. -/
theorem is_approx_sym_worker_cx_small_diag {T : Type} [LinearOrderedRing T] (lim : Numeric T)
    (A : Mat (std.complex T))
    (h : ∀ j, j < A.n_rows → |(A.mem (j * A.n_rows + j)).real| < 100 * lim.epsilon) :
    is_approx_sym_worker_cx lim A = false := by
  unfold is_approx_sym_worker_cx
  simp only [Mat.memptr]
  by_cases hd : ∀ j, j < A.n_rows →
      cx_approx_diag_ok lim (100 * lim.epsilon) (A.mem (j * A.n_rows + j))
  · rw [(is_approx_sym_worker_cx_diag_spec lim (100 * lim.epsilon) A.n_rows A.mem).1 hd]
    simp only
    have hb : diag_below_tol_upto (100 * lim.epsilon) A.n_rows (fun p => |(A.mem p).real|)
        A.n_rows = true :=
      (diag_below_tol_upto_spec (100 * lim.epsilon) A.n_rows (fun p => |(A.mem p).real|)
        A.n_rows).mpr h
    rw [if_pos hb]
  · have hex : ∃ j, j < A.n_rows ∧
        ¬ cx_approx_diag_ok lim (100 * lim.epsilon) (A.mem (j * A.n_rows + j)) := by
      by_contra hcon
      apply hd
      intro j hj
      by_contra hb
      exact hcon ⟨j, hj, hb⟩
    rw [(is_approx_sym_worker_cx_diag_spec lim (100 * lim.epsilon) A.n_rows A.mem).2 hex]

/-- What the complex `is_approx_sym_worker` decides on an `N x N` buffer: it returns
true exactly when the three diagonal tests pass on every diagonal entry, the real
part of some diagonal entry reaches the tolerance `100 * epsilon` in absolute value,
and the two symmetry tests pass at every pair `j < i < N`. -/
theorem is_approx_sym_worker_cx_true_iff {T : Type} [LinearOrderedRing T] (lim : Numeric T)
    (A : Mat (std.complex T)) (hN : A.n_rows + 1 < 2 ^ lim.uword_bits) :
    is_approx_sym_worker_cx lim A = true ↔
      (∀ j, j < A.n_rows →
        cx_approx_diag_ok lim (100 * lim.epsilon) (A.mem (j * A.n_rows + j))) ∧
      (∃ j, j < A.n_rows ∧ 100 * lim.epsilon ≤ |(A.mem (j * A.n_rows + j)).real|) ∧
      (∀ j i, j < i → i < A.n_rows → cx_sym_ok (100 * lim.epsilon) A.n_rows A.mem j i) := by
  by_cases hsmall : ∀ j, j < A.n_rows →
      |(A.mem (j * A.n_rows + j)).real| < 100 * lim.epsilon
  · rw [is_approx_sym_worker_cx_small_diag lim A hsmall]
    constructor
    · intro h
      cases h
    · rintro ⟨_, ⟨j, hj, hge⟩, _⟩
      exact absurd (hsmall j hj) (not_lt.mpr hge)
  · have hex : ∃ j, j < A.n_rows ∧ 100 * lim.epsilon ≤ |(A.mem (j * A.n_rows + j)).real| := by
      by_contra hcon
      apply hsmall
      intro j hj
      by_contra hlt
      exact hcon ⟨j, hj, not_lt.mp hlt⟩
    have h0 : 0 < A.n_rows := by
      obtain ⟨j, hj, _⟩ := hex
      omega
    unfold is_approx_sym_worker_cx
    simp only [Mat.memptr]
    by_cases hd : ∀ j, j < A.n_rows →
        cx_approx_diag_ok lim (100 * lim.epsilon) (A.mem (j * A.n_rows + j))
    · rw [(is_approx_sym_worker_cx_diag_spec lim (100 * lim.epsilon) A.n_rows A.mem).1 hd]
      simp only
      have hb : ¬ (diag_below_tol_upto (100 * lim.epsilon) A.n_rows
          (fun p => |(A.mem p).real|) A.n_rows = true) := by
        rw [diag_below_tol_upto_spec]
        exact hsmall
      rw [if_neg hb, (uword_no_wrap lim.uword_bits A.n_rows h0 hN).1]
      by_cases hp : ∀ j i, j < i → i < A.n_rows →
          cx_sym_ok (100 * lim.epsilon) A.n_rows A.mem j i
      · obtain ⟨st, hst⟩ :=
          (is_approx_sym_worker_cx_pairs_spec (100 * lim.epsilon) A.n_rows A.mem).1 hp
        rw [hst]
        simp only [true_iff]
        exact ⟨hd, hex, hp⟩
      · have hbad : ∃ j i, j < i ∧ i < A.n_rows ∧
            ¬ cx_sym_ok (100 * lim.epsilon) A.n_rows A.mem j i := by
          by_contra hcon
          apply hp
          intro j i h1 h2
          by_contra hb2
          exact hcon ⟨j, i, h1, h2, hb2⟩
        rw [(is_approx_sym_worker_cx_pairs_spec (100 * lim.epsilon) A.n_rows A.mem).2 hbad]
        constructor
        · intro h
          cases h
        · rintro ⟨_, _, hp2⟩
          exact absurd hp2 hp
    · have hex2 : ∃ j, j < A.n_rows ∧
          ¬ cx_approx_diag_ok lim (100 * lim.epsilon) (A.mem (j * A.n_rows + j)) := by
        by_contra hcon
        apply hd
        intro j hj
        by_contra hb
        exact hcon ⟨j, hj, hb⟩
      rw [(is_approx_sym_worker_cx_diag_spec lim (100 * lim.epsilon) A.n_rows A.mem).2 hex2]
      constructor
      · intro h
        cases h
      · rintro ⟨hd2, _, _⟩
        exact absurd hd2 hd

end sym_helper

/-! ### sym_helper: guess_sympd against is_approx_sym -/

/-- A true verdict of `guess_sympd(A, min_n_rows)` means a square matrix of at least
`min_n_rows` rows on which the worker said yes. -/
theorem guess_sympd_min_true_imp {eT : Type} (worker : Mat eT → Bool) (A : Mat eT)
    (min_n_rows : Nat) (h : sym_helper.guess_sympd_min worker A min_n_rows = true) :
    A.n_rows = A.n_cols ∧ min_n_rows ≤ A.n_rows ∧ worker A = true := by
  unfold sym_helper.guess_sympd_min at h
  by_cases hc : ((A.n_rows != A.n_cols) || decide (A.n_rows < min_n_rows)) = true
  · rw [if_pos hc] at h
    cases h
  · rw [if_neg hc] at h
    simp only [Bool.or_eq_true, bne_iff_ne, ne_eq, decide_eq_true_eq, not_or, not_not,
      not_lt] at hc
    exact ⟨hc.1, hc.2, h⟩

/-- On a square matrix with at least `min_n_rows` rows, `is_approx_sym(A, min_n_rows)`
hands the verdict to its worker. -/
theorem is_approx_sym_min_eq_worker {eT : Type} (worker : Mat eT → Bool) (A : Mat eT)
    (min_n_rows : Nat) (hsq : A.n_rows = A.n_cols) (hm : min_n_rows ≤ A.n_rows) :
    sym_helper.is_approx_sym_min worker A min_n_rows = worker A := by
  unfold sym_helper.is_approx_sym_min
  have hc : ¬ (((A.n_rows != A.n_cols) || decide (A.n_rows < min_n_rows)) = true) := by
    simp only [Bool.or_eq_true, bne_iff_ne, ne_eq, decide_eq_true_eq, not_or, not_not, not_lt]
    exact ⟨hsq, hm⟩
  rw [if_neg hc]

/-- When the worker says no, so does `is_approx_sym(A, min_n_rows)`. -/
theorem is_approx_sym_min_false {eT : Type} (worker : Mat eT → Bool) (A : Mat eT)
    (min_n_rows : Nat) (h : worker A = false) :
    sym_helper.is_approx_sym_min worker A min_n_rows = false := by
  unfold sym_helper.is_approx_sym_min
  by_cases hc : ((A.n_rows != A.n_cols) || decide (A.n_rows < min_n_rows)) = true
  · rw [if_pos hc]
  · rw [if_neg hc]
    exact h

/-- A true verdict of the real `guess_sympd_worker` implies a true verdict of the
real `is_approx_sym_worker`. -/
theorem guess_worker_imp_approx_worker {eT : Type} [LinearOrderedRing eT] (lim : Numeric eT)
    (A : Mat eT) (hN : A.n_rows + 1 < 2 ^ lim.uword_bits)
    (h : sym_helper.guess_sympd_worker lim A = true) :
    sym_helper.is_approx_sym_worker lim A = true := by
  rw [sym_helper.guess_sympd_worker_true_iff lim A hN] at h
  obtain ⟨hdiag, ⟨j, hj, hge⟩, hpairs⟩ := h
  rw [sym_helper.is_approx_sym_worker_true_iff lim A hN]
  exact ⟨fun k hk => (hdiag k hk).2, ⟨j, hj, le_trans hge (le_abs_self _)⟩,
    fun k i h1 h2 => (hpairs k i h1 h2).2.1⟩

/-- A true verdict of the complex `guess_sympd_worker` implies a true verdict of the
complex `is_approx_sym_worker`. -/
theorem guess_worker_cx_imp_approx_worker_cx {T : Type} [LinearOrderedRing T]
    (lim : Numeric T) (A : Mat (std.complex T)) (hN : A.n_rows + 1 < 2 ^ lim.uword_bits)
    (h : sym_helper.guess_sympd_worker_cx lim A = true) :
    sym_helper.is_approx_sym_worker_cx lim A = true := by
  rw [sym_helper.guess_sympd_worker_cx_true_iff lim A hN] at h
  obtain ⟨hdiag, ⟨j, hj, hge⟩, _, hpairs⟩ := h
  rw [sym_helper.is_approx_sym_worker_cx_true_iff lim A hN]
  exact ⟨fun k hk => ⟨(hdiag k hk).2.2.1, (hdiag k hk).2.2.2, (hdiag k hk).2.1⟩,
    ⟨j, hj, le_trans hge (le_abs_self _)⟩,
    fun k i h1 h2 => (hpairs k i h1 h2).2.2.1⟩

/-- C29: for every matrix `A`, of a real element type or of a complex one, if
`sym_helper::guess_sympd(A)` returns true then `sym_helper::is_approx_sym(A)`
returns true; the same holds for the two overloads that take `min_n_rows`. The
size is such that `N - 1` and `N + 1` do not wrap around. -/
theorem guess_sympd_imp_is_approx_sym {T : Type} [LinearOrderedRing T] (lim : Numeric T)
    (A : Mat T) (B : Mat (std.complex T)) (min_n_rows : Nat)
    (hA : A.n_rows + 1 < 2 ^ lim.uword_bits) (hB : B.n_rows + 1 < 2 ^ lim.uword_bits) :
    (sym_helper.guess_sympd (sym_helper.guess_sympd_worker lim) A = true →
      sym_helper.is_approx_sym (sym_helper.is_approx_sym_worker lim) A = true) ∧
    (sym_helper.guess_sympd (sym_helper.guess_sympd_worker_cx lim) B = true →
      sym_helper.is_approx_sym (sym_helper.is_approx_sym_worker_cx lim) B = true) ∧
    (sym_helper.guess_sympd_min (sym_helper.guess_sympd_worker lim) A min_n_rows = true →
      sym_helper.is_approx_sym_min (sym_helper.is_approx_sym_worker lim) A min_n_rows = true) ∧
    (sym_helper.guess_sympd_min (sym_helper.guess_sympd_worker_cx lim) B min_n_rows = true →
      sym_helper.is_approx_sym_min (sym_helper.is_approx_sym_worker_cx lim) B min_n_rows
        = true) := by
  have real_case : ∀ m, sym_helper.guess_sympd_min (sym_helper.guess_sympd_worker lim) A m = true →
      sym_helper.is_approx_sym_min (sym_helper.is_approx_sym_worker lim) A m = true := by
    intro m h
    obtain ⟨hsq, hm, hw⟩ := guess_sympd_min_true_imp _ A m h
    rw [is_approx_sym_min_eq_worker _ A m hsq hm]
    exact guess_worker_imp_approx_worker lim A hA hw
  have cx_case : ∀ m,
      sym_helper.guess_sympd_min (sym_helper.guess_sympd_worker_cx lim) B m = true →
      sym_helper.is_approx_sym_min (sym_helper.is_approx_sym_worker_cx lim) B m = true := by
    intro m h
    obtain ⟨hsq, hm, hw⟩ := guess_sympd_min_true_imp _ B m h
    rw [is_approx_sym_min_eq_worker _ B m hsq hm]
    exact guess_worker_cx_imp_approx_worker_cx lim B hB hw
  exact ⟨real_case 4, cx_case 4, real_case min_n_rows, cx_case min_n_rows⟩

/-- Witness for C29: on the 4 x 4 integer identity and on a 4 x 4 hermitian matrix of
Gaussian integers `guess_sympd` returns true, and so does `is_approx_sym`. -/
theorem guess_sympd_imp_is_approx_sym_witness :
    (int_mat 4 4 [1, 0, 0, 0, 0, 1, 0, 0, 0, 0, 1, 0, 0, 0, 0, 1]).n_rows + 1
      < 2 ^ int_numeric.uword_bits ∧
    int_cx_hermitian.n_rows + 1 < 2 ^ int_numeric.uword_bits ∧
    sym_helper.guess_sympd (sym_helper.guess_sympd_worker int_numeric)
      (int_mat 4 4 [1, 0, 0, 0, 0, 1, 0, 0, 0, 0, 1, 0, 0, 0, 0, 1]) = true ∧
    sym_helper.is_approx_sym (sym_helper.is_approx_sym_worker int_numeric)
      (int_mat 4 4 [1, 0, 0, 0, 0, 1, 0, 0, 0, 0, 1, 0, 0, 0, 0, 1]) = true ∧
    sym_helper.guess_sympd (sym_helper.guess_sympd_worker_cx int_numeric) int_cx_hermitian
      = true ∧
    sym_helper.is_approx_sym (sym_helper.is_approx_sym_worker_cx int_numeric) int_cx_hermitian
      = true :=
  ⟨by decide, by decide, by decide,
   (guess_sympd_imp_is_approx_sym int_numeric
      (int_mat 4 4 [1, 0, 0, 0, 0, 1, 0, 0, 0, 0, 1, 0, 0, 0, 0, 1]) int_cx_hermitian 4
      (by decide) (by decide)).1 (by decide),
   by decide,
   (guess_sympd_imp_is_approx_sym int_numeric
      (int_mat 4 4 [1, 0, 0, 0, 0, 1, 0, 0, 0, 0, 1, 0, 0, 0, 0, 1]) int_cx_hermitian 4
      (by decide) (by decide)).2.1 (by decide)⟩

/-- C30: for every matrix whose diagonal entries all have absolute value below
`tol = 100 * epsilon`, square of size at least 4 included, the real
`is_approx_sym_worker` returns false and so `sym_helper::is_approx_sym` returns
false, whatever the other entries are, exact symmetry included; the same holds for
a complex matrix when the real parts on the diagonal are below `tol` in absolute
value. -/
theorem is_approx_sym_small_diag {T : Type} [LinearOrderedRing T] (lim : Numeric T)
    (A : Mat T) (B : Mat (std.complex T)) (min_n_rows : Nat) :
    ((∀ j, j < A.n_rows → |A.at_ j j| < 100 * lim.epsilon) →
      sym_helper.is_approx_sym_worker lim A = false ∧
      sym_helper.is_approx_sym (sym_helper.is_approx_sym_worker lim) A = false ∧
      sym_helper.is_approx_sym_min (sym_helper.is_approx_sym_worker lim) A min_n_rows
        = false) ∧
    ((∀ j, j < B.n_rows → |(B.at_ j j).real| < 100 * lim.epsilon) →
      sym_helper.is_approx_sym_worker_cx lim B = false ∧
      sym_helper.is_approx_sym (sym_helper.is_approx_sym_worker_cx lim) B = false ∧
      sym_helper.is_approx_sym_min (sym_helper.is_approx_sym_worker_cx lim) B min_n_rows
        = false) := by
  constructor
  · intro h
    have hw : sym_helper.is_approx_sym_worker lim A = false := by
      apply sym_helper.is_approx_sym_worker_small_diag
      intro j hj
      rw [Nat.add_comm]
      exact h j hj
    exact ⟨hw, is_approx_sym_min_false _ A 4 hw, is_approx_sym_min_false _ A min_n_rows hw⟩
  · intro h
    have hw : sym_helper.is_approx_sym_worker_cx lim B = false := by
      apply sym_helper.is_approx_sym_worker_cx_small_diag
      intro j hj
      rw [Nat.add_comm]
      exact h j hj
    exact ⟨hw, is_approx_sym_min_false _ B 4 hw, is_approx_sym_min_false _ B min_n_rows hw⟩

/-- Witness for C30: the 4 x 4 rational matrix with zero diagonal and 1 elsewhere is
square and exactly symmetric, and `is_approx_sym` returns false on it; the same for
a hermitian complex matrix with zero diagonal. -/
theorem is_approx_sym_small_diag_witness :
    is_symmetric rat_zero_diag ∧ 4 ≤ rat_zero_diag.n_rows ∧
    (∀ j, j < rat_zero_diag.n_rows → |rat_zero_diag.at_ j j| < 100 * rat_numeric.epsilon) ∧
    sym_helper.is_approx_sym (sym_helper.is_approx_sym_worker rat_numeric) rat_zero_diag
      = false ∧
    (∀ j, j < rat_cx_zero_diag.n_rows →
      |(rat_cx_zero_diag.at_ j j).real| < 100 * rat_numeric.epsilon) ∧
    sym_helper.is_approx_sym (sym_helper.is_approx_sym_worker_cx rat_numeric) rat_cx_zero_diag
      = false :=
  have hsym : is_symmetric rat_zero_diag :=
    ⟨rfl, by
      intro i j hi hj
      have hi4 : i < 4 := hi
      have hj4 : j < 4 := hj
      interval_cases i <;> interval_cases j <;> simp [Mat.at_, rat_zero_diag, rat_mat]⟩
  have hA : ∀ j, j < rat_zero_diag.n_rows →
      |rat_zero_diag.at_ j j| < 100 * rat_numeric.epsilon := by
    intro j hj
    have hj4 : j < 4 := hj
    interval_cases j <;> norm_num [Mat.at_, rat_zero_diag, rat_mat, rat_numeric]
  have hB : ∀ j, j < rat_cx_zero_diag.n_rows →
      |(rat_cx_zero_diag.at_ j j).real| < 100 * rat_numeric.epsilon := by
    intro j hj
    have hj4 : j < 4 := hj
    interval_cases j <;> norm_num [Mat.at_, rat_cx_zero_diag, rat_numeric]
  ⟨hsym, by decide, hA,
   ((is_approx_sym_small_diag rat_numeric rat_zero_diag rat_cx_zero_diag 4).1 hA).2.1,
   hB,
   ((is_approx_sym_small_diag rat_numeric rat_zero_diag rat_cx_zero_diag 4).2 hB).2.1⟩

/-! ### sym_helper: what the real worker reads -/

/-- Offsets of the elements of an `N x N` column-major buffer are below `N * N`. -/
theorem square_index_lt (N a b : Nat) (ha : a < N) (hb : b < N) : a + b * N < N * N := by
  have h1 : a + b * N < (b + 1) * N := by
    rw [Nat.succ_mul]
    omega
  exact lt_of_lt_of_le h1 (Nat.mul_le_mul_right N hb)

namespace sym_helper

/-- The inner loop of the real worker runs `guess_sympd_worker_inner_body` from the
pointers `&A_mem[j + jp1*N]` and `&A_mem[jp1 + jp1*N]`. -/
theorem guess_sympd_worker_inner_unfold {eT : Type} [LinearOrderedRing eT] (tol max_diag : eT)
    (N Np1 : Nat) (A_mem : Nat → eT) (A_col j : Nat) :
    guess_sympd_worker_inner tol max_diag N Np1 A_mem A_col j
      = for_uword_from (j + 1) N (guess_sympd_worker_inner_body tol max_diag N Np1 A_mem A_col j)
          (some (j + (j + 1) * N, (j + 1) + (j + 1) * N)) := by
  rfl

/-- One iteration of the inner loop of the real worker at the pair `(j, i)`, with
`A_col` at column `j` and the pointers at `A(j,i)` and `A(i,i)`: it goes on, with
the pointers at `A(j,i+1)` and `A(i+1,i+1)`, exactly when the three tests pass on
`A(i,j)`, `A(j,i)`, `A(i,i)` and `A(j,j)`. -/
theorem guess_sympd_worker_inner_body_step {eT : Type} [LinearOrderedRing eT]
    (tol max_diag : eT) (N : Nat) (A_mem : Nat → eT) (j i : Nat) :
    (pair_ok tol max_diag N A_mem j i →
      guess_sympd_worker_inner_body tol max_diag N (N + 1) A_mem (j * N) j i
          (some (j + i * N, i + i * N))
        = some (j + (i + 1) * N, (i + 1) + (i + 1) * N)) ∧
    (¬ pair_ok tol max_diag N A_mem j i →
      guess_sympd_worker_inner_body tol max_diag N (N + 1) A_mem (j * N) j i
          (some (j + i * N, i + i * N)) = none) := by
  unfold guess_sympd_worker_inner_body pair_ok
  rw [Nat.add_comm i (j * N), Nat.add_comm j (j * N)]
  dsimp only
  constructor
  · rintro ⟨h1, h2, h3⟩
    simp only [if_neg (not_le.mpr h1), if_neg h2, if_neg (not_le.mpr h3)]
    simp only [Option.some.injEq, Prod.mk.injEq, Nat.succ_mul]
    constructor <;> omega
  · intro hk
    split_ifs with c1 c2 c3
    all_goals first
      | rfl
      | exact absurd ⟨not_le.mp c1, c2, not_le.mp c3⟩ hk

/-- The pointers of the inner loop of the real worker: when the tests pass at the
pairs `(j, i')` with `j < i' < j + 1 + k`, the state after `k` iterations, entering
iteration `i = j + 1 + k`, has `A_ji_ptr` at offset `j + i*N` and `A_ii_ptr` at
offset `i + i*N`. -/
theorem guess_sympd_worker_inner_pointers {eT : Type} [LinearOrderedRing eT]
    (tol max_diag : eT) (N : Nat) (A_mem : Nat → eT) (j k : Nat)
    (h : ∀ i, j < i → i < j + 1 + k → pair_ok tol max_diag N A_mem j i) :
    for_uword k
        (fun m => guess_sympd_worker_inner_body tol max_diag N (N + 1) A_mem (j * N) j
          (j + 1 + m))
        (some (j + (j + 1) * N, (j + 1) + (j + 1) * N))
      = some (j + (j + 1 + k) * N, (j + 1 + k) + (j + 1 + k) * N) := by
  have hs := for_uword_option
    (fun m => guess_sympd_worker_inner_body tol max_diag N (N + 1) A_mem (j * N) j (j + 1 + m))
    (fun m => (j + (j + 1 + m) * N, (j + 1 + m) + (j + 1 + m) * N))
    (fun m => pair_ok tol max_diag N A_mem j (j + 1 + m))
    k (fun _ => rfl)
    (fun m _ hm => (guess_sympd_worker_inner_body_step tol max_diag N A_mem j (j + 1 + m)).1 hm)
    (fun m _ hm => (guess_sympd_worker_inner_body_step tol max_diag N A_mem j (j + 1 + m)).2 hm)
  exact hs.1 (fun m hm => h (j + 1 + m) (by omega) (by omega))

/-- The pointer of the pair loop of the real worker: when the tests pass at every
pair of the columns before `k`, the loop stopped at `k` columns has `A_col` at
offset `k * N`. -/
theorem guess_sympd_worker_pairs_pointer {eT : Type} [LinearOrderedRing eT]
    (tol max_diag : eT) (N : Nat) (A_mem : Nat → eT) (k : Nat)
    (h : ∀ j i, j < k → j < i → i < N → pair_ok tol max_diag N A_mem j i) :
    guess_sympd_worker_pairs tol max_diag N k (N + 1) A_mem = some (k * N) := by
  unfold guess_sympd_worker_pairs
  have hs := for_uword_option
    (fun j (st : Option Nat) =>
      match st with
      | none => none
      | some A_col =>
        match guess_sympd_worker_inner tol max_diag N (N + 1) A_mem A_col j with
        | none => none
        | some _ => some (A_col + N))
    (fun j => j * N)
    (fun j => ∀ i, j < i → i < N → pair_ok tol max_diag N A_mem j i)
    k (fun _ => rfl)
    (by
      intro j _ hj
      obtain ⟨st, hst⟩ := (guess_sympd_worker_inner_spec tol max_diag N A_mem j).1 hj
      simp only [hst]
      rw [Nat.succ_mul])
    (by
      intro j _ hj
      have hex : ∃ i, j < i ∧ i < N ∧ ¬ pair_ok tol max_diag N A_mem j i := by
        by_contra hcon
        apply hj
        intro i h1 h2
        by_contra hb
        exact hcon ⟨i, h1, h2, hb⟩
      simp only [(guess_sympd_worker_inner_spec tol max_diag N A_mem j).2 hex])
  simp only [Nat.zero_mul] at hs
  exact hs.1 (fun j hj i h1 h2 => h j i hj h1 h2)

/-- The largest diagonal entry depends on the buffer below offset `N * N` only. -/
theorem max_diag_upto_congr {eT : Type} [LinearOrderedRing eT] (N : Nat) (A_mem B_mem : Nat → eT)
    (h : ∀ p, p < N * N → B_mem p = A_mem p) (k : Nat) (hk : k ≤ N) :
    max_diag_upto N B_mem k = max_diag_upto N A_mem k := by
  induction k with
  | zero => rfl
  | succ m ih =>
    have hA : max_diag_upto N A_mem (m + 1)
        = if A_mem (m * N + m) > max_diag_upto N A_mem m then A_mem (m * N + m)
          else max_diag_upto N A_mem m := rfl
    have hB : max_diag_upto N B_mem (m + 1)
        = if B_mem (m * N + m) > max_diag_upto N B_mem m then B_mem (m * N + m)
          else max_diag_upto N B_mem m := rfl
    have hidx : m * N + m < N * N := by
      rw [Nat.add_comm]
      exact square_index_lt N m m (by omega) (by omega)
    rw [hA, hB, ih (by omega), h _ hidx]

/-- The verdict of the real worker depends on the buffer below offset `N * N`
only. -/
theorem guess_sympd_worker_congr {eT : Type} [LinearOrderedRing eT] (lim : Numeric eT)
    (A B : Mat eT) (hN : A.n_rows + 1 < 2 ^ lim.uword_bits) (hrows : B.n_rows = A.n_rows)
    (h : ∀ p, p < A.n_rows * A.n_rows → B.mem p = A.mem p) :
    guess_sympd_worker lim B = guess_sympd_worker lim A := by
  have hNB : B.n_rows + 1 < 2 ^ lim.uword_bits := by
    rw [hrows]
    exact hN
  rw [Bool.eq_iff_iff, guess_sympd_worker_true_iff lim A hN,
    guess_sympd_worker_true_iff lim B hNB, hrows,
    max_diag_upto_congr A.n_rows A.mem B.mem h A.n_rows (le_refl _)]
  have hdiag : ∀ j, j < A.n_rows → B.mem (j * A.n_rows + j) = A.mem (j * A.n_rows + j) := by
    intro j hj
    apply h
    rw [Nat.add_comm]
    exact square_index_lt A.n_rows j j hj hj
  have hpair : ∀ m : eT, ∀ j i, j < i → i < A.n_rows →
      (pair_ok (100 * lim.epsilon) m A.n_rows B.mem j i
        ↔ pair_ok (100 * lim.epsilon) m A.n_rows A.mem j i) := by
    intro m j i hji hi
    have hj : j < A.n_rows := by omega
    unfold pair_ok
    rw [h _ (square_index_lt A.n_rows i j hi hj), h _ (square_index_lt A.n_rows j i hj hi),
      h _ (square_index_lt A.n_rows i i hi hi), h _ (square_index_lt A.n_rows j j hj hj)]
  constructor
  · rintro ⟨h1, ⟨j, hj, h2⟩, h3⟩
    refine ⟨fun k hk => ?_, ⟨j, hj, ?_⟩, fun k i hki hi => ?_⟩
    · rw [← hdiag k hk]
      exact h1 k hk
    · rw [← hdiag j hj]
      exact h2
    · exact (hpair _ k i hki hi).mp (h3 k i hki hi)
  · rintro ⟨h1, ⟨j, hj, h2⟩, h3⟩
    refine ⟨fun k hk => ?_, ⟨j, hj, ?_⟩, fun k i hki hi => ?_⟩
    · rw [hdiag k hk]
      exact h1 k hk
    · rw [hdiag j hj]
      exact h2
    · exact (hpair _ k i hki hi).mpr (h3 k i hki hi)

/-- On a matrix with no rows the real worker returns false after the diagonal
loop, before the pair loop. -/
theorem guess_sympd_worker_empty {eT : Type} [LinearOrderedRing eT] (lim : Numeric eT)
    (A : Mat eT) (h0 : A.n_rows = 0) : guess_sympd_worker lim A = false := by
  unfold guess_sympd_worker guess_sympd_worker_diag
  rw [h0]
  rfl

end sym_helper

/-- C28: for every `N x N` matrix, `N = 0` included, the real `guess_sympd_worker`
reads only buffer offsets below `N * N`: its verdict is the same on any buffer that
agrees below `N * N`. The diagonal loop reads `A(j,j)` at offset `j*N + j`. At the
inner iteration `(j, i)` with `j < i < N`, `A_col` is at offset `j*N`, `A_ji_ptr` at
`j + i*N` and `A_ii_ptr` at `i + i*N`, all four offsets read are below `N * N`, and
the values read through `A_col[i]`, `*A_ji_ptr`, `*A_ii_ptr` and `A_col[j]` are
`A(i,j)`, `A(j,i)`, `A(i,i)` and `A(j,j)`. For `N > 0` the bounds `N - 1` and
`N + 1` do not wrap; for `N = 0` the bound `N - 1` wraps around to
`2^uword_bits - 1`, and the worker returns false before that loop. -/
theorem guess_sympd_worker_reads {eT : Type} [LinearOrderedRing eT] (lim : Numeric eT)
    (A : Mat eT) (hN : A.n_rows + 1 < 2 ^ lim.uword_bits) :
    (∀ B : Mat eT, B.n_rows = A.n_rows →
      (∀ p, p < A.n_rows * A.n_rows → B.mem p = A.mem p) →
      sym_helper.guess_sympd_worker lim B = sym_helper.guess_sympd_worker lim A) ∧
    (∀ j, j < A.n_rows →
      j * A.n_rows + j < A.n_rows * A.n_rows ∧ A.memptr (j * A.n_rows + j) = A.at_ j j) ∧
    (∀ (tol max_diag : eT) (j i : Nat), j < i → i < A.n_rows →
      (j * A.n_rows + i < A.n_rows * A.n_rows ∧ j + i * A.n_rows < A.n_rows * A.n_rows ∧
        i + i * A.n_rows < A.n_rows * A.n_rows ∧ j * A.n_rows + j < A.n_rows * A.n_rows) ∧
      (A.memptr (j * A.n_rows + i) = A.at_ i j ∧ A.memptr (j + i * A.n_rows) = A.at_ j i ∧
        A.memptr (i + i * A.n_rows) = A.at_ i i ∧ A.memptr (j * A.n_rows + j) = A.at_ j j) ∧
      ((∀ j2 i2, j2 < j → j2 < i2 → i2 < A.n_rows →
          sym_helper.pair_ok tol max_diag A.n_rows A.memptr j2 i2) →
        sym_helper.guess_sympd_worker_pairs tol max_diag A.n_rows j (A.n_rows + 1) A.memptr
          = some (j * A.n_rows)) ∧
      (sym_helper.guess_sympd_worker_inner tol max_diag A.n_rows (A.n_rows + 1) A.memptr
          (j * A.n_rows) j
        = for_uword_from (j + 1) A.n_rows
            (sym_helper.guess_sympd_worker_inner_body tol max_diag A.n_rows (A.n_rows + 1)
              A.memptr (j * A.n_rows) j)
            (some (j + (j + 1) * A.n_rows, (j + 1) + (j + 1) * A.n_rows))) ∧
      ((∀ i2, j < i2 → i2 < i → sym_helper.pair_ok tol max_diag A.n_rows A.memptr j i2) →
        for_uword (i - (j + 1))
            (fun m => sym_helper.guess_sympd_worker_inner_body tol max_diag A.n_rows
              (A.n_rows + 1) A.memptr (j * A.n_rows) j (j + 1 + m))
            (some (j + (j + 1) * A.n_rows, (j + 1) + (j + 1) * A.n_rows))
          = some (j + i * A.n_rows, i + i * A.n_rows)) ∧
      (sym_helper.pair_ok tol max_diag A.n_rows A.memptr j i →
        sym_helper.guess_sympd_worker_inner_body tol max_diag A.n_rows (A.n_rows + 1)
            A.memptr (j * A.n_rows) j i (some (j + i * A.n_rows, i + i * A.n_rows))
          = some (j + (i + 1) * A.n_rows, (i + 1) + (i + 1) * A.n_rows)) ∧
      (¬ sym_helper.pair_ok tol max_diag A.n_rows A.memptr j i →
        sym_helper.guess_sympd_worker_inner_body tol max_diag A.n_rows (A.n_rows + 1)
            A.memptr (j * A.n_rows) j i (some (j + i * A.n_rows, i + i * A.n_rows))
          = none)) ∧
    (0 < A.n_rows →
      uword_sub lim.uword_bits A.n_rows 1 = A.n_rows - 1 ∧
      uword_add lim.uword_bits A.n_rows 1 = A.n_rows + 1) ∧
    (A.n_rows = 0 →
      uword_sub lim.uword_bits A.n_rows 1 = 2 ^ lim.uword_bits - 1 ∧
      sym_helper.guess_sympd_worker lim A = false) := by
  refine ⟨fun B hrows h => sym_helper.guess_sympd_worker_congr lim A B hN hrows h, ?_, ?_,
    fun h0 => uword_no_wrap lim.uword_bits A.n_rows h0 hN, ?_⟩
  · intro j hj
    constructor
    · rw [Nat.add_comm]
      exact square_index_lt A.n_rows j j hj hj
    · show A.mem _ = A.mem _
      rw [Nat.add_comm]
  · intro tol max_diag j i hji hi
    have hj : j < A.n_rows := by omega
    refine ⟨⟨?_, square_index_lt A.n_rows j i hj hi, square_index_lt A.n_rows i i hi hi, ?_⟩,
      ⟨?_, rfl, rfl, ?_⟩,
      fun h => sym_helper.guess_sympd_worker_pairs_pointer tol max_diag A.n_rows A.memptr j h,
      sym_helper.guess_sympd_worker_inner_unfold tol max_diag A.n_rows (A.n_rows + 1)
        A.memptr (j * A.n_rows) j,
      ?_,
      (sym_helper.guess_sympd_worker_inner_body_step tol max_diag A.n_rows A.memptr j i).1,
      (sym_helper.guess_sympd_worker_inner_body_step tol max_diag A.n_rows A.memptr j i).2⟩
    · rw [Nat.add_comm]
      exact square_index_lt A.n_rows i j hi hj
    · rw [Nat.add_comm]
      exact square_index_lt A.n_rows j j hj hj
    · show A.mem _ = A.mem _
      rw [Nat.add_comm]
    · show A.mem _ = A.mem _
      rw [Nat.add_comm]
    · intro h
      have e : j + 1 + (i - (j + 1)) = i := by omega
      have hp := sym_helper.guess_sympd_worker_inner_pointers tol max_diag A.n_rows A.memptr j
        (i - (j + 1)) (fun i2 h1 h2 => h i2 h1 (by omega))
      rw [e] at hp
      exact hp
  · intro h0
    refine ⟨?_, sym_helper.guess_sympd_worker_empty lim A h0⟩
    rw [h0] at hN ⊢
    unfold uword_sub
    have h1 : 1 % 2 ^ lim.uword_bits = 1 := Nat.mod_eq_of_lt (by omega)
    rw [h1, Nat.zero_add]
    exact Nat.mod_eq_of_lt (by omega)

/-- Witness for C28: two entries stored after the 16 elements of a 4 x 4 rational
matrix do not change the verdict of the worker. -/
theorem guess_sympd_worker_reads_witness :
    rat_not_pos_def.n_rows + 1 < 2 ^ rat_numeric.uword_bits ∧
    sym_helper.guess_sympd_worker rat_numeric
        (rat_mat 4 4 [5, -2, -2, -2, -2, 5, -2, -2, -2, -2, 5, -2, -2, -2, -2, 5, 7, -9])
      = sym_helper.guess_sympd_worker rat_numeric rat_not_pos_def :=
  ⟨by decide,
   (guess_sympd_worker_reads rat_numeric rat_not_pos_def (by decide)).1
     (rat_mat 4 4 [5, -2, -2, -2, -2, 5, -2, -2, -2, -2, 5, -2, -2, -2, -2, 5, 7, -9]) rfl
     (by
       intro p hp
       have hp16 : p < 16 := hp
       interval_cases p <;> rfl)⟩

/-! ### sym_helper: the complex worker on a real matrix -/

/-- C31: for every real `N x N` matrix `A`, the complex (hermitian)
`guess_sympd_worker` applied to `A` viewed as a complex matrix with all imaginary
parts zero returns the same verdict as the real `guess_sympd_worker` applied to
`A`, in exact arithmetic (every value finite) and with the same tolerance
`100 * epsilon >= 0`; so do the two `guess_sympd`. Comparing the squared modulus
with the squared largest diagonal entry is the same as comparing the absolute value
with the largest diagonal entry. -/
theorem guess_sympd_worker_cx_of_real {T : Type} [LinearOrderedRing T] (lim : Numeric T)
    (A : Mat T) (hN : A.n_rows + 1 < 2 ^ lim.uword_bits) (heps : 0 ≤ lim.epsilon)
    (hfin : ∀ x, lim.arma_isnonfinite x = false) :
    sym_helper.guess_sympd_worker_cx lim (Mat.to_cx A) = sym_helper.guess_sympd_worker lim A ∧
    sym_helper.guess_sympd (sym_helper.guess_sympd_worker_cx lim) (Mat.to_cx A)
      = sym_helper.guess_sympd (sym_helper.guess_sympd_worker lim) A ∧
    (∀ a : T, a * a + 0 * 0
        < sym_helper.max_diag_upto A.n_rows A.mem A.n_rows
          * sym_helper.max_diag_upto A.n_rows A.mem A.n_rows
      ↔ |a| < sym_helper.max_diag_upto A.n_rows A.mem A.n_rows) := by
  have htol : (0 : T) ≤ 100 * lim.epsilon := mul_nonneg (by norm_num) heps
  have hmax0 : 0 ≤ sym_helper.max_diag_upto A.n_rows A.mem A.n_rows :=
    (sym_helper.max_diag_upto_spec A.n_rows A.mem A.n_rows).1
  have hsq : ∀ a : T, a * a + 0 * 0
        < sym_helper.max_diag_upto A.n_rows A.mem A.n_rows
          * sym_helper.max_diag_upto A.n_rows A.mem A.n_rows
      ↔ |a| < sym_helper.max_diag_upto A.n_rows A.mem A.n_rows := by
    intro a
    rw [mul_zero, add_zero, ← abs_lt_iff_mul_self_lt, abs_of_nonneg hmax0]
  have hw : sym_helper.guess_sympd_worker_cx lim (Mat.to_cx A)
      = sym_helper.guess_sympd_worker lim A := by
    have hNc : (Mat.to_cx A).n_rows + 1 < 2 ^ lim.uword_bits := hN
    rw [Bool.eq_iff_iff, sym_helper.guess_sympd_worker_true_iff lim A hN,
      sym_helper.guess_sympd_worker_cx_true_iff lim (Mat.to_cx A) hNc]
    constructor
    · rintro ⟨hd, hex, _, hp⟩
      refine ⟨fun j hj => ⟨(hd j hj).1, (hd j hj).2.1⟩, hex, fun j i hji hi => ?_⟩
      obtain ⟨_, h2, ⟨h3, _⟩, h5⟩ := hp j i hji hi
      exact ⟨(hsq _).mp h2, h3, h5⟩
    · rintro ⟨hd, hex, hp⟩
      refine ⟨fun j hj => ⟨(hd j hj).1, (hd j hj).2, ?_, ?_⟩, hex, hfin _,
        fun j i hji hi => ?_⟩
      · show ¬ (|(0 : T)| > 100 * lim.epsilon)
        rw [abs_zero]
        exact not_lt.mpr htol
      · show ¬ (|(0 : T)| > |A.mem (j * A.n_rows + j)|)
        rw [abs_zero]
        exact not_lt.mpr (abs_nonneg _)
      · obtain ⟨h1, h2, h3⟩ := hp j i hji hi
        refine ⟨hfin _, (hsq _).mpr h1, ⟨h2, ?_⟩, h3⟩
        show ¬ (|(0 : T) + 0| > 100 * lim.epsilon ∧ _)
        rintro ⟨hgt, _⟩
        rw [add_zero, abs_zero] at hgt
        exact absurd hgt (not_lt.mpr htol)
  refine ⟨hw, ?_, hsq⟩
  unfold sym_helper.guess_sympd
  rw [hw]
  rfl

/-- Witness for C31: on the 4 x 4 rational matrix with 5 on the diagonal and -2
elsewhere, with the epsilon of `double`, both workers return the same verdict. -/
theorem guess_sympd_worker_cx_of_real_witness :
    rat_not_pos_def.n_rows + 1 < 2 ^ rat_numeric.uword_bits ∧
    0 ≤ rat_numeric.epsilon ∧
    (∀ x, rat_numeric.arma_isnonfinite x = false) ∧
    sym_helper.guess_sympd_worker_cx rat_numeric (Mat.to_cx rat_not_pos_def)
      = sym_helper.guess_sympd_worker rat_numeric rat_not_pos_def :=
  ⟨by decide, by norm_num [rat_numeric], fun _ => rfl,
   (guess_sympd_worker_cx_of_real rat_numeric rat_not_pos_def (by decide)
      (by norm_num [rat_numeric]) (fun _ => rfl)).1⟩

/-! ### op_cdot: the conjugated product of a sequence with itself -/

/-- C32: for every `n` and every length-`n` complex sequence `A`, in exact
arithmetic, `op_cdot::direct_cdot_arma(n, A, A)` has imaginary part exactly zero
and real part equal to the sum of the squared moduli `re^2 + im^2` of the elements,
hence not negative; and it is zero only if every element of `A` is zero. -/
theorem direct_cdot_arma_self {T : Type} [LinearOrderedCommRing T] (n : Nat)
    (A : Nat → std.complex T) :
    (op_cdot.direct_cdot_arma n A A).imag = 0 ∧
    (op_cdot.direct_cdot_arma n A A).real
      = ∑ i in Finset.range n, ((A i).real * (A i).real + (A i).imag * (A i).imag) ∧
    0 ≤ (op_cdot.direct_cdot_arma n A A).real ∧
    (op_cdot.direct_cdot_arma n A A = ⟨0, 0⟩ → ∀ i, i < n → A i = ⟨0, 0⟩) ∧
    ((∀ i, i < n → A i = ⟨0, 0⟩) → op_cdot.direct_cdot_arma n A A = ⟨0, 0⟩) := by
  rw [op_cdot.direct_cdot_arma_eq_sum]
  have him : ∑ i in Finset.range n, ((A i).real * (A i).imag - (A i).imag * (A i).real) = 0 :=
    Finset.sum_eq_zero (fun i _ => by ring)
  have hterm : ∀ i ∈ Finset.range n,
      0 ≤ (A i).real * (A i).real + (A i).imag * (A i).imag :=
    fun i _ => add_nonneg (mul_self_nonneg _) (mul_self_nonneg _)
  refine ⟨him, rfl, Finset.sum_nonneg hterm, ?_, ?_⟩
  · intro h i hi
    have hre : ∑ i in Finset.range n,
        ((A i).real * (A i).real + (A i).imag * (A i).imag) = 0 :=
      congrArg std.complex.real h
    have hz := (Finset.sum_eq_zero_iff_of_nonneg hterm).mp hre i (Finset.mem_range.mpr hi)
    obtain ⟨h1, h2⟩ := mul_self_add_mul_self_eq_zero.mp hz
    cases hA : A i with
    | mk re im =>
      rw [hA] at h1 h2
      simp only at h1 h2
      rw [h1, h2]
  · intro h
    have hre : ∑ i in Finset.range n,
        ((A i).real * (A i).real + (A i).imag * (A i).imag) = 0 :=
      Finset.sum_eq_zero (fun i hi => by
        rw [h i (Finset.mem_range.mp hi)]
        simp)
    rw [hre, him]

/-- Witness for C32: the product of `[3 + 4i, 0]` with itself is `25`, not zero, and
the product of the all-zero sequence with itself is zero. -/
theorem direct_cdot_arma_self_witness :
    op_cdot.direct_cdot_arma 2
        (fun i => ([⟨3, 4⟩, ⟨0, 0⟩] : List (std.complex Int)).getD i ⟨0, 0⟩)
        (fun i => ([⟨3, 4⟩, ⟨0, 0⟩] : List (std.complex Int)).getD i ⟨0, 0⟩) = ⟨25, 0⟩ ∧
    op_cdot.direct_cdot_arma 2 (fun _ => (⟨0, 0⟩ : std.complex Int)) (fun _ => ⟨0, 0⟩)
      = ⟨0, 0⟩ :=
  ⟨by decide,
   (direct_cdot_arma_self 2 (fun _ => (⟨0, 0⟩ : std.complex Int))).2.2.2.2 (fun _ _ => rfl)⟩

/-! ### op_norm_dot: the range of the normalised dot product -/

namespace op_dot

/-- On two column vectors of equal length `op_dot::apply` returns `direct_dot` of
the two buffers, whichever overloads the element type selects. -/
theorem dot_apply_of_Col {eT : Type} [Zero eT] [One eT] [Add eT] [Mul eT] (et : ElemType eT)
    (p q : Nat → eT) (n m : Nat) (h : n = m) :
    apply et (Operand.of_Col (Col p n)) (Operand.of_Col (Col q m))
      = Except.ok (et.direct_dot n p q) := by
  subst h
  unfold apply arma_conform_check
  cases hcx : et.is_cx <;>
    simp [Operand.of_Col, Col, partial_unwrap, quasi_unwrap, Mat.n_elem, Mat.memptr]

/-- The float and double `direct_dot` returns the dot product when the backend
kernels, used above 32 elements, do. -/
theorem direct_dot_exact {eT : Type} [NonUnitalNonAssocSemiring eT] (cfg : Config)
    (be : Backend eT) (n : Nat) (A B : Nat → eT)
    (hbe : 32 < n → be.atlas_cblas_dot n A B = ∑ i in Finset.range n, A i * B i
      ∧ be.blas_dot n A B = ∑ i in Finset.range n, A i * B i) :
    direct_dot cfg be n A B = ∑ i in Finset.range n, A i * B i := by
  unfold direct_dot
  by_cases hn : n ≤ 32
  · rw [if_pos hn]
    exact direct_dot_arma_sum cfg n A B
  · rw [if_neg hn]
    obtain ⟨h1, h2⟩ := hbe (by omega)
    split_ifs
    · exact h1
    · exact h2
    · exact direct_dot_arma_sum cfg n A B

end op_dot

namespace op_norm_dot

/-- With equal element counts `op_norm_dot::apply` returns `direct_dot` of the two
buffers divided by the product of the norms, or zero when that product is zero. -/
theorem norm_dot_apply_value {eT T : Type} [Zero eT] [One eT] [Add eT] [Mul eT] [Zero T]
    [Mul T] [DecidableEq T] [HDiv eT T eT] (et : ElemType eT) (norm : Mat eT → T)
    (X Y : Operand eT) (hn : X.n_elem = Y.n_elem) :
    apply et norm X Y
      = Except.ok
          (if norm (Col (quasi_unwrap X).memptr (quasi_unwrap X).n_elem)
              * norm (Col (quasi_unwrap Y).memptr (quasi_unwrap Y).n_elem) ≠ 0
           then et.direct_dot X.M.n_elem X.M.mem Y.M.mem
              / (norm (Col (quasi_unwrap X).memptr (quasi_unwrap X).n_elem)
                  * norm (Col (quasi_unwrap Y).memptr (quasi_unwrap Y).n_elem))
           else 0) := by
  have h1 : X.M.n_elem = Y.M.n_elem := hn
  have h2 : ¬ ((Col X.M.memptr X.M.n_elem).n_elem != (Col Y.M.memptr Y.M.n_elem).n_elem)
      = true := by
    have h3 : X.M.n_rows * X.M.n_cols = Y.M.n_rows * Y.M.n_cols := h1
    simp [Col, Mat.n_elem, h3]
  have hdot := op_dot.dot_apply_of_Col et X.M.memptr Y.M.memptr X.M.n_elem Y.M.n_elem h1
  unfold apply arma_conform_check
  simp only [quasi_unwrap]
  rw [if_neg h2]
  by_cases hd : norm (Col X.M.memptr X.M.n_elem) * norm (Col Y.M.memptr Y.M.n_elem) = 0
  · simp only [hd, ne_eq, not_true_eq_false, if_false]
    rfl
  · simp only [ne_eq, hd, not_false_eq_true, if_true, hdot]
    rfl

end op_norm_dot

/-- Cauchy-Schwarz for the quotient: a dot product divided by the product of the
two Euclidean norms lies between -1 and 1. -/
theorem dot_over_norms_bounds {eT : Type} [LinearOrderedField eT] (n : Nat) (A B : Nat → eT)
    (a b : eT) (ha : 0 ≤ a) (hb : 0 ≤ b)
    (hA : a * a = ∑ i in Finset.range n, A i * A i)
    (hB : b * b = ∑ i in Finset.range n, B i * B i) (hab : a * b ≠ 0) :
    -1 ≤ (∑ i in Finset.range n, A i * B i) / (a * b)
      ∧ (∑ i in Finset.range n, A i * B i) / (a * b) ≤ 1 := by
  have hpos : 0 < a * b := lt_of_le_of_ne (mul_nonneg ha hb) (Ne.symm hab)
  have hcs := Finset.sum_mul_sq_le_sq_mul_sq (Finset.range n) A B
  have hsq : (∑ i in Finset.range n, A i * B i) ^ 2 ≤ (a * b) ^ 2 := by
    have e : (a * b) ^ 2
        = (∑ i in Finset.range n, A i ^ 2) * ∑ i in Finset.range n, B i ^ 2 := by
      simp only [pow_two]
      rw [← hA, ← hB]
      ring
    rw [e]
    exact hcs
  have habs := abs_le_of_sq_le_sq hsq (le_of_lt hpos)
  obtain ⟨hlo, hhi⟩ := abs_le.mp habs
  constructor
  · rw [le_div_iff₀ hpos]
    linarith
  · rw [div_le_iff₀ hpos]
    linarith

/-- C33: for every pair of real sequences `A`, `B` of equal length, evaluated in
exact arithmetic with `norm` the Euclidean norm, `op_norm_dot::apply(A, B)` returns
a value, and the value lies in the closed interval `[-1, 1]`. The first part holds
in any ordered field for any `norm` whose values on `A` and `B` are their Euclidean
norms; the second part is the case of the real numbers with the square root of the
sum of the squares as `norm`. Above 32 elements the backend kernels are taken to
return the dot product. -/
theorem norm_dot_in_unit_interval {eT : Type} [LinearOrderedField eT] (cfg : Config)
    (be : Backend eT) (norm : Mat eT → eT) (X Y : Operand eT) :
    (X.n_elem = Y.n_elem →
      (32 < X.M.n_elem →
        be.atlas_cblas_dot X.M.n_elem X.M.mem Y.M.mem
            = ∑ i in Finset.range X.M.n_elem, X.M.mem i * Y.M.mem i
          ∧ be.blas_dot X.M.n_elem X.M.mem Y.M.mem
            = ∑ i in Finset.range X.M.n_elem, X.M.mem i * Y.M.mem i) →
      is_euclidean_norm (norm (Col (quasi_unwrap X).memptr (quasi_unwrap X).n_elem))
        (quasi_unwrap X) →
      is_euclidean_norm (norm (Col (quasi_unwrap Y).memptr (quasi_unwrap Y).n_elem))
        (quasi_unwrap Y) →
      ∃ v, op_norm_dot.apply (ElemType.real cfg be) norm X Y = Except.ok v
        ∧ -1 ≤ v ∧ v ≤ 1) ∧
    (∀ (beR : Backend Real) (XR YR : Operand Real), XR.n_elem = YR.n_elem →
      (32 < XR.M.n_elem →
        beR.atlas_cblas_dot XR.M.n_elem XR.M.mem YR.M.mem
            = ∑ i in Finset.range XR.M.n_elem, XR.M.mem i * YR.M.mem i
          ∧ beR.blas_dot XR.M.n_elem XR.M.mem YR.M.mem
            = ∑ i in Finset.range XR.M.n_elem, XR.M.mem i * YR.M.mem i) →
      ∃ v, op_norm_dot.apply (ElemType.real cfg beR)
          (fun M => Real.sqrt (∑ i in Finset.range M.n_elem, M.mem i * M.mem i)) XR YR
            = Except.ok v
        ∧ -1 ≤ v ∧ v ≤ 1) := by
  have generic : ∀ (F : Type) [LinearOrderedField F] (b : Backend F) (nrm : Mat F → F)
      (U V : Operand F), U.n_elem = V.n_elem →
      (32 < U.M.n_elem →
        b.atlas_cblas_dot U.M.n_elem U.M.mem V.M.mem
            = ∑ i in Finset.range U.M.n_elem, U.M.mem i * V.M.mem i
          ∧ b.blas_dot U.M.n_elem U.M.mem V.M.mem
            = ∑ i in Finset.range U.M.n_elem, U.M.mem i * V.M.mem i) →
      is_euclidean_norm (nrm (Col (quasi_unwrap U).memptr (quasi_unwrap U).n_elem))
        (quasi_unwrap U) →
      is_euclidean_norm (nrm (Col (quasi_unwrap V).memptr (quasi_unwrap V).n_elem))
        (quasi_unwrap V) →
      ∃ v, op_norm_dot.apply (ElemType.real cfg b) nrm U V = Except.ok v
        ∧ -1 ≤ v ∧ v ≤ 1 := by
    intro F _ b nrm U V hn hbe hnA hnB
    have h1 : U.M.n_elem = V.M.n_elem := hn
    refine ⟨_, op_norm_dot.norm_dot_apply_value (ElemType.real cfg b) nrm U V hn, ?_⟩
    have hdd : (ElemType.real cfg b).direct_dot U.M.n_elem U.M.mem V.M.mem
        = ∑ i in Finset.range U.M.n_elem, U.M.mem i * V.M.mem i :=
      op_dot.direct_dot_exact cfg b U.M.n_elem U.M.mem V.M.mem hbe
    by_cases hd : nrm (Col (quasi_unwrap U).memptr (quasi_unwrap U).n_elem)
        * nrm (Col (quasi_unwrap V).memptr (quasi_unwrap V).n_elem) = 0
    · rw [if_neg (not_not.mpr hd)]
      constructor <;> norm_num
    · rw [if_pos hd, hdd]
      obtain ⟨ha, hA⟩ := hnA
      obtain ⟨hb, hB⟩ := hnB
      have hB2 : nrm (Col (quasi_unwrap V).memptr (quasi_unwrap V).n_elem)
          * nrm (Col (quasi_unwrap V).memptr (quasi_unwrap V).n_elem)
          = ∑ i in Finset.range U.M.n_elem, V.M.mem i * V.M.mem i := by
        rw [hB, h1]
        rfl
      exact dot_over_norms_bounds U.M.n_elem U.M.mem V.M.mem _ _ ha hb hA hB2 hd
  refine ⟨generic eT be norm X Y, ?_⟩
  intro beR XR YR hn hbe
  have hnn : ∀ M : Mat Real, 0 ≤ ∑ i in Finset.range M.n_elem, M.mem i * M.mem i :=
    fun M => Finset.sum_nonneg (fun i _ => mul_self_nonneg _)
  have hA : is_euclidean_norm
      ((fun M : Mat Real => Real.sqrt (∑ i in Finset.range M.n_elem, M.mem i * M.mem i))
        (Col (quasi_unwrap XR).memptr (quasi_unwrap XR).n_elem)) (quasi_unwrap XR) := by
    refine ⟨Real.sqrt_nonneg _, ?_⟩
    rw [Real.mul_self_sqrt (hnn _)]
    simp [Col, Mat.n_elem, Mat.memptr]
  have hB : is_euclidean_norm
      ((fun M : Mat Real => Real.sqrt (∑ i in Finset.range M.n_elem, M.mem i * M.mem i))
        (Col (quasi_unwrap YR).memptr (quasi_unwrap YR).n_elem)) (quasi_unwrap YR) := by
    refine ⟨Real.sqrt_nonneg _, ?_⟩
    rw [Real.mul_self_sqrt (hnn _)]
    simp [Col, Mat.n_elem, Mat.memptr]
  exact generic Real beR _ XR YR hn hbe hA hB

/-- Witness for C33: with `A = [3, 4]`, `B = [4, 3]` over the rationals, both of
Euclidean norm 5, the normalised dot product is returned and lies in `[-1, 1]`. -/
theorem norm_dot_in_unit_interval_witness :
    (rat_col [3, 4]).n_elem = (rat_col [4, 3]).n_elem ∧
    is_euclidean_norm (5 : Rat) (quasi_unwrap (rat_col [3, 4])) ∧
    is_euclidean_norm (5 : Rat) (quasi_unwrap (rat_col [4, 3])) ∧
    ∃ v, op_norm_dot.apply (ElemType.real blas_config (const_backend 0)) (fun _ => (5 : Rat))
        (rat_col [3, 4]) (rat_col [4, 3]) = Except.ok v
      ∧ -1 ≤ v ∧ v ≤ 1 :=
  have hA : is_euclidean_norm (5 : Rat) (quasi_unwrap (rat_col [3, 4])) :=
    ⟨by norm_num, by
      norm_num [quasi_unwrap, rat_col, Operand.of_Col, Col, Mat.n_elem,
        Finset.sum_range_succ]⟩
  have hB : is_euclidean_norm (5 : Rat) (quasi_unwrap (rat_col [4, 3])) :=
    ⟨by norm_num, by
      norm_num [quasi_unwrap, rat_col, Operand.of_Col, Col, Mat.n_elem,
        Finset.sum_range_succ]⟩
  ⟨by decide, hA, hB,
   (norm_dot_in_unit_interval blas_config (const_backend 0) (fun _ => (5 : Rat))
      (rat_col [3, 4]) (rat_col [4, 3])).1 (by decide)
      (fun h => absurd h (by decide)) hA hB⟩

/-! ### The kernels on double: the order of the additions -/

namespace op_dot

end op_dot

namespace op_cdot

end op_cdot

set_option maxRecDepth 100000

namespace double

/-- Anything divided by NaN is NaN. -/
theorem div_nan (x : double) : x / nan = nan := by
  cases x <;> rfl

/-- Zero times a finite value is zero. -/
theorem zero_mul_fin (m e : Int) : (0 : double) * fin m e = 0 := by
  show round (xor (is_neg 0) (is_neg m)) ((0 : Int).natAbs * m.natAbs) (0 + e) = fin 0 0
  simp [round]

/-- A finite value times zero is zero. -/
theorem fin_mul_zero (m e : Int) : fin m e * (0 : double) = 0 := by
  show round (xor (is_neg m) (is_neg 0)) (m.natAbs * (0 : Int).natAbs) (e + 0) = fin 0 0
  simp [round]

end double

/-- C6, counterexample: on `double`, with `A` the all-zero vector of four elements
and `B` four elements equal to `2^1023`, `norm(A,2)` is zero and `norm(B,2)`, whose
exact value `2^1024` is beyond the range of `double`, is infinite. The product of
the norms is NaN, `denom != 0` holds, the division runs, and
`op_norm_dot::apply(A, B)` returns NaN, which is not the zero element. -/
theorem norm_dot_zero_norm_overflow :
    double.norm_2 (Col (quasi_unwrap (double_col [0, 0, 0, 0])).memptr
      (quasi_unwrap (double_col [0, 0, 0, 0])).n_elem) = 0 ∧
    double.norm_2 (Col
      (quasi_unwrap (double_col [double.fin 1 1023, double.fin 1 1023, double.fin 1 1023,
        double.fin 1 1023])).memptr
      (quasi_unwrap (double_col [double.fin 1 1023, double.fin 1 1023, double.fin 1 1023,
        double.fin 1 1023])).n_elem) = double.inf false ∧
    op_norm_dot.apply (ElemType.real blas_config (const_backend 0)) double.norm_2
        (double_col [0, 0, 0, 0])
        (double_col [double.fin 1 1023, double.fin 1 1023, double.fin 1 1023,
          double.fin 1 1023])
      = Except.ok double.nan ∧
    double.nan ≠ (0 : double) := by
  have hA : double.norm_2 (Col (quasi_unwrap (double_col [0, 0, 0, 0])).memptr
      (quasi_unwrap (double_col [0, 0, 0, 0])).n_elem) = 0 := by decide
  have hB : double.norm_2 (Col
      (quasi_unwrap (double_col [double.fin 1 1023, double.fin 1 1023, double.fin 1 1023,
        double.fin 1 1023])).memptr
      (quasi_unwrap (double_col [double.fin 1 1023, double.fin 1 1023, double.fin 1 1023,
        double.fin 1 1023])).n_elem) = double.inf false := by decide
  refine ⟨hA, hB, ?_, by decide⟩
  rw [op_norm_dot.norm_dot_apply_value _ _ _ _ (by decide), hA, hB]
  have hden : (0 : double) * double.inf false = double.nan := rfl
  rw [hden, if_pos (by decide), double.div_nan]

/-- C6, amended: for operands of equal element count, if the product
`norm(A,2) * norm(B,2)`, as computed, is zero, then `op_norm_dot::apply(A, B)`
returns the zero element and raises no error, and no division is performed: the
division is arbitrary here. The product is zero when either norm is zero in exact
arithmetic, where zero times anything is zero, and on `double` when one norm is
zero and the other is finite. When the product is not zero the division runs; on
`double`, when one norm is zero and the other is an infinity or NaN, the product is
NaN and so is the result. -/
theorem norm_dot_zero_norm {eT T : Type} [Zero eT] [One eT] [Add eT] [Mul eT] [Zero T]
    [Mul T] [DecidableEq T] [HDiv eT T eT] (et : ElemType eT) (norm : Mat eT → T)
    (X Y : Operand eT) (hn : X.n_elem = Y.n_elem) :
    (norm (Col (quasi_unwrap X).memptr (quasi_unwrap X).n_elem)
        * norm (Col (quasi_unwrap Y).memptr (quasi_unwrap Y).n_elem) = 0 →
      op_norm_dot.apply et norm X Y = Except.ok 0) ∧
    ((∀ x : T, 0 * x = 0) → (∀ x : T, x * 0 = 0) →
      (norm (Col (quasi_unwrap X).memptr (quasi_unwrap X).n_elem) = 0
        ∨ norm (Col (quasi_unwrap Y).memptr (quasi_unwrap Y).n_elem) = 0) →
      op_norm_dot.apply et norm X Y = Except.ok 0) ∧
    (norm (Col (quasi_unwrap X).memptr (quasi_unwrap X).n_elem)
        * norm (Col (quasi_unwrap Y).memptr (quasi_unwrap Y).n_elem) ≠ 0 →
      op_norm_dot.apply et norm X Y
        = Except.ok (et.direct_dot X.M.n_elem X.M.mem Y.M.mem
            / (norm (Col (quasi_unwrap X).memptr (quasi_unwrap X).n_elem)
                * norm (Col (quasi_unwrap Y).memptr (quasi_unwrap Y).n_elem)))) ∧
    (∀ (etd : ElemType double) (nd : Mat double → double) (XD YD : Operand double),
      XD.n_elem = YD.n_elem →
      ((nd (Col (quasi_unwrap XD).memptr (quasi_unwrap XD).n_elem) = 0
          ∧ (nd (Col (quasi_unwrap YD).memptr (quasi_unwrap YD).n_elem)).isnonfinite = false)
        ∨ ((nd (Col (quasi_unwrap XD).memptr (quasi_unwrap XD).n_elem)).isnonfinite = false
          ∧ nd (Col (quasi_unwrap YD).memptr (quasi_unwrap YD).n_elem) = 0)) →
      op_norm_dot.apply etd nd XD YD = Except.ok 0) ∧
    (∀ (etd : ElemType double) (nd : Mat double → double) (XD YD : Operand double),
      XD.n_elem = YD.n_elem →
      ((nd (Col (quasi_unwrap XD).memptr (quasi_unwrap XD).n_elem) = 0
          ∧ (nd (Col (quasi_unwrap YD).memptr (quasi_unwrap YD).n_elem)).isnonfinite = true)
        ∨ ((nd (Col (quasi_unwrap XD).memptr (quasi_unwrap XD).n_elem)).isnonfinite = true
          ∧ nd (Col (quasi_unwrap YD).memptr (quasi_unwrap YD).n_elem) = 0)) →
      op_norm_dot.apply etd nd XD YD = Except.ok double.nan) := by
  have hzero : norm (Col (quasi_unwrap X).memptr (quasi_unwrap X).n_elem)
        * norm (Col (quasi_unwrap Y).memptr (quasi_unwrap Y).n_elem) = 0 →
      op_norm_dot.apply et norm X Y = Except.ok 0 := by
    intro hd
    rw [op_norm_dot.norm_dot_apply_value et norm X Y hn, if_neg (not_not.mpr hd)]
  refine ⟨hzero, ?_, ?_, ?_, ?_⟩
  rotate_right
  · intro etd nd XD YD hnd h
    rw [op_norm_dot.norm_dot_apply_value etd nd XD YD hnd]
    have hd : nd (Col (quasi_unwrap XD).memptr (quasi_unwrap XD).n_elem)
        * nd (Col (quasi_unwrap YD).memptr (quasi_unwrap YD).n_elem) = double.nan := by
      rcases h with ⟨h0, hf⟩ | ⟨hf, h0⟩
      · rw [h0]
        cases hy : nd (Col (quasi_unwrap YD).memptr (quasi_unwrap YD).n_elem) with
        | fin m e =>
          rw [hy] at hf
          cases hf
        | inf s => rfl
        | nan => rfl
      · rw [h0]
        cases hx : nd (Col (quasi_unwrap XD).memptr (quasi_unwrap XD).n_elem) with
        | fin m e =>
          rw [hx] at hf
          cases hf
        | inf s => rfl
        | nan => rfl
    rw [hd, if_pos (by decide), double.div_nan]
  · intro h0l h0r h
    apply hzero
    rcases h with h | h
    · rw [h, h0l]
    · rw [h, h0r]
  · intro hd
    rw [op_norm_dot.norm_dot_apply_value et norm X Y hn, if_pos hd]
  · intro etd nd XD YD hnd h
    rw [op_norm_dot.norm_dot_apply_value etd nd XD YD hnd]
    have hd : nd (Col (quasi_unwrap XD).memptr (quasi_unwrap XD).n_elem)
        * nd (Col (quasi_unwrap YD).memptr (quasi_unwrap YD).n_elem) = 0 := by
      rcases h with ⟨h0, hf⟩ | ⟨hf, h0⟩
      · rw [h0]
        cases hy : nd (Col (quasi_unwrap YD).memptr (quasi_unwrap YD).n_elem) with
        | fin m e => exact double.zero_mul_fin m e
        | inf s =>
          rw [hy] at hf
          cases hf
        | nan =>
          rw [hy] at hf
          cases hf
      · rw [h0]
        cases hx : nd (Col (quasi_unwrap XD).memptr (quasi_unwrap XD).n_elem) with
        | fin m e => exact double.fin_mul_zero m e
        | inf s =>
          rw [hx] at hf
          cases hf
        | nan =>
          rw [hx] at hf
          cases hf
    rw [if_neg (not_not.mpr hd)]

/-- Witness for C6 amended: the normalised dot of the `double` vector
`[1, 2, 3, 4]` with the all-zero vector, whose norm is zero while the other norm is
finite, is zero; and so is that of the integer vector `[1, 2]` with the all-zero
vector, under the sum of squares as a stand-in for the norm. -/
theorem norm_dot_zero_norm_witness :
    (int_col [1, 2]).n_elem = (int_col [0, 0]).n_elem ∧
    sq_norm (Col (quasi_unwrap (int_col [1, 2])).memptr (quasi_unwrap (int_col [1, 2])).n_elem)
      * sq_norm (Col (quasi_unwrap (int_col [0, 0])).memptr
          (quasi_unwrap (int_col [0, 0])).n_elem) = 0 ∧
    op_norm_dot.apply (ElemType.integral blas_config) sq_norm (int_col [1, 2]) (int_col [0, 0])
      = Except.ok 0 ∧
    op_norm_dot.apply (ElemType.real blas_config (const_backend 0)) double.norm_2
        (double_col [1, double.fin 1 1, double.fin 3 0, double.fin 1 2])
        (double_col [0, 0, 0, 0])
      = Except.ok 0 :=
  ⟨by decide, by decide,
   (norm_dot_zero_norm (ElemType.integral blas_config) sq_norm (int_col [1, 2])
     (int_col [0, 0]) (by decide)).1 (by decide),
   (norm_dot_zero_norm (ElemType.integral blas_config) sq_norm (int_col [1, 2])
     (int_col [0, 0]) (by decide)).2.2.2.1 (ElemType.real blas_config (const_backend 0))
     double.norm_2 (double_col [1, double.fin 1 1, double.fin 3 0, double.fin 1 2])
     (double_col [0, 0, 0, 0]) (by decide) (Or.inr ⟨by decide, by decide⟩)⟩

/-! ### Arithmetic of double: rounding does not depend on the representation -/

namespace double

/-- The binary size of a positive number is one more than that of its half. -/
theorem size_half (n : Nat) (h : n ≠ 0) : Nat.size n = Nat.size (n / 2) + 1 := by
  have hb : Nat.bit (Nat.bodd n) (Nat.div2 n) = n := Nat.bit_decomp n
  have h2 : Nat.bit (Nat.bodd n) (Nat.div2 n) ≠ 0 := by rw [hb]; exact h
  have := Nat.size_bit h2
  rw [hb, Nat.div2_val] at this
  exact this

/-- With enough fuel the halving loop counts the binary digits. -/
theorem bit_length_loop_eq (fuel : Nat) : ∀ n, n ≤ fuel → bit_length_loop fuel n = Nat.size n := by
  induction fuel with
  | zero =>
    intro n hn
    have : n = 0 := by omega
    subst this
    simp [bit_length_loop]
  | succ f ih =>
    intro n hn
    unfold bit_length_loop
    by_cases h0 : n = 0
    · rw [if_pos h0, h0, Nat.size_zero]
    · rw [if_neg h0, ih (n / 2) (by omega), size_half n h0]

/-- The number of binary digits is the binary size. -/
theorem bit_length_eq (n : Nat) : bit_length n = Nat.size n :=
  bit_length_loop_eq n n (le_refl n)

/-- Multiplying by `2^k` adds `k` digits. -/
theorem bit_length_mul_pow (n k : Nat) (h : n ≠ 0) :
    bit_length (n * 2 ^ k) = bit_length n + k := by
  rw [bit_length_eq, bit_length_eq, ← Nat.shiftLeft_eq, Nat.size_shiftLeft h]

/-- Lowest terms of an odd number times a power of two. -/
theorem normal_odd (s : Bool) (o v : Nat) (e : Int) (ho : Odd o) :
    normal s (o * 2 ^ v) e = fin (if s then -(Int.ofNat o) else Int.ofNat o) (e + Int.ofNat v) := by
  have ho0 : o ≠ 0 := by
    rintro rfl
    exact absurd ho (by decide)
  have hn0 : o * 2 ^ v ≠ 0 := Nat.mul_ne_zero ho0 (by positivity)
  have hsz : 0 < Nat.size o := Nat.size_pos.mpr (Nat.pos_of_ne_zero ho0)
  have htz : trailing_zeros (o * 2 ^ v) = v := by
    unfold trailing_zeros
    rw [bit_length_mul_pow o v ho0, bit_length_eq o]
    have hg : Nat.gcd (o * 2 ^ v) (2 ^ (Nat.size o + v)) = 2 ^ v := by
      rw [pow_add, Nat.gcd_mul_right]
      have hc : Nat.Coprime o (2 ^ Nat.size o) :=
        Nat.Coprime.pow_right _ ho.coprime_two_right
      rw [hc.gcd_eq_one, one_mul]
    rw [hg, bit_length_eq, Nat.size_pow]
    rfl
  unfold normal
  rw [if_neg hn0]
  simp only [htz]
  rw [Nat.mul_div_cancel _ (by positivity)]

/-- Lowest terms do not depend on how the value is split into digits and exponent. -/
theorem normal_shift (s : Bool) (n k : Nat) (e : Int) :
    normal s (n * 2 ^ k) (e - Int.ofNat k) = normal s n e := by
  by_cases h0 : n = 0
  · subst h0
    simp [normal]
  · obtain ⟨v, o, ho, hn⟩ := Nat.exists_eq_two_pow_mul_odd h0
    have h1 : n * 2 ^ k = o * 2 ^ (v + k) := by rw [hn, pow_add]; ring
    have h2 : n = o * 2 ^ v := by rw [hn]; ring
    rw [h1, normal_odd s o (v + k) _ ho]
    conv_rhs => rw [h2, normal_odd s o v _ ho]
    congr 1
    simp only [Int.ofNat_eq_coe]
    push_cast
    ring

/-- The overflow test and lowest terms do not depend on the split of the value. -/
theorem finish_shift (s : Bool) (n k : Nat) (e : Int) (h : n ≠ 0) :
    finish s (n * 2 ^ k) (e - Int.ofNat k) = finish s n e := by
  unfold finish
  rw [bit_length_mul_pow n k h, normal_shift]
  have : Int.ofNat (bit_length n + k) + (e - Int.ofNat k) = Int.ofNat (bit_length n) + e := by
    simp only [Int.ofNat_eq_coe]
    push_cast
    ring
  rw [this]


/-- Rounding does not depend on the representation: `n * 2^k` at exponent `e - k` rounds as `n` at exponent `e`. -/
theorem round_shift (s : Bool) (n k : Nat) (e : Int) :
    round s (n * 2 ^ k) (e - Int.ofNat k) = round s n e := by
  by_cases h0 : n = 0
  · subst h0
    simp [round]
  · have hn0 : n * 2 ^ k ≠ 0 := Nat.mul_ne_zero h0 (by positivity)
    have hq : max (e - Int.ofNat k + Int.ofNat (bit_length (n * 2 ^ k)) - 53) (-1074)
        = max (e + Int.ofNat (bit_length n) - 53) (-1074) := by
      rw [bit_length_mul_pow n k h0]
      congr 1
      simp only [Int.ofNat_eq_coe]
      push_cast
      ring
    unfold round
    rw [if_neg h0, if_neg hn0]
    dsimp only
    rw [hq]
    generalize max (e + Int.ofNat (bit_length n) - 53) (-1074) = q
    simp only [Int.ofNat_eq_coe]
    by_cases h1 : q ≤ e - (k : Int)
    · have h2 : q ≤ e := by omega
      rw [if_pos h1, if_pos h2]
      exact finish_shift s n k e h0
    · rw [if_neg h1]
      by_cases h2 : q ≤ e
      · rw [if_pos h2]
        obtain ⟨d, hd⟩ : ∃ d : Nat, e - q = (d : Int) := ⟨(e - q).toNat, by omega⟩
        have hdk : d < k := by omega
        obtain ⟨sh, hsh⟩ : ∃ sh : Nat, k = sh + 1 + d := ⟨k - d - 1, by omega⟩
        have hshift : (q - (e - (k : Int))).toNat = sh + 1 := by omega
        rw [hshift]
        have hmul : n * 2 ^ k = (n * 2 ^ d) * 2 ^ (sh + 1) := by
          rw [hsh, pow_add]
          ring
        have hkeep : n * 2 ^ k / 2 ^ (sh + 1) = n * 2 ^ d := by
          rw [hmul, Nat.mul_div_cancel _ (by positivity)]
        have hrest : n * 2 ^ k % 2 ^ (sh + 1) = 0 := by
          rw [hmul, Nat.mul_mod_left]
        rw [hkeep, hrest]
        have hhalf : 0 < 2 ^ (sh + 1 - 1) := by positivity
        rw [if_neg (by omega)]
        have hqe : q = e - Int.ofNat d := by
          simp only [Int.ofNat_eq_coe]
          omega
        rw [hqe]
        exact finish_shift s n d e h0
      · rw [if_neg h2]
        obtain ⟨sh, hsh⟩ : ∃ sh : Nat, q - e = ((sh + 1 : Nat) : Int) :=
          ⟨(q - e).toNat - 1, by omega⟩
        have hs1 : (q - (e - (k : Int))).toNat = sh + 1 + k := by omega
        have hs2 : (q - e).toNat = sh + 1 := by omega
        rw [hs1, hs2]
        have hkeep : n * 2 ^ k / 2 ^ (sh + 1 + k) = n / 2 ^ (sh + 1) := by
          rw [pow_add, Nat.mul_div_mul_right _ _ (by positivity)]
        have hrest : n * 2 ^ k % 2 ^ (sh + 1 + k) = n % 2 ^ (sh + 1) * 2 ^ k := by
          rw [pow_add, Nat.mul_mod_mul_right]
        have hhalf : 2 ^ (sh + 1 + k - 1) = 2 ^ (sh + 1 - 1) * 2 ^ k := by
          rw [← pow_add]
          congr 1
          omega
        rw [hkeep, hrest, hhalf]
        have hpos : 0 < 2 ^ k := by positivity
        have hc1 : (n % 2 ^ (sh + 1) * 2 ^ k > 2 ^ (sh + 1 - 1) * 2 ^ k)
            ↔ (n % 2 ^ (sh + 1) > 2 ^ (sh + 1 - 1)) := Nat.mul_lt_mul_right hpos
        have hc2 : (n % 2 ^ (sh + 1) * 2 ^ k = 2 ^ (sh + 1 - 1) * 2 ^ k)
            ↔ (n % 2 ^ (sh + 1) = 2 ^ (sh + 1 - 1)) := Nat.mul_left_inj (by positivity)
        simp only [hc1, hc2]


/-- A power of two does not change the sign. -/
theorem is_neg_mul_pow (m : Int) (k : Nat) : is_neg (m * 2 ^ k) = is_neg m := by
  have hp : (0 : Int) < 2 ^ k := by positivity
  unfold is_neg
  by_cases h : m < 0
  · have h2 : m * 2 ^ k < 0 := by nlinarith
    simp [h, h2]
  · have h2 : ¬ m * 2 ^ k < 0 := by
      have : 0 ≤ m * 2 ^ k := by nlinarith
      omega
    simp [h, h2]

/-- A product does not depend on the representation of its left factor. -/
theorem mul_fin_shift (m e : Int) (k : Nat) (t : double) :
    mul (fin (m * 2 ^ k) (e - Int.ofNat k)) t = mul (fin m e) t := by
  cases t with
  | fin mt et =>
    show round (xor (is_neg (m * 2 ^ k)) (is_neg mt)) ((m * 2 ^ k).natAbs * mt.natAbs)
        (e - Int.ofNat k + et)
      = round (xor (is_neg m) (is_neg mt)) (m.natAbs * mt.natAbs) (e + et)
    have h1 : (m * 2 ^ k).natAbs * mt.natAbs = (m.natAbs * mt.natAbs) * 2 ^ k := by
      rw [Int.natAbs_mul, Int.natAbs_pow]
      show m.natAbs * 2 ^ k * mt.natAbs = _
      ring
    have h2 : e - Int.ofNat k + et = (e + et) - Int.ofNat k := by ring
    rw [is_neg_mul_pow, h1, h2, round_shift]
  | inf s =>
    show (if m * 2 ^ k = 0 then nan else inf (xor (is_neg (m * 2 ^ k)) s))
      = (if m = 0 then nan else inf (xor (is_neg m) s))
    have hp : (2 : Int) ^ k ≠ 0 := by positivity
    rw [is_neg_mul_pow]
    by_cases h : m = 0
    · simp [h]
    · rw [if_neg h, if_neg (mul_ne_zero h hp)]
  | nan => rfl

/-- Two finite values neither of which is below the other give the same product with any third value. -/
theorem mul_eq_of_not_lt (ma ea mb eb : Int) (t : double)
    (h1 : lt (fin ma ea) (fin mb eb) = false) (h2 : lt (fin mb eb) (fin ma ea) = false) :
    mul (fin ma ea) t = mul (fin mb eb) t := by
  have g1 : ¬ (ma * Int.ofNat (2 ^ (ea - min ea eb).toNat)
      < mb * Int.ofNat (2 ^ (eb - min ea eb).toNat)) := by
    intro h
    have : lt (fin ma ea) (fin mb eb) = true := decide_eq_true h
    rw [h1] at this
    cases this
  have g2 : ¬ (mb * Int.ofNat (2 ^ (eb - min eb ea).toNat)
      < ma * Int.ofNat (2 ^ (ea - min eb ea).toNat)) := by
    intro h
    have : lt (fin mb eb) (fin ma ea) = true := decide_eq_true h
    rw [h2] at this
    cases this
  rw [min_comm eb ea] at g2
  simp only [Int.ofNat_eq_coe] at g1 g2
  push_cast at g1 g2
  by_cases hle : ea ≤ eb
  · rw [min_eq_left hle] at g1 g2
    obtain ⟨k, hk⟩ : ∃ k : Nat, eb - ea = (k : Int) := ⟨(eb - ea).toNat, by omega⟩
    have hk2 : (eb - ea).toNat = k := by omega
    rw [hk2] at g1 g2
    have h0 : (ea - ea).toNat = 0 := by omega
    rw [h0, pow_zero, mul_one] at g1 g2
    have hm : ma = mb * 2 ^ k := le_antisymm (not_lt.mp g2) (not_lt.mp g1)
    have he : ea = eb - Int.ofNat k := by
      simp only [Int.ofNat_eq_coe]
      omega
    rw [hm, he]
    exact mul_fin_shift mb eb k t
  · have hle2 : eb ≤ ea := by omega
    rw [min_eq_right hle2] at g1 g2
    obtain ⟨k, hk⟩ : ∃ k : Nat, ea - eb = (k : Int) := ⟨(ea - eb).toNat, by omega⟩
    have hk2 : (ea - eb).toNat = k := by omega
    rw [hk2] at g1 g2
    have h0 : (eb - eb).toNat = 0 := by omega
    rw [h0, pow_zero, mul_one] at g1 g2
    have hm : mb = ma * 2 ^ k := le_antisymm (not_lt.mp g1) (not_lt.mp g2)
    have he : eb = ea - Int.ofNat k := by
      simp only [Int.ofNat_eq_coe]
      omega
    rw [hm, he]
    exact (mul_fin_shift ma ea k t).symm

/-- The comparison of finite values is asymmetric. -/
theorem lt_asymm_fin (ma ea mb eb : Int) (h : lt (fin ma ea) (fin mb eb) = true) :
    lt (fin mb eb) (fin ma ea) = false := by
  have g1 : ma * Int.ofNat (2 ^ (ea - min ea eb).toNat)
      < mb * Int.ofNat (2 ^ (eb - min ea eb).toNat) := of_decide_eq_true h
  show decide (mb * Int.ofNat (2 ^ (eb - min eb ea).toNat)
      < ma * Int.ofNat (2 ^ (ea - min eb ea).toNat)) = false
  rw [min_comm eb ea]
  exact decide_eq_false (not_lt.mpr (le_of_lt g1))

/-- The modulus of a rounded value does not depend on its sign. -/
theorem abs_round (s r : Bool) (n : Nat) (e : Int) : abs (round s n e) = abs (round r n e) := by
  have hnormal : ∀ (m : Nat) (x : Int), abs (normal s m x) = abs (normal r m x) := by
    intro m x
    unfold normal
    by_cases h : m = 0
    · rw [if_pos h, if_pos h]
    · rw [if_neg h, if_neg h]
      cases s <;> cases r <;> simp [abs]
  have hfinish : ∀ (m : Nat) (x : Int), abs (finish s m x) = abs (finish r m x) := by
    intro m x
    unfold finish
    split_ifs
    · rfl
    · exact hnormal m x
  unfold round
  by_cases h0 : n = 0
  · rw [if_pos h0, if_pos h0]
  · rw [if_neg h0, if_neg h0]
    dsimp only
    split_ifs
    · exact hfinish _ _
    · exact hfinish _ _
    · exact hfinish _ _

/-- The modulus of a difference does not depend on the order of its terms: `abs(a - b) = abs(b - a)`. -/
theorem abs_sub_swap (a b : double) : abs (a - b) = abs (b - a) := by
  cases a with
  | nan => cases b <;> rfl
  | inf s =>
    cases b with
    | nan => rfl
    | inf t => cases s <;> cases t <;> rfl
    | fin mb eb => rfl
  | fin ma ea =>
    cases b with
    | nan => rfl
    | inf t => rfl
    | fin mb eb =>
      show abs (round
          (is_neg (ma * Int.ofNat (2 ^ (ea - min ea eb).toNat)
            + -mb * Int.ofNat (2 ^ (eb - min ea eb).toNat)))
          (ma * Int.ofNat (2 ^ (ea - min ea eb).toNat)
            + -mb * Int.ofNat (2 ^ (eb - min ea eb).toNat)).natAbs (min ea eb))
        = abs (round
          (is_neg (mb * Int.ofNat (2 ^ (eb - min eb ea).toNat)
            + -ma * Int.ofNat (2 ^ (ea - min eb ea).toNat)))
          (mb * Int.ofNat (2 ^ (eb - min eb ea).toNat)
            + -ma * Int.ofNat (2 ^ (ea - min eb ea).toNat)).natAbs (min eb ea))
      rw [min_comm eb ea]
      have hneg : mb * Int.ofNat (2 ^ (eb - min ea eb).toNat)
            + -ma * Int.ofNat (2 ^ (ea - min ea eb).toNat)
          = -(ma * Int.ofNat (2 ^ (ea - min ea eb).toNat)
            + -mb * Int.ofNat (2 ^ (eb - min ea eb).toNat)) := by ring
      rw [hneg, Int.natAbs_neg]
      exact abs_round _ _ _ _


/-- Away from NaN, `std::max(p, q) * t` and `std::max(q, p) * t` are the same value. -/
theorem max_mul_swap (p q t : double) (hp : p ≠ nan) (hq : q ≠ nan) :
    max p q * t = max q p * t := by
  show mul (if lt p q = true then q else p) t = mul (if lt q p = true then p else q) t
  cases p with
  | nan => exact absurd rfl hp
  | inf s =>
    cases q with
    | nan => exact absurd rfl hq
    | inf r => cases s <;> cases r <;> rfl
    | fin mb eb => cases s <;> rfl
  | fin ma ea =>
    cases q with
    | nan => exact absurd rfl hq
    | inf r => cases r <;> rfl
    | fin mb eb =>
      by_cases h1 : lt (fin ma ea) (fin mb eb) = true
      · rw [if_pos h1, if_neg (by rw [lt_asymm_fin ma ea mb eb h1]; decide)]
      · by_cases h2 : lt (fin mb eb) (fin ma ea) = true
        · rw [if_neg h1, if_pos h2]
        · rw [if_neg h1, if_neg h2]
          exact mul_eq_of_not_lt ma ea mb eb t (by simpa using h1) (by simpa using h2)

/-- Nothing is below NaN. -/
theorem lt_nan (t : double) : lt t nan = false := by
  cases t <;> rfl

/-- The symmetry test of the worker fires on the pair `(a, b)` exactly as on `(b, a)`. -/
theorem pair_test_symm (a b t : double) (h1 : abs (a - b) > t)
    (h2 : abs (a - b) > max (abs a) (abs b) * t) :
    abs (b - a) > t ∧ abs (b - a) > max (abs b) (abs a) * t := by
  have ha : abs a ≠ nan := by
    intro h
    cases a with
    | nan =>
      have h3 : lt t (abs (nan - b)) = true := h1
      have h4 : abs (nan - b) = nan := by cases b <;> rfl
      rw [h4, lt_nan] at h3
      cases h3
    | inf s => cases h
    | fin m e => cases h
  have hb : abs b ≠ nan := by
    intro h
    cases b with
    | nan =>
      have h3 : lt t (abs (a - nan)) = true := h1
      have h4 : abs (a - nan) = nan := by cases a <;> rfl
      rw [h4, lt_nan] at h3
      cases h3
    | inf s => cases h
    | fin m e => cases h
  rw [abs_sub_swap b a, max_mul_swap (abs b) (abs a) t hb ha]
  exact ⟨h1, h2⟩

end double

/-! ### sym_helper: the symmetry test as the worker computes it -/

/-- A loop over an optional state in which every iteration either returns or moves
the tracked state one step on: it ends returned or in the tracked state, and it ends
returned when some iteration returns from the tracked state. -/
theorem for_uword_option_stop {σ : Type} (body : Nat → Option σ → Option σ) (s : Nat → σ)
    (n : Nat) (hnone : ∀ i, body i none = none)
    (hstep : ∀ k, k < n →
      body k (some (s k)) = none ∨ body k (some (s k)) = some (s (k + 1))) :
    (for_uword n body (some (s 0)) = none ∨ for_uword n body (some (s 0)) = some (s n)) ∧
    (∀ k, k < n → body k (some (s k)) = none → for_uword n body (some (s 0)) = none) := by
  induction n with
  | zero =>
    refine ⟨Or.inr rfl, ?_⟩
    intro k hk
    omega
  | succ m ih =>
    obtain ⟨hend, hstop⟩ := ih (fun k hk => hstep k (by omega))
    rw [for_uword_succ]
    constructor
    · rcases hend with h | h
      · rw [h, hnone]
        exact Or.inl rfl
      · rw [h]
        exact hstep m (by omega)
    · intro k hk hbad
      by_cases hkm : k = m
      · subst hkm
        rcases hend with h | h
        · rw [h, hnone]
        · rw [h, hbad]
      · rw [hstop k (by omega) hbad, hnone]

namespace sym_helper

/-- The inner loop of the template worker returns when the symmetry test, as
computed in the arithmetic of the element type, fires at some pair `(j, i)` with
`j < i < N`. -/
theorem templ_inner_none {eT : Type} [Add eT] [Sub eT] [Mul eT] [LE eT] [LT eT]
    [DecidableRel (LE.le : eT → eT → Prop)] [DecidableRel (LT.lt : eT → eT → Prop)] [Max eT]
    (abs : eT → eT) (tol max_diag : eT) (N : Nat) (A_mem : Nat → eT) (j i : Nat)
    (hji : j < i) (hi : i < N)
    (hfire : abs (A_mem (j * N + i) - A_mem (j + i * N)) > tol ∧
      abs (A_mem (j * N + i) - A_mem (j + i * N))
        > max (abs (A_mem (j * N + i))) (abs (A_mem (j + i * N))) * tol) :
    templ.guess_sympd_worker_inner abs tol max_diag N (N + 1) A_mem (j * N) j = none := by
  unfold templ.guess_sympd_worker_inner for_uword_from
  have h := for_uword_option_stop
    (fun k (st : Option (Nat × Nat)) =>
      match st with
      | none => none
      | some (A_ji_ptr, A_ii_ptr) =>
        let A_ij := A_mem (j * N + (j + 1 + k))
        let A_ji := A_mem A_ji_ptr
        let A_ij_abs := abs A_ij
        let A_ji_abs := abs A_ji
        if A_ij_abs ≥ max_diag then none
        else
          let A_delta := abs (A_ij - A_ji)
          let A_abs_max := max A_ij_abs A_ji_abs
          if (A_delta > tol) ∧ (A_delta > (A_abs_max * tol)) then none
          else
            let A_ii := A_mem A_ii_ptr
            if (A_ij_abs + A_ij_abs) ≥ (A_ii + A_mem (j * N + j)) then none
            else some (A_ji_ptr + N, A_ii_ptr + (N + 1)))
    (fun k => (j + (j + 1 + k) * N, (j + 1 + k) + (j + 1 + k) * N))
    (N - (j + 1)) (fun _ => rfl)
    (by
      intro k _
      dsimp only
      split_ifs
      · exact Or.inl rfl
      · exact Or.inl rfl
      · exact Or.inl rfl
      · refine Or.inr ?_
        have e1 : (j + 1 + (k + 1)) * N = (j + 1 + k) * N + N := by
          rw [← Nat.add_assoc, Nat.succ_mul]
        rw [e1]
        simp only [Option.some.injEq, Prod.mk.injEq]
        constructor <;> omega)
  have e : j + 1 + (i - (j + 1)) = i := by omega
  refine h.2 (i - (j + 1)) (by omega) ?_
  dsimp only
  rw [e]
  split_ifs <;> rfl

/-- The pair loop of the template worker returns when the symmetry test, as
computed, fires at some pair `j < i < N`. -/
theorem templ_pairs_none {eT : Type} [Add eT] [Sub eT] [Mul eT] [LE eT] [LT eT]
    [DecidableRel (LE.le : eT → eT → Prop)] [DecidableRel (LT.lt : eT → eT → Prop)] [Max eT]
    (abs : eT → eT) (tol max_diag : eT) (N : Nat) (A_mem : Nat → eT) (j i : Nat)
    (hji : j < i) (hi : i < N)
    (hfire : abs (A_mem (j * N + i) - A_mem (j + i * N)) > tol ∧
      abs (A_mem (j * N + i) - A_mem (j + i * N))
        > max (abs (A_mem (j * N + i))) (abs (A_mem (j + i * N))) * tol) :
    templ.guess_sympd_worker_pairs abs tol max_diag N (N - 1) (N + 1) A_mem = none := by
  unfold templ.guess_sympd_worker_pairs
  have h := for_uword_option_stop
    (fun k (st : Option Nat) =>
      match st with
      | none => none
      | some A_col =>
        match templ.guess_sympd_worker_inner abs tol max_diag N (N + 1) A_mem A_col k with
        | none => none
        | some _ => some (A_col + N))
    (fun k => k * N)
    (N - 1) (fun _ => rfl)
    (by
      intro k _
      dsimp only
      cases templ.guess_sympd_worker_inner abs tol max_diag N (N + 1) A_mem (k * N) k with
      | none => exact Or.inl rfl
      | some st =>
        refine Or.inr ?_
        dsimp only
        rw [Nat.succ_mul])
  simp only [Nat.zero_mul] at h
  refine h.2 j (by omega) ?_
  rw [templ_inner_none abs tol max_diag N A_mem j i hji hi hfire]

/-- The template worker returns false when the symmetry test, as computed in the
arithmetic of the element type, fires at some pair `j < i < N`. -/
theorem templ_worker_false {eT : Type} [Zero eT] [OfNat eT 100] [Add eT] [Sub eT] [Mul eT]
    [LE eT] [LT eT] [DecidableRel (LE.le : eT → eT → Prop)]
    [DecidableRel (LT.lt : eT → eT → Prop)] [Max eT] (abs : eT → eT) (lim : Numeric eT)
    (A : Mat eT) (hN : A.n_rows + 1 < 2 ^ lim.uword_bits) (j i : Nat) (hji : j < i)
    (hi : i < A.n_rows)
    (hfire : abs (A.at_ i j - A.at_ j i) > 100 * lim.epsilon ∧
      abs (A.at_ i j - A.at_ j i)
        > max (abs (A.at_ i j)) (abs (A.at_ j i)) * (100 * lim.epsilon)) :
    templ.guess_sympd_worker abs lim A = false := by
  have hfire2 : abs (A.mem (j * A.n_rows + i) - A.mem (j + i * A.n_rows)) > 100 * lim.epsilon ∧
      abs (A.mem (j * A.n_rows + i) - A.mem (j + i * A.n_rows))
        > max (abs (A.mem (j * A.n_rows + i))) (abs (A.mem (j + i * A.n_rows)))
          * (100 * lim.epsilon) := by
    rw [Nat.add_comm (j * A.n_rows) i]
    exact hfire
  unfold templ.guess_sympd_worker
  simp only [Mat.memptr]
  cases templ.guess_sympd_worker_diag lim (100 * lim.epsilon) A.n_rows A.mem with
  | none => rfl
  | some st =>
    obtain ⟨A_col, diag_below_tol, max_diag⟩ := st
    dsimp only
    cases diag_below_tol with
    | true => rfl
    | false =>
      obtain ⟨e1, e2⟩ := uword_no_wrap lim.uword_bits A.n_rows (by omega) hN
      simp only [Bool.false_eq_true, if_false]
      rw [e1, e2, templ_pairs_none abs (100 * lim.epsilon) max_diag A.n_rows A.mem j i hji hi
        hfire2]

end sym_helper

/-- When the worker says no, so does `guess_sympd(A, min_n_rows)`. -/
theorem guess_sympd_min_false {eT : Type} (worker : Mat eT → Bool) (A : Mat eT)
    (min_n_rows : Nat) (h : worker A = false) :
    sym_helper.guess_sympd_min worker A min_n_rows = false := by
  unfold sym_helper.guess_sympd_min
  by_cases hc : ((A.n_rows != A.n_cols) || decide (A.n_rows < min_n_rows)) = true
  · rw [if_pos hc]
  · rw [if_neg hc]
    exact h

/-- On an ordered ring the template worker is the worker of the ordered-ring
embedding, with `|x|` for `std::abs`. -/
theorem templ_worker_eq {eT : Type} [LinearOrderedRing eT] (lim : Numeric eT) (A : Mat eT) :
    sym_helper.templ.guess_sympd_worker (fun x => |x|) lim A
      = sym_helper.guess_sympd_worker lim A :=
  rfl

/-- C19, counterexample: on `double`, in the 4 x 4 matrix with 2 on the diagonal,
`A(1,0)` the `double` nearest to 1.24 and `A(0,1) = A(1,0) - 124 * 2^-52`, the
entries as exact numbers satisfy `|A_10 - A_01| > tol` and
`|A_10 - A_01| > tol * max(|A_10|, |A_01|)` with `tol = 100 * 2^-52`, yet
`guess_sympd` returns true: the product `max(|A_10|, |A_01|) * tol` rounds up to
`124 * 2^-52`, which is `|A_10 - A_01|`, so the test of the worker does not fire. -/
theorem guess_sympd_asymmetric_at_rounding :
    |double.value (double_asym_at_rounding.at_ 1 0)
        - double.value (double_asym_at_rounding.at_ 0 1)|
      > 100 * double.value double_numeric.epsilon ∧
    |double.value (double_asym_at_rounding.at_ 1 0)
        - double.value (double_asym_at_rounding.at_ 0 1)|
      > 100 * double.value double_numeric.epsilon
        * max |double.value (double_asym_at_rounding.at_ 1 0)|
            |double.value (double_asym_at_rounding.at_ 0 1)| ∧
    double.abs (double_asym_at_rounding.at_ 1 0) * (100 * double_numeric.epsilon)
      = double.abs (double_asym_at_rounding.at_ 1 0 - double_asym_at_rounding.at_ 0 1) ∧
    sym_helper.guess_sympd
        (sym_helper.templ.guess_sympd_worker double.abs double_numeric)
        double_asym_at_rounding = true := by
  have h10 : double.value (double_asym_at_rounding.at_ 1 0)
      = 5584463537939415 / 4503599627370496 := by
    show ((5584463537939415 : Int) : Rat) * (2 : Rat) ^ (-52 : Int) = _
    norm_num
  have h01 : double.value (double_asym_at_rounding.at_ 0 1)
      = 5584463537939291 / 4503599627370496 := by
    show ((5584463537939291 : Int) : Rat) * (2 : Rat) ^ (-52 : Int) = _
    norm_num
  have heps : double.value double_numeric.epsilon = 1 / 4503599627370496 := by
    show ((1 : Int) : Rat) * (2 : Rat) ^ (-52 : Int) = _
    norm_num
  rw [h10, h01, heps]
  refine ⟨?_, ?_, by decide, by decide⟩
  · norm_num [abs_of_pos]
  · norm_num [abs_of_pos]

/-- C19, amended: for every real matrix `A` in which some pair `j < i` is asymmetric
beyond tolerance as the worker computes it, that is `|A_ij - A_ji| > tol` and
`|A_ij - A_ji| > max(|A_ij|, |A_ji|) * tol` with `tol = 100 * epsilon` and every
operation performed in the arithmetic of the element type,
`sym_helper::guess_sympd(A)` returns false; equivalently a true verdict implies that
no pair fires the test as computed. On `double` this holds for every `i != j`, the
test being the same on a pair and on its mirror image, and in exact arithmetic it
holds of the two inequalities as they are written, for every `i != j`. -/
theorem guess_sympd_true_symmetric {F eT : Type} [Zero F] [OfNat F 100] [Add F] [Sub F]
    [Mul F] [LE F] [LT F] [DecidableRel (LE.le : F → F → Prop)]
    [DecidableRel (LT.lt : F → F → Prop)] [Max F] [LinearOrderedCommRing eT] (abs : F → F)
    (limF : Numeric F) (B : Mat F) (lim : Numeric eT) (A : Mat eT)
    (hNB : B.n_rows + 1 < 2 ^ limF.uword_bits) (hN : A.n_rows + 1 < 2 ^ lim.uword_bits) :
    (∀ i j, j < i → i < B.n_rows →
      abs (B.at_ i j - B.at_ j i) > 100 * limF.epsilon →
      abs (B.at_ i j - B.at_ j i)
        > max (abs (B.at_ i j)) (abs (B.at_ j i)) * (100 * limF.epsilon) →
      sym_helper.guess_sympd (sym_helper.templ.guess_sympd_worker abs limF) B = false) ∧
    (sym_helper.guess_sympd (sym_helper.templ.guess_sympd_worker abs limF) B = true →
      ∀ i j, j < i → i < B.n_rows →
        ¬ (abs (B.at_ i j - B.at_ j i) > 100 * limF.epsilon ∧
           abs (B.at_ i j - B.at_ j i)
            > max (abs (B.at_ i j)) (abs (B.at_ j i)) * (100 * limF.epsilon))) ∧
    (∀ i j, i < A.n_rows → j < A.n_rows → i ≠ j →
      |A.at_ i j - A.at_ j i| > 100 * lim.epsilon →
      |A.at_ i j - A.at_ j i| > 100 * lim.epsilon * max |A.at_ i j| |A.at_ j i| →
      sym_helper.guess_sympd (sym_helper.guess_sympd_worker lim) A = false) ∧
    (sym_helper.guess_sympd (sym_helper.guess_sympd_worker lim) A = true →
      ∀ i j, i < A.n_rows → j < A.n_rows → i ≠ j →
        ¬ (|A.at_ i j - A.at_ j i| > 100 * lim.epsilon ∧
           |A.at_ i j - A.at_ j i| > 100 * lim.epsilon * max |A.at_ i j| |A.at_ j i|)) ∧
    (∀ D : Mat double, D.n_rows + 1 < 2 ^ double_numeric.uword_bits →
      ∀ i j, i < D.n_rows → j < D.n_rows → i ≠ j →
        double.abs (D.at_ i j - D.at_ j i) > 100 * double_numeric.epsilon →
        double.abs (D.at_ i j - D.at_ j i)
          > max (double.abs (D.at_ i j)) (double.abs (D.at_ j i))
            * (100 * double_numeric.epsilon) →
        sym_helper.guess_sympd (sym_helper.templ.guess_sympd_worker double.abs double_numeric) D
          = false) ∧
    (∀ D : Mat double, D.n_rows + 1 < 2 ^ double_numeric.uword_bits →
      sym_helper.guess_sympd (sym_helper.templ.guess_sympd_worker double.abs double_numeric) D
          = true →
      ∀ i j, i < D.n_rows → j < D.n_rows → i ≠ j →
        ¬ (double.abs (D.at_ i j - D.at_ j i) > 100 * double_numeric.epsilon ∧
           double.abs (D.at_ i j - D.at_ j i)
            > max (double.abs (D.at_ i j)) (double.abs (D.at_ j i))
              * (100 * double_numeric.epsilon))) := by
  have hdbl : ∀ D : Mat double, D.n_rows + 1 < 2 ^ double_numeric.uword_bits →
      ∀ i j, i < D.n_rows → j < D.n_rows → i ≠ j →
        double.abs (D.at_ i j - D.at_ j i) > 100 * double_numeric.epsilon →
        double.abs (D.at_ i j - D.at_ j i)
          > max (double.abs (D.at_ i j)) (double.abs (D.at_ j i))
            * (100 * double_numeric.epsilon) →
        sym_helper.guess_sympd (sym_helper.templ.guess_sympd_worker double.abs double_numeric) D
          = false := by
    intro D hND i j hi hj hij h1 h2
    rcases Nat.lt_or_gt_of_ne hij with hlt | hgt
    · have hs := double.pair_test_symm (D.at_ i j) (D.at_ j i)
        (100 * double_numeric.epsilon) h1 h2
      exact guess_sympd_min_false _ D 4
        (sym_helper.templ_worker_false double.abs double_numeric D hND i j hlt hj hs)
    · exact guess_sympd_min_false _ D 4
        (sym_helper.templ_worker_false double.abs double_numeric D hND j i hgt hi ⟨h1, h2⟩)
  have hcomp : ∀ i j, j < i → i < B.n_rows →
      abs (B.at_ i j - B.at_ j i) > 100 * limF.epsilon →
      abs (B.at_ i j - B.at_ j i)
        > max (abs (B.at_ i j)) (abs (B.at_ j i)) * (100 * limF.epsilon) →
      sym_helper.guess_sympd (sym_helper.templ.guess_sympd_worker abs limF) B = false := by
    intro i j hji hi h1 h2
    exact guess_sympd_min_false _ B 4
      (sym_helper.templ_worker_false abs limF B hNB j i hji hi ⟨h1, h2⟩)
  refine ⟨hcomp, ?_, (guess_sympd_symmetric_exact lim A hN).1,
    (guess_sympd_symmetric_exact lim A hN).2, hdbl, ?_⟩
  · rintro htrue i j hji hi ⟨h1, h2⟩
    rw [hcomp i j hji hi h1 h2] at htrue
    cases htrue
  · rintro D hND htrue i j hi hj hij ⟨h1, h2⟩
    rw [hdbl D hND i j hi hj hij h1 h2] at htrue
    cases htrue

/-- Witness for C19 amended: on `double`, in the matrix with 2 on the diagonal,
`A(1,0)` the `double` nearest to 1.24 and `A(0,1) = A(1,0) - 126 * 2^-52`, the test
fires as computed, seen from the upper pair `(0, 1)`, and `guess_sympd` returns
false. -/
theorem guess_sympd_true_symmetric_witness :
    double_asym_beyond.n_rows + 1 < 2 ^ double_numeric.uword_bits ∧
    double.abs (double_asym_beyond.at_ 0 1 - double_asym_beyond.at_ 1 0)
      > 100 * double_numeric.epsilon ∧
    double.abs (double_asym_beyond.at_ 0 1 - double_asym_beyond.at_ 1 0)
      > max (double.abs (double_asym_beyond.at_ 0 1)) (double.abs (double_asym_beyond.at_ 1 0))
        * (100 * double_numeric.epsilon) ∧
    sym_helper.guess_sympd (sym_helper.templ.guess_sympd_worker double.abs double_numeric)
      double_asym_beyond = false :=
  ⟨by decide, by decide, by decide,
   (guess_sympd_true_symmetric double.abs double_numeric double_asym_beyond rat_numeric
      (rat_mat 4 4 [2, 1, 0, 0, 1, 2, 1, 0, 0, 1, 2, 1, 0, 0, 3, 2]) (by decide)
      (by decide)).2.2.2.2.1 double_asym_beyond (by decide) 0 1 (by decide) (by decide)
      (by decide) (by decide) (by decide)⟩

/-! ### sym_helper: the largest modulus off the diagonal -/

/-- C23: the code at the failing input. `guess_sympd` returns true on the 4 x 4
matrix with unit diagonal, `A(1,0) = 1 - 25 * 2^-52` and `A(0,1) = 1 + 25 * 2^-52`,
yet `|A(0,1)|` is above every diagonal entry, so the value with largest modulus is
not on the main diagonal: the worker compares only the lower-triangle entry `A_ij`
with the largest diagonal entry. This holds in exact arithmetic with the epsilon of
`double`, and on `double` itself, where every entry is representable. On `double`
the worker also accepts a matrix with NaN below the diagonal, which no comparison
catches. -/
theorem guess_sympd_upper_entry_above_diag :
    sym_helper.guess_sympd (sym_helper.guess_sympd_worker rat_numeric) rat_upper_exceeds
      = true ∧
    (∀ d, d < rat_upper_exceeds.n_rows →
      rat_upper_exceeds.at_ d d < |rat_upper_exceeds.at_ 0 1|) ∧
    ¬ (∀ i j, i < rat_upper_exceeds.n_rows → j < rat_upper_exceeds.n_rows → i ≠ j →
        ∃ d, d < rat_upper_exceeds.n_rows ∧
          |rat_upper_exceeds.at_ i j| ≤ rat_upper_exceeds.at_ d d) ∧
    sym_helper.guess_sympd (sym_helper.templ.guess_sympd_worker double.abs double_numeric)
      double_upper_exceeds = true ∧
    (∀ d, d < double_upper_exceeds.n_rows →
      double_upper_exceeds.at_ d d < double.abs (double_upper_exceeds.at_ 0 1)) ∧
    (∀ d, d < double_upper_exceeds.n_rows →
      double.value (double_upper_exceeds.at_ d d) = rat_upper_exceeds.at_ d d) ∧
    double.value (double_upper_exceeds.at_ 0 1) = rat_upper_exceeds.at_ 0 1 ∧
    double.value (double_upper_exceeds.at_ 1 0) = rat_upper_exceeds.at_ 1 0 ∧
    sym_helper.guess_sympd (sym_helper.templ.guess_sympd_worker double.abs double_numeric)
      double_nan_below = true := by
  have hd : ∀ d, d < rat_upper_exceeds.n_rows →
      rat_upper_exceeds.at_ d d < |rat_upper_exceeds.at_ 0 1| := by
    intro d hd
    have hd4 : d < 4 := hd
    interval_cases d <;> norm_num [Mat.at_, rat_upper_exceeds, rat_mat, abs_of_pos]
  refine ⟨rat_upper_exceeds_accepted, hd, ?_, by decide, by decide, ?_, ?_, ?_, by decide⟩
  · intro hall
    obtain ⟨d, hdlt, hle⟩ := hall 0 1 (by decide) (by decide) (by decide)
    exact absurd (hd d hdlt) (not_lt.mpr hle)
  · intro d hd
    have hd4 : d < 4 := hd
    interval_cases d <;>
      (show ((1 : Int) : Rat) * (2 : Rat) ^ (0 : Int) = _;
       norm_num [Mat.at_, rat_upper_exceeds, rat_mat])
  · show ((4503599627370521 : Int) : Rat) * (2 : Rat) ^ (-52 : Int) = _
    norm_num [Mat.at_, rat_upper_exceeds, rat_mat]
  · show ((4503599627370471 : Int) : Rat) * (2 : Rat) ^ (-52 : Int) = _
    norm_num [Mat.at_, rat_upper_exceeds, rat_mat]
